import Mathlib

/-!
Verification of the binary-layout engine of the XLabs ts-sdk.

The data model (Layout, Item, Conversion) is embedded from
src/packages/binary-layout/src/layout.ts; the structural transforms are
embedded from fixedDynamic.ts, manipulate.ts and items.ts.  The core
serialize / deserialize / calcStaticSize / setEndianness algorithms are not
part of the provided sources (only their declarations, tests and callers
are), so they are modelled from the specification, as stated in the doc
comment of each such definition.

JavaScript values that flow through the engine are modelled by the inductive
type JVal below.  JS numbers and bigints are both modelled as Int (the
engine only manipulates integral numeric values, and the spec's round-trip
laws are stated up to JS loose equality, which identifies 42 and 42n).
-/

set_option maxHeartbeats 1000000
set_option linter.unusedVariables false

namespace BinaryLayout

/-- Byte order of a multi-byte integer, from layout.ts (type Endianness). -/
inductive Endian where
| big
| little
deriving DecidableEq, Repr

/-- Default byte order, from layout.ts: defaultEndianness = "big". -/
def defaultEndianness : Endian := .big

/-- Model of a JavaScript runtime value as produced/consumed by the engine:
undefined, numbers/bigints (as Int), strings, booleans, byte arrays
(as lists of byte values), JS arrays, and plain objects (ordered field
lists, mirroring JS insertion order). -/
inductive JVal where
| undef
| num (n : Int)
| str (s : String)
| bool (b : Bool)
| bytes (bs : List Nat)
| arr (elems : List JVal)
| obj (fields : List (String × JVal))

/-- Field lookup on an object value, mirroring the JS expression v[name]
(which yields undefined when v is not an object or lacks the field). -/
def getFieldD (v : JVal) (name : String) : JVal :=
  match v with
  | .obj fields => (fields.lookup name).getD .undef
  | _ => JVal.undef

/-- Switch-variant identifier values as they occur in the sources: a plain
number, or the second component of a (number, label) ConversionId pair,
which in the sources is a string or boolean label. -/
inductive IdVal where
| num (n : Int)
| str (s : String)
| bool (b : Bool)
deriving DecidableEq, Repr

/-- Injection of an identifier value into the JS value model. -/
def IdVal.toJVal : IdVal → JVal
  | .num n => .num n
  | .str s => .str s
  | .bool b => .bool b

/-!  Conversions, from layout.ts.  A Conversion on an item is either absent
(`plain`, custom === undefined), a primitive constant (`const`, the
FixedOmittableCustom shape carrying the omit flag), a FixedConversion
(constant raw `frm` paired with constant decoded `toV`), or a
CustomConversion (function pair).  -/

/-- Conversion attached to a Numeric item (custom field of NumItem). -/
inductive NumCustom where
| plain
| const (c : Int) (om : Bool)
| fixedConv (frm : Int) (toV : JVal)
| customConv (convTo : Int → JVal) (convFrom : JVal → Int)

/-- Conversion attached to a Bytes item without nested layout. -/
inductive BytesCustom where
| plain
| const (bs : List Nat) (om : Bool)
| fixedConv (frm : List Nat) (toV : JVal)
| customConv (convTo : List Nat → JVal) (convFrom : JVal → List Nat)

/-- Conversion attached to a Bytes item wrapping a nested layout
(FlexLayoutBytes custom field); `frm` of a FixedConversion is the decoded
record of the nested layout. -/
inductive LoCustom where
| plain
| fixedConv (frm : JVal) (toV : JVal)
| customConv (convTo : JVal → JVal) (convFrom : JVal → JVal)

/-- Length strategy of a Bytes item: fixed manual size, length-prefixed
(prefix width and optional explicit prefix byte order), or neither
(size determined by a constant conversion, or remainder). -/
inductive BLen where
| auto
| manual (s : Nat)
| lenPrefixed (ls : Nat) (le : Option Endian)
deriving Repr

/-- Length strategy of an Array item: fixed element count, length-prefixed
element count, or remainder (consume the rest of the slice). -/
inductive ALen where
| fixedLen (n : Nat)
| lenPrefixed (ls : Nat) (le : Option Endian)
| remainder
deriving Repr

mutual

/-- Schema item, the closed tagged variant of layout.ts: Numeric
(int/uint with signedness, byte width, optional byte order, conversion),
Bytes without nested layout, Bytes wrapping a nested layout, Array, and
Switch (identifier width/order/tag plus variant list). -/
inductive Item where
| num (signed : Bool) (size : Nat) (endianness : Option Endian) (custom : NumCustom)
| bytesPure (len : BLen) (custom : BytesCustom)
| bytesLayout (len : BLen) (inner : Layout) (custom : LoCustom)
| arr (len : ALen) (elem : Layout)
| switch (idSize : Nat) (idEndianness : Option Endian) (idTag : Option String)
    (variants : VariantList)

/-- Layout, from layout.ts: a single Item or a Proper Layout (ordered list
of named items). -/
inductive Layout where
| item (i : Item)
| proper (items : ItemList)

/-- Ordered list of named items forming a Proper Layout. -/
inductive ItemList where
| nil
| cons (name : String) (i : Item) (rest : ItemList)

/-- Switch variant list: each variant is a plain numeric id or a
(number, label) pair, together with the variant's Proper Layout body. -/
inductive VariantList where
| nil
| cons (idNum : Nat) (idLabel : Option IdVal) (body : ItemList) (rest : VariantList)

end

/-- Identifier value a Switch variant exposes in the decoded record: the
label when present, else the plain number (MaybeConvert in layout.ts). -/
def variantIdVal (idNum : Nat) (idLabel : Option IdVal) : IdVal :=
  idLabel.getD (.num (idNum : Int))

/-- Tag field name of a Switch value: idTag when given, else "id". -/
def tagName (idTag : Option String) : String :=
  idTag.getD "id"

/-- True exactly for the FixedOmittableCustom items carrying omit = true
(a constant-conversion Numeric or Bytes item marked omit). -/
def isOmitted : Item → Bool
  | .num _ _ _ (.const _ om) => om
  | .bytesPure _ (.const _ om) => om
  | _ => false

/-- Names of the items of a Proper Layout, in order. -/
def itemNames : ItemList → List String
  | .nil => []
  | .cons name _ rest => name :: itemNames rest

/-- Numeric ids of a variant list, in order. -/
def variantNums : VariantList → List Nat
  | .nil => []
  | .cons n _ _ rest => n :: variantNums rest

/-- Identifier values (label or number) of a variant list, in order. -/
def variantIdVals : VariantList → List IdVal
  | .nil => []
  | .cons n lbl _ rest => variantIdVal n lbl :: variantIdVals rest

/-!  Byte-level integer encoding.  Modelled from the spec, section 6:
a Numeric item of width S and order E encodes integer V (in range) as S
bytes, most-significant-first if E = big, least-significant-first if
E = little; signed values use two's complement (signed/unsigned multi-byte
integer encoding with explicit width and byte order).  -/

/-- Little-endian base-256 digits of u, exactly s bytes. -/
def natToBytesLE : Nat → Nat → List Nat
  | 0, _ => []
  | s + 1, u => u % 256 :: natToBytesLE s (u / 256)

/-- Value of a little-endian base-256 digit list. -/
def bytesToNatLE : List Nat → Nat
  | [] => 0
  | b :: rest => b + 256 * bytesToNatLE rest

/-- Resolve an optional per-item byte order to the configured default. -/
def resolveEndian (e : Option Endian) : Endian :=
  e.getD defaultEndianness

/-- Unsigned byte encoding of u in s bytes with byte order e. -/
def encodeNat (s : Nat) (e : Endian) (u : Nat) : List Nat :=
  match e with
  | .little => natToBytesLE s u
  | .big => (natToBytesLE s u).reverse

/-- Unsigned value of a byte list with byte order e. -/
def decodeNat (e : Endian) (bs : List Nat) : Nat :=
  match e with
  | .little => bytesToNatLE bs
  | .big => bytesToNatLE bs.reverse

/-- Two's-complement raw (unsigned) representative of v modulo 2^(8s). -/
def intToRaw (s : Nat) (v : Int) : Nat :=
  (v % ((2 : Int) ^ (8 * s))).toNat

/-- Signed/unsigned reinterpretation of an s-byte unsigned value. -/
def rawToInt (signed : Bool) (s : Nat) (u : Nat) : Int :=
  if signed ∧ 2 ^ (8 * s - 1) ≤ u then (u : Int) - 2 ^ (8 * s) else (u : Int)

/-- Range check of serialize, modelled from the spec, section 4.1: fails if
the value lies outside [0, 2^(8·size)-1] (unsigned) or
[-2^(8·size-1), 2^(8·size-1)-1] (signed). -/
def numInRange (signed : Bool) (s : Nat) (v : Int) : Bool :=
  if signed then
    decide (-((2 : Int) ^ (8 * s - 1)) ≤ v) && decide (v < (2 : Int) ^ (8 * s - 1))
  else
    decide (0 ≤ v) && decide (v < (2 : Int) ^ (8 * s))

/-- Split the first n bytes off a byte stream; fails when fewer remain
(decode error: insufficient remaining bytes). -/
def splitN : Nat → List Nat → Option (List Nat × List Nat)
  | 0, xs => some ([], xs)
  | _ + 1, [] => none
  | n + 1, x :: xs => (splitN n xs).map (fun p => (x :: p.1, p.2))

/-- Numeric writer modelled from the spec, sections 4.1 and 6: range-check
the raw value, then write size bytes of its two's-complement representation
in the resolved byte order. -/
def serNum (signed : Bool) (s : Nat) (e : Option Endian) (v : Int) :
    Option (List Nat) :=
  if numInRange signed s v then some (encodeNat s (resolveEndian e) (intToRaw s v))
  else none

/-- Numeric reader modelled from the spec, section 4.2: read size bytes from
the stream as a signed/unsigned big/little-endian value. -/
def readNum (signed : Bool) (s : Nat) (e : Option Endian) (input : List Nat) :
    Option (Int × List Nat) :=
  (splitN s input).map
    (fun p => (rawToInt signed s (decodeNat (resolveEndian e) p.1), p.2))

/-- Comparison of a variant identifier value against the tag field of a
value to be serialized (JS compares the label, or the plain number, against
the value's tag field). -/
def idMatches : IdVal → JVal → Bool
  | .num n, .num m => decide (n = m)
  | .str a, .str b => a == b
  | .bool a, .bool b => a == b
  | _, _ => false

/-- Length wrapper of the Bytes/Array serializers, modelled from the spec,
section 4.1: a manual size must match the produced content exactly, a
length-prefixed item writes the byte count first (with the prefix width's
own numeric rule), and otherwise the content is written as is. -/
def wrapLen (len : BLen) (content : Option (List Nat)) : Option (List Nat) := do
  let r ← content
  match len with
  | .auto => some r
  | .manual s => if r.length = s then some r else none
  | .lenPrefixed ls le => do
      let p ← serNum false ls le (r.length : Int)
      some (p ++ r)

/-- Slice extraction of the Bytes deserializers, modelled from the spec,
sections 4.2 and 3: a manual size reads that many bytes, a length prefix is
read first and determines the count, and otherwise the item consumes all
bytes left in the current slice (remainder) unless a constant conversion
fixes the byte count (passed as know). -/
def takeSlice (len : BLen) (know : Option Nat) (input : List Nat) :
    Option (List Nat × List Nat) :=
  match len with
  | .manual s => splitN s input
  | .lenPrefixed ls le => do
      let (k, r1) ← readNum false ls le input
      splitN k.toNat r1
  | .auto =>
      match know with
      | some n => splitN n input
      | none => some (input, [])

/-- Constant-determined byte count of a Bytes item without nested layout. -/
def bytesKnownLen : BytesCustom → Option Nat
  | .const bs _ => some bs.length
  | .fixedConv frm _ => some frm.length
  | _ => none

mutual

/-- Serializer of a single item.  Modelled from the spec, section 4.1:
Numeric resolves the raw value through the conversion, range-checks it and
writes size bytes in the configured order; Bytes writes its (possibly
converted or nested-layout) content behind the configured length strategy;
Array checks/writes the element count and serializes each element; Switch
finds the variant whose identifier value matches the value's tag field,
writes the identifier and then the variant's fields. -/
def serializeItem : Item → JVal → Option (List Nat)
  | .num sg sz e c, v =>
      match c with
      | .plain => match v with
                  | .num k => serNum sg sz e k
                  | _ => none
      | .const k _ => serNum sg sz e k
      | .fixedConv frm _ => serNum sg sz e frm
      | .customConv _ f => serNum sg sz e (f v)
  | .bytesPure len c, v =>
      wrapLen len (match c, v with
        | .plain, .bytes bs => some bs
        | .plain, _ => none
        | .const bs _, _ => some bs
        | .fixedConv frm _, _ => some frm
        | .customConv _ f, _ => some (f v))
  | .bytesLayout len inner c, v =>
      wrapLen len (match c with
        | .plain => serializeLayout inner v
        | .fixedConv frm _ => serializeLayout inner frm
        | .customConv _ f => serializeLayout inner (f v))
  | .arr alen elem, v =>
      match v with
      | .arr xs =>
          (match alen with
           | .fixedLen n => if xs.length = n then serializeElems elem xs else none
           | .lenPrefixed ls le => do
               let content ← serializeElems elem xs
               let p ← serNum false ls le (xs.length : Int)
               some (p ++ content)
           | .remainder => serializeElems elem xs)
      | _ => none
  | .switch idS idE tag vars, v =>
      serializeVariants vars (getFieldD v (tagName tag)) v idS idE
termination_by i _ => (sizeOf i, 0)

/-- Serializer of a Layout: a single item, or a Proper Layout record. -/
def serializeLayout : Layout → JVal → Option (List Nat)
  | .item i, v => serializeItem i v
  | .proper items, v => serializeItems items v
termination_by l _ => (sizeOf l, 0)

/-- Serializer of the items of a Proper Layout against a record value;
omitted items take no input from the value (their constant is written). -/
def serializeItems : ItemList → JVal → Option (List Nat)
  | .nil, _ => some []
  | .cons name i rest, v => do
      let bs ← serializeItem i (if isOmitted i then JVal.undef else getFieldD v name)
      let bs2 ← serializeItems rest v
      some (bs ++ bs2)
termination_by il _ => (sizeOf il, 0)

/-- Switch serializer helper: walk the variant list, match the value's tag
field against each variant's identifier value, write the matching
identifier and body; fail when no variant matches. -/
def serializeVariants : VariantList → JVal → JVal → Nat → Option Endian →
    Option (List Nat)
  | .nil, _, _, _, _ => none
  | .cons n lbl body rest, tv, v, idS, idE =>
      if idMatches (variantIdVal n lbl) tv then do
        let p ← serNum false idS idE (n : Int)
        let bbs ← serializeItems body v
        some (p ++ bbs)
      else serializeVariants rest tv v idS idE
termination_by vars _ _ _ _ => (sizeOf vars, 0)

/-- Element-wise serializer of an Array item's value. -/
def serializeElems : Layout → List JVal → Option (List Nat)
  | _, [] => some []
  | l, x :: xs => do
      let b ← serializeLayout l x
      let bs ← serializeElems l xs
      some (b ++ bs)
termination_by l xs => (sizeOf l, xs.length + 1)

end

mutual

/-- Deserializer of a single item against a byte stream, returning the
decoded value and the unconsumed rest.  Modelled from the spec, section
4.2, mirroring the serializer in reverse; constant conversions are checked
against the bytes read (primitive constants), recognition failures and
insufficient bytes yield a decode error (none). -/
def deserializeItem : Item → List Nat → Option (JVal × List Nat)
  | .num sg sz e c, input => do
      let (k, rest) ← readNum sg sz e input
      match c with
      | .plain => some (.num k, rest)
      | .const k0 om => if k = k0 then some ((if om then .undef else .num k0), rest)
                        else none
      | .fixedConv frm toV => if k = frm then some (toV, rest) else none
      | .customConv t _ => some (t k, rest)
  | .bytesPure len c, input => do
      let (slice, rest) ← takeSlice len (bytesKnownLen c) input
      match c with
      | .plain => some (.bytes slice, rest)
      | .const bs om => if slice = bs then some ((if om then .undef else .bytes bs), rest)
                        else none
      | .fixedConv frm toV => if slice = frm then some (toV, rest) else none
      | .customConv t _ => some (t slice, rest)
  | .bytesLayout len inner c, input => do
      let (slice, rest) ← takeSlice len none input
      let (w, leftover) ← deserializeLayout inner slice
      if leftover.isEmpty then
        match c with
        | .plain => some (w, rest)
        | .fixedConv _ toV => some (toV, rest)
        | .customConv t _ => some (t w, rest)
      else none
  | .arr alen elem, input =>
      match alen with
      | .fixedLen n => do
          let (xs, rest) ← deserializeElemsN elem n input
          some (.arr xs, rest)
      | .lenPrefixed ls le => do
          let (k, r1) ← readNum false ls le input
          let (xs, rest) ← deserializeElemsN elem k.toNat r1
          some (.arr xs, rest)
      | .remainder => do
          let (xs, rest) ← deserializeElemsRem elem input
          some (.arr xs, rest)
  | .switch idS idE tag vars, input => do
      let (k, r1) ← readNum false idS idE input
      deserializeVariants vars k.toNat tag r1
termination_by i _ => (sizeOf i, 0)

/-- Deserializer of a Layout: a single item, or a Proper Layout record. -/
def deserializeLayout : Layout → List Nat → Option (JVal × List Nat)
  | .item i, input => deserializeItem i input
  | .proper items, input => do
      let (fs, rest) ← deserializeItems items input
      some (.obj fs, rest)
termination_by l _ => (sizeOf l, 0)

/-- Deserializer of the items of a Proper Layout, building the decoded
field list in layout order; omitted items are decoded (and their constants
checked) but never appear in the decoded result. -/
def deserializeItems : ItemList → List Nat → Option (List (String × JVal) × List Nat)
  | .nil, input => some ([], input)
  | .cons name i rest, input => do
      let (x, r1) ← deserializeItem i input
      let (fs, r2) ← deserializeItems rest r1
      some ((if isOmitted i then fs else (name, x) :: fs), r2)
termination_by il _ => (sizeOf il, 0)

/-- Switch deserializer helper: resolve the variant by the identifier
number read from the stream, decode its body and merge the (labeled)
identifier into the result; unrecognized identifiers are a decode error. -/
def deserializeVariants : VariantList → Nat → Option String → List Nat →
    Option (JVal × List Nat)
  | .nil, _, _, _ => none
  | .cons n lbl body rest, idn, tag, input =>
      if n = idn then do
        let (fs, r2) ← deserializeItems body input
        some (JVal.obj ((tagName tag, (variantIdVal n lbl).toJVal) :: fs), r2)
      else deserializeVariants rest idn tag input
termination_by vars _ _ _ => (sizeOf vars, 0)

/-- Deserializer of a fixed number of array elements in sequence. -/
def deserializeElemsN : Layout → Nat → List Nat → Option (List JVal × List Nat)
  | _, 0, input => some ([], input)
  | l, n + 1, input => do
      let (x, r1) ← deserializeLayout l input
      let (xs, r2) ← deserializeElemsN l n r1
      some (x :: xs, r2)
termination_by l n _ => (sizeOf l, n + 1)

/-- Deserializer of a remainder array: decode elements until the current
slice is exhausted; an element that consumes no bytes is a decode error
(the loop would not advance). -/
def deserializeElemsRem (l : Layout) (input : List Nat) :
    Option (List JVal × List Nat) :=
  if input.isEmpty then some ([], input)
  else do
    let (x, r1) ← deserializeLayout l input
    if h : r1.length < input.length then do
      let (xs, _) ← deserializeElemsRem l r1
      some (x :: xs, [])
    else none
termination_by (sizeOf l, input.length + 1)

end

/-- Top-level serialize, modelled from the spec:
serialize(layout, value) -> bytes, a pure function failing on value
errors. -/
def serialize (l : Layout) (v : JVal) : Option (List Nat) :=
  serializeLayout l v

/-- Top-level deserialize, modelled from the spec:
deserialize(layout, bytes) -> value, failing when bytes remain unconsumed
or on a decode error. -/
def deserialize (l : Layout) (bs : List Nat) : Option JVal :=
  match deserializeLayout l bs with
  | some (v, []) => some v
  | _ => none

/-!  Schema well-formedness.  From the spec, section 7 (schema errors are
detected at construction time, before any encode/decode call): duplicate
field names are forbidden, a remainder item may only stand in final
position of its enclosing slice, numeric widths are positive, and constant
conversions must fit their item's declared width/range.  The Bool argument
tells whether the layout under scrutiny extends to the end of its slice
(so that a remainder item in final position is legal).  -/

mutual

/-- Schema well-formedness of one item; tailOK tells whether the item ends
its enclosing slice. -/
def WFItem : Item → Bool → Bool
  | .num sg sz _ c, _ =>
      decide (1 ≤ sz) &&
      (match c with
       | .const k _ => numInRange sg sz k
       | .fixedConv frm _ => numInRange sg sz frm
       | _ => true)
  | .bytesPure len c, tailOK =>
      (match len with
       | .auto =>
           (match c with
            | .plain => tailOK
            | .customConv _ _ => tailOK
            | _ => true)
       | .manual s =>
           (match c with
            | .const bs _ => decide (bs.length = s)
            | .fixedConv frm _ => decide (frm.length = s)
            | _ => true)
       | .lenPrefixed ls _ =>
           decide (1 ≤ ls) &&
           (match c with
            | .const bs _ => decide (bs.length < 256 ^ ls)
            | .fixedConv frm _ => decide (frm.length < 256 ^ ls)
            | _ => true))
  | .bytesLayout len inner _, tailOK =>
      (match len with
       | .auto => tailOK
       | .manual _ => true
       | .lenPrefixed ls _ => decide (1 ≤ ls)) &&
      WFLayout inner true
  | .arr alen elem, tailOK =>
      (match alen with
       | .fixedLen _ => true
       | .lenPrefixed ls _ => decide (1 ≤ ls)
       | .remainder => tailOK) &&
      WFLayout elem false
  | .switch idS _ tag vars, tailOK =>
      decide (1 ≤ idS) && WFVariants vars idS tag tailOK &&
      decide (variantNums vars).Nodup && decide (variantIdVals vars).Nodup
termination_by i _ => (sizeOf i, 0)

/-- Schema well-formedness of a Layout. -/
def WFLayout : Layout → Bool → Bool
  | .item i, tailOK => WFItem i tailOK
  | .proper items, tailOK => WFItems items tailOK && decide (itemNames items).Nodup
termination_by l _ => (sizeOf l, 0)

/-- Schema well-formedness of the items of a Proper Layout: only the final
item inherits the enclosing tail position. -/
def WFItems : ItemList → Bool → Bool
  | .nil, _ => true
  | .cons _ i .nil, tailOK => WFItem i tailOK
  | .cons _ i rest, tailOK => WFItem i false && WFItems rest tailOK
termination_by il _ => (sizeOf il, 0)

/-- Schema well-formedness of a Switch variant list: ids fit the id width,
bodies are well-formed with unique names not colliding with the tag. -/
def WFVariants : VariantList → Nat → Option String → Bool → Bool
  | .nil, _, _, _ => true
  | .cons n _ body rest, idS, tag, tailOK =>
      decide (n < 256 ^ idS) && WFItems body tailOK &&
      decide (itemNames body).Nodup && decide (tagName tag ∉ itemNames body) &&
      WFVariants rest idS tag tailOK
termination_by vars _ _ _ => (sizeOf vars, 0)

end

/-- Byte-count constraint a Bytes item of the given length strategy puts on
its raw content: a manual size must be met exactly, a length prefix must be
able to represent the count. -/
def bLenOK (len : BLen) (n : Nat) : Prop :=
  match len with
  | .auto => True
  | .manual s => n = s
  | .lenPrefixed ls _ => n < 256 ^ ls

/-- Byte-count constraint of a layout-wrapping Bytes item, imposed on the
serialized size of the nested value. -/
def serBLenOK (len : BLen) (inner : Layout) (v : JVal) : Prop :=
  match len with
  | .auto => True
  | .manual s => ∀ bs, serializeLayout inner v = some bs → bs.length = s
  | .lenPrefixed ls _ => ∀ bs, serializeLayout inner v = some bs → bs.length < 256 ^ ls

/-- Element-count constraint of an Array item: a fixed length must be met
exactly, a length prefix must represent the count, and remainder elements
must consume at least one byte each (otherwise decoding cannot advance). -/
def aLenOK (alen : ALen) (elem : Layout) (xs : List JVal) : Prop :=
  match alen with
  | .fixedLen n => xs.length = n
  | .lenPrefixed ls _ => xs.length < 256 ^ ls
  | .remainder => ∀ x ∈ xs, ∀ bs, serializeLayout elem x = some bs → bs ≠ []

mutual

/-- Validity of a value for an item: the value has the shape deserialize
can produce for the item (spec, section 3, decoded value shape), constants
match, numeric raw values are in range, custom conversions are applied to
a valid raw value and satisfy the round-trip law of the Conversion
contract on it, and length constraints are representable. -/
def ValidItem : Item → JVal → Prop
  | .num sg sz _ c, v =>
      match c with
      | .plain => ∃ k, v = .num k ∧ numInRange sg sz k = true
      | .const k om => if om then v = .undef else v = .num k
      | .fixedConv _ toV => v = toV
      | .customConv t f =>
          ∃ raw, v = t raw ∧ f (t raw) = raw ∧ numInRange sg sz raw = true
  | .bytesPure len c, v =>
      match c with
      | .plain => ∃ bs, v = .bytes bs ∧ bLenOK len bs.length
      | .const bs om => if om then v = .undef else v = .bytes bs
      | .fixedConv _ toV => v = toV
      | .customConv t f =>
          ∃ raw, v = t raw ∧ f (t raw) = raw ∧ bLenOK len raw.length
  | .bytesLayout len inner c, v =>
      match c with
      | .plain => ValidLayout inner v ∧ serBLenOK len inner v
      | .fixedConv frm toV => v = toV ∧ ValidLayout inner frm ∧ serBLenOK len inner frm
      | .customConv t f =>
          ∃ raw, v = t raw ∧ f (t raw) = raw ∧ ValidLayout inner raw ∧
            serBLenOK len inner raw
  | .arr alen elem, v =>
      ∃ xs, v = .arr xs ∧ (∀ x ∈ xs, ValidLayout elem x) ∧ aLenOK alen elem xs
  | .switch _ _ tag vars, v => ValidSwitch vars tag v
termination_by i _ => (sizeOf i, 0)

/-- Validity of a value for a Layout. -/
def ValidLayout : Layout → JVal → Prop
  | .item i, v => ValidItem i v
  | .proper items, v => ∃ fs, v = .obj fs ∧ ValidItems items fs
termination_by l _ => (sizeOf l, 0)

/-- Validity of a decoded field list for the items of a Proper Layout:
fields appear in layout order, omitted items contribute none. -/
def ValidItems : ItemList → List (String × JVal) → Prop
  | .nil, fs => fs = []
  | .cons name i rest, fs =>
      if isOmitted i then ValidItems rest fs
      else ∃ x fs2, fs = (name, x) :: fs2 ∧ ValidItem i x ∧ ValidItems rest fs2
termination_by il _ => (sizeOf il, 0)

/-- Validity of a value for a Switch item: the value is the record of one
of the variants, its tag field holding that variant's identifier value. -/
def ValidSwitch : VariantList → Option String → JVal → Prop
  | .nil, _, _ => False
  | .cons n lbl body rest, tag, v =>
      (∃ fs, v = .obj ((tagName tag, (variantIdVal n lbl).toJVal) :: fs) ∧
        ValidItems body fs) ∨
      ValidSwitch rest tag v
termination_by vars _ _ => (sizeOf vars, 0)

end
/-- Membership of a variant (id number, label, body) in a variant list. -/
def VariantMem (n : Nat) (lbl : Option IdVal) (body : ItemList) :
    VariantList → Prop
  | .nil => False
  | .cons n2 lbl2 body2 rest =>
      (n = n2 ∧ lbl = lbl2 ∧ body = body2) ∨ VariantMem n lbl body rest

/-!  enumItem, from src/packages/binary-layout/src/items.ts.  The
valueToName / nameToValue tables are built with Object.fromEntries, where a
later entry overrides an earlier one with the same key; lookup is therefore
the last matching entry.  custom.to throws (none) on a value that is no
entry's value; custom.from uses a non-null assertion on the table lookup
and yields undefined (none) for an unknown name instead of failing.  -/

/-- Conversion to of enumItem: name of the last entry carrying the encoded
value, or an error (none models the thrown Error). -/
def enumTo (entries : List (String × Int)) (encoded : Int) : Option String :=
  (entries.reverse.find? (fun p => p.2 == encoded)).map Prod.fst

/-- Conversion from of enumItem: value of the last entry carrying the
name, or undefined (none) when the name is absent. -/
def enumFrom (entries : List (String × Int)) (name : String) : Option Int :=
  (entries.reverse.find? (fun p => p.1 == name)).map Prod.snd

/-!  optionItem, from src/packages/binary-layout/src/items.ts.  The custom
conversion of the outer bytes item maps the switch record
{isSome: false} / {isSome: true, value} to undefined / the plain value and
back.  -/

/-- Conversion to of optionItem: obj.isSome === true ? obj.value :
undefined. -/
def optionTo (o : JVal) : JVal :=
  match getFieldD o "isSome" with
  | .bool true => getFieldD o "value"
  | _ => JVal.undef

/-- Conversion from of optionItem: undefined becomes {isSome: false}, a
present value becomes {isSome: true, value}. -/
def optionFrom (v : JVal) : JVal :=
  match v with
  | .undef => .obj [("isSome", .bool false)]
  | x => .obj [("isSome", .bool true), ("value", x)]

/-!  unwrapSingleton, from src/packages/binary-layout/src/manipulate.ts:
for a Proper Layout with exactly one non-omitted item it builds, through
transform, the conversion pair derived => derived[name] and
unwrapped => ({[name]: unwrapped}), name being the first non-omitted
item's name.  -/

/-- Name of the first non-omitted item (layout.find(item => !item.omit)). -/
def findNonOmit : ItemList → Option String
  | .nil => none
  | .cons name i rest => if isOmitted i then findNonOmit rest else some name

/-- Number of non-omitted items of a Proper Layout. -/
def countNonOmit : ItemList → Nat
  | .nil => 0
  | .cons _ i rest => (if isOmitted i then 0 else 1) + countNonOmit rest

/-- Conversion to of unwrapSingleton: derived[name]. -/
def unwrapTo (items : ItemList) (r : JVal) : JVal :=
  match findNonOmit items with
  | some name => getFieldD r name
  | none => JVal.undef

/-- Conversion from of unwrapSingleton: {[name]: unwrapped}. -/
def unwrapFrom (items : ItemList) (v : JVal) : JVal :=
  match findNonOmit items with
  | some name => .obj [(name, v)]
  | none => JVal.undef

/-!  bitsetItem, from src/packages/binary-layout/src/items.ts.  custom.to
walks the bit-name list and, for every named (non-empty, defined) position
i, stores bit i of the encoded value under that name in the result object;
custom.from ors 1 << i back together for every named position whose field
is truthy.  Numbers and bigints are modelled uniformly as Nat here (the
raw value of a uint item is non-negative, and the spec's round-trip law is
up to JS loose equality, which identifies a number with the equal
bigint).  -/

/-- JS object property assignment ret[k] = v on an insertion-ordered
object: overwrite in place when the key exists, append otherwise. -/
def objSet : List (String × Bool) → String → Bool → List (String × Bool)
  | [], k, v => [(k, v)]
  | (k2, v2) :: rest, k, v =>
      if k2 = k then (k2, v) :: rest else (k2, v2) :: objSet rest k v

/-- Loop of bitsetItem's custom.to, with the accumulated result object. -/
def bitsetToAux : List String → Nat → Nat → List (String × Bool) →
    List (String × Bool)
  | [], _, _, ret => ret
  | name :: rest, i, e, ret =>
      bitsetToAux rest (i + 1) e
        (if name = "" then ret else objSet ret name (e.testBit i))

/-- Conversion to of bitsetItem. -/
def bitsetTo (bitnames : List String) (encoded : Nat) : List (String × Bool) :=
  bitsetToAux bitnames 0 encoded []

/-- Loop of bitsetItem's custom.from: a missing field reads as undefined,
which is falsy. -/
def bitsetFromAux : List String → Nat → List (String × Bool) → Nat
  | [], _, _ => 0
  | name :: rest, i, obj =>
      (if name ≠ "" ∧ (obj.lookup name).getD false = true then 2 ^ i else 0) +
        bitsetFromAux rest (i + 1) obj

/-- Conversion from of bitsetItem. -/
def bitsetFrom (bitnames : List String) (obj : List (String × Bool)) : Nat :=
  bitsetFromAux bitnames 0 obj

/-- Shape of a decoded Bitset object: one boolean field per named bit
position, in position order, with values given by g. -/
def mkBitsetObj : List String → (Nat → Bool) → List (String × Bool)
  | [], _ => []
  | name :: rest, g =>
      if name = "" then mkBitsetObj rest (fun j => g (j + 1))
      else (name, g 0) :: mkBitsetObj rest (fun j => g (j + 1))

/-- Value with bit i + j set exactly when position j of the name list is
named and g (i + j) holds, expressed with relative recursion. -/
def bitsW : List String → (Nat → Bool) → Nat
  | [], _ => 0
  | name :: rest, g =>
      (if name ≠ "" ∧ g 0 = true then 1 else 0) + 2 * bitsW rest (fun j => g (j + 1))

/-- Bit mask of the named positions: bit i is set iff position i of the
name list carries a non-empty name. -/
def namedMask (bitnames : List String) : Nat :=
  bitsW bitnames (fun _ => true)

/-!  fixedItemsOf / dynamicItemsOf, from
src/packages/binary-layout/src/fixedDynamic.ts.  -/

/-- isPrimitiveType(custom) or isFixedPrimitiveConversion(custom) of
filterItem's int/uint case: the conversion of a Numeric item is a constant
primitive or a FixedConversion. -/
def numCustomIsFixed : NumCustom → Bool
  | .const _ _ => true
  | .fixedConv _ _ => true
  | _ => false

/-- The same static-data test for a Bytes item without nested layout,
which shares filterItem's int/uint code path. -/
def bytesCustomIsFixed : BytesCustom → Bool
  | .const _ _ => true
  | .fixedConv _ _ => true
  | _ => false

mutual

/-- filterItem of fixedDynamic.ts: null (none) when the item holds no
matching content.  A layout-wrapping Bytes item without conversion is
replaced by its filtered inner item (single-item inner layout) or kept
with the filtered inner items (pruned when none survive); an Array keeps
a filtered single-item element layout only if the element survives, but
keeps a filtered proper element layout unconditionally; a Switch is always
kept, with exactly the variants whose filtered body is non-empty. -/
def filterItem : Item → Bool → Option Item
  | .num sg sz e c, fixed =>
      if numCustomIsFixed c = fixed then some (.num sg sz e c) else none
  | .bytesPure len c, fixed =>
      if bytesCustomIsFixed c = fixed then some (.bytesPure len c) else none
  | .bytesLayout len inner c, fixed =>
      match c with
      | .plain =>
          match inner with
          | .item ii => filterItem ii fixed
          | .proper items =>
              match internalFilterItemsOfProperLayout items fixed with
              | .nil => none
              | .cons n2 i2 r2 =>
                  some (.bytesLayout len (.proper (.cons n2 i2 r2)) .plain)
      | .fixedConv frm toV =>
          if fixed then some (.bytesLayout len inner (.fixedConv frm toV)) else none
      | .customConv t f =>
          if fixed then none else some (.bytesLayout len inner (.customConv t f))
  | .arr alen elem, fixed =>
      match elem with
      | .item ii =>
          match filterItem ii fixed with
          | none => none
          | some fi => some (.arr alen (.item fi))
      | .proper items =>
          some (.arr alen (.proper (internalFilterItemsOfProperLayout items fixed)))
  | .switch idS idE tag vars, fixed =>
      some (.switch idS idE tag (filterVariants vars fixed))
termination_by i _ => (sizeOf i, 0)

/-- internalFilterItemsOfProperLayout of fixedDynamic.ts: the items whose
filterItem survives, in order. -/
def internalFilterItemsOfProperLayout : ItemList → Bool → ItemList
  | .nil, _ => .nil
  | .cons name i rest, fixed =>
      match filterItem i fixed with
      | none => internalFilterItemsOfProperLayout rest fixed
      | some fi => .cons name fi (internalFilterItemsOfProperLayout rest fixed)
termination_by il _ => (sizeOf il, 0)

/-- The variant filter of filterItem's switch case (the reduce over
item.layouts): a variant is kept exactly when its filtered body is
non-empty. -/
def filterVariants : VariantList → Bool → VariantList
  | .nil, _ => .nil
  | .cons n lbl body rest, fixed =>
      match internalFilterItemsOfProperLayout body fixed with
      | .nil => filterVariants rest fixed
      | .cons n2 i2 r2 => .cons n lbl (.cons n2 i2 r2) (filterVariants rest fixed)
termination_by vars _ => (sizeOf vars, 0)

end

/-- internalFilterItemsOf of fixedDynamic.ts: a proper layout filters to a
(possibly empty) proper layout, a single item filters to an item or null. -/
def internalFilterItemsOf : Layout → Bool → Option Layout
  | .item i, fixed => (filterItem i fixed).map .item
  | .proper items, fixed =>
      some (.proper (internalFilterItemsOfProperLayout items fixed))

/-- fixedItemsOf of fixedDynamic.ts. -/
def fixedItemsOf (l : Layout) : Option Layout := internalFilterItemsOf l true

/-- dynamicItemsOf of fixedDynamic.ts. -/
def dynamicItemsOf (l : Layout) : Option Layout := internalFilterItemsOf l false

/-!  addFixedValues, from src/packages/binary-layout/src/fixedDynamic.ts.
The JS functions return undefined (here JVal.undef) for values to be left
out and throw (here none) when the non-null assertion in the switch case
fails.  The identifier comparison == of the switch case is modelled on
same-type operands (identifier values and tag fields always carry the
same type for the values the layout can decode). -/

/-- The expression dv ?? then-empty-object of internalAddFixedValues
(line 214) and of its item loop (line 222). -/
def undefToEmpty : JVal → JVal
  | .undef => .obj []
  | v => v

/-- The test fixedVals !== undefined of internalAddFixedValues' item
loop. -/
def isUndef : JVal → Bool
  | .undef => true
  | _ => false

/-- JS object property assignment ret[k] = v on an insertion-ordered
object of JS values: overwrite in place when the key exists, append
otherwise. -/
def objSetJ : List (String × JVal) → String → JVal → List (String × JVal)
  | [], k, v => [(k, v)]
  | (k2, v2) :: rest, k, v =>
      if k2 = k then (k2, v) :: rest else (k2, v2) :: objSetJ rest k v

/-- JS object spread: assign the fields of fs onto init, in order. -/
def objSpread (init : List (String × JVal)) (fs : List (String × JVal)) :
    List (String × JVal) :=
  fs.foldl (fun acc kv => objSetJ acc kv.1 kv.2) init

mutual

/-- internalAddFixedValuesItem of fixedDynamic.ts: resynthesize the fixed
content of one item from the schema, passing dynamic content through. -/
def internalAddFixedValuesItem : Item → JVal → Option JVal
  | .num _ _ _ c, dv =>
      match c with
      | .plain => some dv
      | .const k om => if om then some .undef else some (.num k)
      | .fixedConv _ toV => some toV
      | .customConv _ _ => some dv
  | .bytesPure _ c, dv =>
      match c with
      | .plain => some dv
      | .const bs om => if om then some .undef else some (.bytes bs)
      | .fixedConv _ toV => some toV
      | .customConv _ _ => some dv
  | .bytesLayout _ inner c, dv =>
      match c with
      | .plain => internalAddFixedValues inner dv
      | .fixedConv frm _ => internalAddFixedValues inner frm
      | .customConv _ _ => some dv
  | .arr _ elem, dv =>
      match dv with
      | .arr es => (addFixedValuesElems elem es).map .arr
      | _ => some .undef
  | .switch _ _ tag vars, dv =>
      addFixedValuesVariants vars (tagName tag) (getFieldD dv (tagName tag)) dv
termination_by i _ => (sizeOf i, 0)

/-- internalAddFixedValues of fixedDynamic.ts. -/
def internalAddFixedValues : Layout → JVal → Option JVal
  | .item i, dv => internalAddFixedValuesItem i (undefToEmpty dv)
  | .proper items, dv =>
      (addFixedValuesItems items (undefToEmpty dv) []).map .obj
termination_by l _ => (sizeOf l, 0)

/-- The item loop of internalAddFixedValues, with the accumulated result
object: items whose resynthesis is undefined contribute no field. -/
def addFixedValuesItems : ItemList → JVal → List (String × JVal) →
    Option (List (String × JVal))
  | .nil, _, ret => some ret
  | .cons name i rest, dv, ret => do
      let r ← internalAddFixedValuesItem i (undefToEmpty (getFieldD dv name))
      addFixedValuesItems rest dv (if isUndef r then ret else objSetJ ret name r)
termination_by il _ _ => (sizeOf il, 0)

/-- The switch case of internalAddFixedValuesItem: find the first variant
whose identifier value equals the tag field of the dynamic value (the
non-null assertion fails, none, when no variant matches), resynthesize its
body, and spread the result onto an object holding the tag field. -/
def addFixedValuesVariants : VariantList → String → JVal → JVal → Option JVal
  | .nil, _, _, _ => none
  | .cons n lbl body rest, tag, idv, dv =>
      if idMatches (variantIdVal n lbl) idv then do
        let r ← addFixedValuesItems body dv []
        some (.obj (objSpread [(tag, idv)] r))
      else addFixedValuesVariants rest tag idv dv
termination_by vars _ _ _ => (sizeOf vars, 0)

/-- The element map of internalAddFixedValuesItem's array case. -/
def addFixedValuesElems : Layout → List JVal → Option (List JVal)
  | _, [] => some []
  | l, e :: es => do
      let r ← internalAddFixedValues l e
      let rs ← addFixedValuesElems l es
      some (r :: rs)
termination_by l es => (sizeOf l, es.length + 1)

end

/-- addFixedValues of fixedDynamic.ts (the public wrapper). -/
def addFixedValues (l : Layout) (dv : JVal) : Option JVal :=
  internalAddFixedValues l dv

/-!  The dynamic projection of a value.  Modelled from the spec, section
"Fixed / dynamic split": project_dynamic(fullValue) is the value of
dynamicItemsOf(layout) obtained by dropping the statically-determined
fields of fullValue, keeping (recursively) the content belonging to the
items that dynamicItemsOf keeps. -/

mutual

/-- Modelled from the spec: dynamic part of the value of one kept item. -/
def projItem : Item → JVal → JVal
  | .num _ _ _ _, v => v
  | .bytesPure _ _, v => v
  | .bytesLayout _ inner c, v =>
      match c with
      | .plain => projLayoutVal inner v
      | _ => v
  | .arr _ elem, v =>
      match v with
      | .arr es => .arr (projElems elem es)
      | _ => v
  | .switch _ _ tag vars, v =>
      .obj ((tagName tag, getFieldD v (tagName tag)) ::
        projVariants vars (getFieldD v (tagName tag)) v)
termination_by i _ => (sizeOf i, 0)

/-- Modelled from the spec: dynamic projection of a Layout's value
(undefined when a single-item layout is entirely static). -/
def projLayoutVal : Layout → JVal → JVal
  | .item i, v =>
      match filterItem i false with
      | none => .undef
      | some _ => projItem i v
  | .proper items, v => .obj (projItems items v)
termination_by l _ => (sizeOf l, 0)

/-- Modelled from the spec: the fields of the dynamic projection of a
proper layout's record, one per dynamically kept item. -/
def projItems : ItemList → JVal → List (String × JVal)
  | .nil, _ => []
  | .cons name i rest, v =>
      match filterItem i false with
      | none => projItems rest v
      | some _ => (name, projItem i (getFieldD v name)) :: projItems rest v
termination_by il _ => (sizeOf il, 0)

/-- Modelled from the spec: dynamic fields of the matching variant's
record of a Switch value. -/
def projVariants : VariantList → JVal → JVal → List (String × JVal)
  | .nil, _, _ => []
  | .cons n lbl body rest, idv, v =>
      if idMatches (variantIdVal n lbl) idv then projItems body v
      else projVariants rest idv v
termination_by vars _ _ => (sizeOf vars, 0)

/-- Modelled from the spec: element-wise dynamic projection of an Array
value. -/
def projElems : Layout → List JVal → List JVal
  | _, [] => []
  | l, e :: es => projLayoutVal l e :: projElems l es
termination_by l es => (sizeOf l, es.length + 1)

end

mutual

/-- A value without undefined anywhere (a decoded field explicitly holding
undefined is dropped, not kept, by addFixedValues' item loop, so such
values cannot round-trip through the fixed/dynamic split). -/
def noUndef : JVal → Bool
  | .undef => false
  | .num _ => true
  | .str _ => true
  | .bool _ => true
  | .bytes _ => true
  | .arr es => noUndefList es
  | .obj fs => noUndefFields fs
termination_by v => sizeOf v

/-- noUndef over the elements of a JS array value. -/
def noUndefList : List JVal → Bool
  | [] => true
  | e :: es => noUndef e && noUndefList es
termination_by es => sizeOf es

/-- noUndef over the fields of a JS object value. -/
def noUndefFields : List (String × JVal) → Bool
  | [] => true
  | (_, x) :: fs => noUndef x && noUndefFields fs
termination_by fs => sizeOf fs

end

mutual

/-- Conditions under which the fixed/dynamic split loses no information:
no layout-wrapping Bytes item with a FixedConversion (addFixedValues
rebuilds such an item's value from the conversion's raw side instead of
its decoded side), and every Array item's element layout must survive
dynamicItemsOf (a pruned Array loses its element count). -/
def afvOKItem : Item → Bool
  | .num _ _ _ _ => true
  | .bytesPure _ _ => true
  | .bytesLayout _ inner c =>
      match c with
      | .plain => afvOKLayout inner
      | .fixedConv _ _ => false
      | .customConv _ _ => true
  | .arr _ elem => (internalFilterItemsOf elem false).isSome && afvOKLayout elem
  | .switch _ _ _ vars => afvOKVariants vars
termination_by i => (sizeOf i, 0)

/-- afvOKItem over a Layout. -/
def afvOKLayout : Layout → Bool
  | .item i => afvOKItem i
  | .proper items => afvOKItems items
termination_by l => (sizeOf l, 0)

/-- afvOKItem over the items of a proper layout. -/
def afvOKItems : ItemList → Bool
  | .nil => true
  | .cons _ i rest => afvOKItem i && afvOKItems rest
termination_by il => (sizeOf il, 0)

/-- afvOKItem over the variant bodies of a Switch. -/
def afvOKVariants : VariantList → Bool
  | .nil => true
  | .cons _ _ body rest => afvOKItems body && afvOKVariants rest
termination_by vars => (sizeOf vars, 0)

end
/-!  setEndianness.  The file setEndianness.ts is not part of the provided
sources (only its declaration and its test suite are), so the transform is
modelled from the spec and pinned by tests/setEndianness.test.ts: the test
suite fixes that a multi-byte numeric slot receives the requested order
even when it already carries an explicit one (enumItem carries an explicit
big endianness and the expected result carries little), and that one-byte
numeric slots are left untouched (optionItem's one-byte switch identifier
gains no idEndianness in the expected result). -/

/-- Byte-order update of a Bytes length strategy: a multi-byte length
prefix receives the requested order, everything else is untouched. -/
def setEndBLen (len : BLen) (E : Endian) : BLen :=
  match len with
  | .auto => .auto
  | .manual s => .manual s
  | .lenPrefixed ls le => .lenPrefixed ls (if 1 < ls then some E else le)

/-- Byte-order update of an Array length strategy. -/
def setEndALen (alen : ALen) (E : Endian) : ALen :=
  match alen with
  | .fixedLen n => .fixedLen n
  | .lenPrefixed ls le => .lenPrefixed ls (if 1 < ls then some E else le)
  | .remainder => .remainder

mutual

/-- Modelled from the spec and the test suite: set the byte order of every
multi-byte numeric slot of one item (value, length prefix, switch
identifier), recursing into nested layouts and variants. -/
def setEndItem : Item → Endian → Item
  | .num sg sz e c, E => .num sg sz (if 1 < sz then some E else e) c
  | .bytesPure len c, E => .bytesPure (setEndBLen len E) c
  | .bytesLayout len inner c, E =>
      .bytesLayout (setEndBLen len E) (setEndLayout inner E) c
  | .arr alen elem, E => .arr (setEndALen alen E) (setEndLayout elem E)
  | .switch idS idE tag vars, E =>
      .switch idS (if 1 < idS then some E else idE) tag (setEndVariants vars E)
termination_by i _ => (sizeOf i, 0)

/-- setEndItem over a Layout. -/
def setEndLayout : Layout → Endian → Layout
  | .item i, E => .item (setEndItem i E)
  | .proper items, E => .proper (setEndItems items E)
termination_by l _ => (sizeOf l, 0)

/-- setEndItem over the items of a proper layout. -/
def setEndItems : ItemList → Endian → ItemList
  | .nil, _ => .nil
  | .cons name i rest, E => .cons name (setEndItem i E) (setEndItems rest E)
termination_by il _ => (sizeOf il, 0)

/-- setEndItem over the variant bodies of a Switch. -/
def setEndVariants : VariantList → Endian → VariantList
  | .nil, _ => .nil
  | .cons n lbl body rest, E =>
      .cons n lbl (setEndItems body E) (setEndVariants rest E)
termination_by vars _ => (sizeOf vars, 0)

end

/-- setEndianness of setEndianness.ts (the public entry point), modelled
from the spec and the test suite. -/
def setEndianness (l : Layout) (E : Endian) : Layout := setEndLayout l E

/-- Numeric slot (width, byte order) of a Bytes length strategy. -/
def bLenSlots (len : BLen) : List (Nat × Option Endian) :=
  match len with
  | .lenPrefixed ls le => [(ls, le)]
  | _ => []

/-- Numeric slot (width, byte order) of an Array length strategy. -/
def aLenSlots (alen : ALen) : List (Nat × Option Endian) :=
  match alen with
  | .lenPrefixed ls le => [(ls, le)]
  | _ => []

mutual

/-- All numeric slots of an item — the (width, byte order) pairs of every
Numeric item, length prefix and switch identifier — in schema order. -/
def numSlotsItem : Item → List (Nat × Option Endian)
  | .num _ sz e _ => [(sz, e)]
  | .bytesPure len _ => bLenSlots len
  | .bytesLayout len inner _ => bLenSlots len ++ numSlotsLayout inner
  | .arr alen elem => aLenSlots alen ++ numSlotsLayout elem
  | .switch idS idE _ vars => (idS, idE) :: numSlotsVariants vars
termination_by i => (sizeOf i, 0)

/-- numSlotsItem over a Layout. -/
def numSlotsLayout : Layout → List (Nat × Option Endian)
  | .item i => numSlotsItem i
  | .proper items => numSlotsItems items
termination_by l => (sizeOf l, 0)

/-- numSlotsItem over the items of a proper layout. -/
def numSlotsItems : ItemList → List (Nat × Option Endian)
  | .nil => []
  | .cons _ i rest => numSlotsItem i ++ numSlotsItems rest
termination_by il => (sizeOf il, 0)

/-- numSlotsItem over the variant bodies of a Switch. -/
def numSlotsVariants : VariantList → List (Nat × Option Endian)
  | .nil => []
  | .cons _ _ body rest => numSlotsItems body ++ numSlotsVariants rest
termination_by vars => (sizeOf vars, 0)

end

/-- Erase the byte order of a Bytes length strategy. -/
def eraseBLen : BLen → BLen
  | .lenPrefixed ls _ => .lenPrefixed ls none
  | len => len

/-- Erase the byte order of an Array length strategy. -/
def eraseALen : ALen → ALen
  | .lenPrefixed ls _ => .lenPrefixed ls none
  | alen => alen

mutual

/-- Erase every byte-order annotation of an item, keeping everything
else: two layouts agree on eraseEndItem exactly when they differ at most
in byte-order annotations. -/
def eraseEndItem : Item → Item
  | .num sg sz _ c => .num sg sz none c
  | .bytesPure len c => .bytesPure (eraseBLen len) c
  | .bytesLayout len inner c => .bytesLayout (eraseBLen len) (eraseEndLayout inner) c
  | .arr alen elem => .arr (eraseALen alen) (eraseEndLayout elem)
  | .switch idS _ tag vars => .switch idS none tag (eraseEndVariants vars)
termination_by i => (sizeOf i, 0)

/-- eraseEndItem over a Layout. -/
def eraseEndLayout : Layout → Layout
  | .item i => .item (eraseEndItem i)
  | .proper items => .proper (eraseEndItems items)
termination_by l => (sizeOf l, 0)

/-- eraseEndItem over the items of a proper layout. -/
def eraseEndItems : ItemList → ItemList
  | .nil => .nil
  | .cons name i rest => .cons name (eraseEndItem i) (eraseEndItems rest)
termination_by il => (sizeOf il, 0)

/-- eraseEndItem over the variant bodies of a Switch. -/
def eraseEndVariants : VariantList → VariantList
  | .nil => .nil
  | .cons n lbl body rest => .cons n lbl (eraseEndItems body) (eraseEndVariants rest)
termination_by vars => (sizeOf vars, 0)

end
/-!  calcStaticSize.  The file size.ts is not part of the provided sources,
so the function is modelled from the spec: determine from the schema alone
whether every item has a value-independent size, returning the definite
total, or absent (none) if any part is value-dependent — a length-prefixed
or remainder Bytes or Array, or a Switch, whose size depends on the
runtime-chosen variant.  -/

mutual

/-- Modelled from the spec: static byte size of one item.  A Numeric item
contributes its width; a Bytes item its manual size, its constant
conversion's length, or (wrapping a layout) the nested layout's static
size; a fixed-length Array multiplies the element count by the element
layout's static size; length-prefixed and remainder items and Switch items
have no static size. -/
def calcStaticSizeItem : Item → Option Nat
  | .num _ sz _ _ => some sz
  | .bytesPure len c =>
      match len with
      | .manual s => some s
      | .lenPrefixed _ _ => none
      | .auto =>
          match bytesKnownLen c with
          | some n => some n
          | none => none
  | .bytesLayout len inner _ =>
      match len with
      | .lenPrefixed _ _ => none
      | .manual s => (calcStaticSizeLayout inner).map (fun _ => s)
      | .auto => calcStaticSizeLayout inner
  | .arr alen elem =>
      match alen with
      | .fixedLen n => (calcStaticSizeLayout elem).map (fun m => n * m)
      | _ => none
  | .switch _ _ _ _ => none
termination_by i => (sizeOf i, 0)

/-- Modelled from the spec: static byte size of a Layout. -/
def calcStaticSizeLayout : Layout → Option Nat
  | .item i => calcStaticSizeItem i
  | .proper items => calcStaticSizeItems items
termination_by l => (sizeOf l, 0)

/-- Modelled from the spec: total static byte size of a proper layout's
items. -/
def calcStaticSizeItems : ItemList → Option Nat
  | .nil => some 0
  | .cons _ i rest => do
      let a ← calcStaticSizeItem i
      let b ← calcStaticSizeItems rest
      some (a + b)
termination_by il => (sizeOf il, 0)

end

/-- calcStaticSize of size.ts (the public entry point), modelled from the
spec. -/
def calcStaticSize (l : Layout) : Option Nat := calcStaticSizeLayout l

mutual

/-- The claim's characterization of a value-dependent item, following the
spec's words: a length-prefixed or remainder Bytes or Array item, or a
Switch item, anywhere in the item. -/
def hasValueDepSizeItem : Item → Bool
  | .num _ _ _ _ => false
  | .bytesPure len c =>
      match len with
      | .manual _ => false
      | .lenPrefixed _ _ => true
      | .auto =>
          match c with
          | .const _ _ => false
          | .fixedConv _ _ => false
          | _ => true
  | .bytesLayout len inner _ =>
      match len with
      | .lenPrefixed _ _ => true
      | _ => hasValueDepSizeLayout inner
  | .arr alen elem =>
      match alen with
      | .fixedLen _ => hasValueDepSizeLayout elem
      | _ => true
  | .switch _ _ _ _ => true
termination_by i => (sizeOf i, 0)

/-- hasValueDepSizeItem over a Layout. -/
def hasValueDepSizeLayout : Layout → Bool
  | .item i => hasValueDepSizeItem i
  | .proper items => hasValueDepSizeItems items
termination_by l => (sizeOf l, 0)

/-- hasValueDepSizeItem over the items of a proper layout. -/
def hasValueDepSizeItems : ItemList → Bool
  | .nil => false
  | .cons _ i rest => hasValueDepSizeItem i || hasValueDepSizeItems rest
termination_by il => (sizeOf il, 0)

end
theorem natToBytesLE_length (s u : Nat) : (natToBytesLE s u).length = s := by
  induction s generalizing u with
  | zero => rfl
  | succ s ih => simp [natToBytesLE, ih]

theorem bytesToNatLE_natToBytesLE (s u : Nat) (h : u < 256 ^ s) :
    bytesToNatLE (natToBytesLE s u) = u := by
  induction s generalizing u with
  | zero => simp at h; simp [natToBytesLE, bytesToNatLE, h]
  | succ s ih =>
      have hdiv : u / 256 < 256 ^ s := by
        rw [Nat.div_lt_iff_lt_mul (by norm_num)]
        calc u < 256 ^ (s + 1) := h
        _ = 256 ^ s * 256 := by ring
      simp [natToBytesLE, bytesToNatLE, ih _ hdiv, Nat.mod_add_div]

theorem encodeNat_length (s : Nat) (e : Endian) (u : Nat) :
    (encodeNat s e u).length = s := by
  cases e <;> simp [encodeNat, natToBytesLE_length]

theorem decodeNat_encodeNat (s : Nat) (e : Endian) (u : Nat) (h : u < 256 ^ s) :
    decodeNat e (encodeNat s e u) = u := by
  cases e <;> simp [encodeNat, decodeNat, bytesToNatLE_natToBytesLE s u h]

theorem intToRaw_lt (s : Nat) (v : Int) : intToRaw s v < 2 ^ (8 * s) := by
  have h2 : (0 : Int) < 2 ^ (8 * s) := by positivity
  have hmodlt := Int.emod_lt_of_pos v h2
  have hmod0 := Int.emod_nonneg v (ne_of_gt h2)
  have hcast : ((2 ^ (8 * s) : Nat) : Int) = (2 : Int) ^ (8 * s) := by
    push_cast; ring
  unfold intToRaw
  omega

theorem numInRange_false_iff (s : Nat) (v : Int) :
    numInRange false s v = true ↔ 0 ≤ v ∧ v < 2 ^ (8 * s) := by
  unfold numInRange
  simp

theorem numInRange_true_iff (s : Nat) (v : Int) :
    numInRange true s v = true ↔
      -((2 : Int) ^ (8 * s - 1)) ≤ v ∧ v < 2 ^ (8 * s - 1) := by
  unfold numInRange
  simp

theorem pow256_eq_pow2 (s : Nat) : (256 : Nat) ^ s = 2 ^ (8 * s) := by
  rw [show (256 : Nat) = 2 ^ 8 by norm_num, ← pow_mul]

theorem rawToInt_intToRaw (signed : Bool) (s : Nat) (v : Int) (hs : 1 ≤ s)
    (h : numInRange signed s v = true) :
    rawToInt signed s (intToRaw s v) = v := by
  have h2 : (0 : Int) < 2 ^ (8 * s) := by positivity
  have hhalf : (2 : Int) ^ (8 * s) = 2 ^ (8 * s - 1) * 2 := by
    rw [← pow_succ]
    congr 1
    omega
  have hcast : ((2 ^ (8 * s - 1) : Nat) : Int) = (2 : Int) ^ (8 * s - 1) := by
    push_cast; ring
  have hcast2 : ((2 ^ (8 * s) : Nat) : Int) = (2 : Int) ^ (8 * s) := by
    push_cast; ring
  have hhalfpos : (0 : Int) < 2 ^ (8 * s - 1) := by positivity
  cases signed with
  | false =>
      rw [numInRange_false_iff] at h
      have hveq : v % 2 ^ (8 * s) = v := Int.emod_eq_of_lt h.1 h.2
      unfold rawToInt intToRaw
      rw [hveq]
      rw [if_neg (by simp)]
      omega
  | true =>
      rw [numInRange_true_iff] at h
      unfold rawToInt intToRaw
      rcases le_or_lt 0 v with hv | hv
      · have hveq : v % 2 ^ (8 * s) = v := by
          apply Int.emod_eq_of_lt hv
          calc v < (2 : Int) ^ (8 * s - 1) := h.2
          _ ≤ 2 ^ (8 * s) := by
              apply pow_le_pow_right₀ (by norm_num)
              omega
        rw [hveq]
        have hvtn : (v.toNat : Int) = v := Int.toNat_of_nonneg hv
        rw [if_neg (by push_neg; intro _; omega)]
        omega
      · have hshift := Int.add_mul_emod_self_left (a := v) (b := (2 : Int) ^ (8 * s)) (c := 1)
        rw [mul_one] at hshift
        have hveq : v % 2 ^ (8 * s) = v + 2 ^ (8 * s) := by
          rw [← hshift]
          apply Int.emod_eq_of_lt (by omega) (by omega)
        rw [hveq]
        have htn : (((v + 2 ^ (8 * s)).toNat : Int)) = v + 2 ^ (8 * s) :=
          Int.toNat_of_nonneg (by omega)
        rw [if_pos ⟨rfl, by omega⟩]
        omega

theorem splitN_append (xs rest : List Nat) :
    splitN xs.length (xs ++ rest) = some (xs, rest) := by
  induction xs with
  | nil => rfl
  | cons x xs ih => simp [splitN, ih]

theorem splitN_append_of_length (n : Nat) (xs rest : List Nat) (h : xs.length = n) :
    splitN n (xs ++ rest) = some (xs, rest) := by
  subst h
  exact splitN_append xs rest

theorem readNum_serNum (signed : Bool) (s : Nat) (e : Option Endian) (v : Int)
    (bs rest : List Nat) (hs : 1 ≤ s) (hser : serNum signed s e v = some bs) :
    readNum signed s e (bs ++ rest) = some (v, rest) := by
  unfold serNum at hser
  by_cases h : numInRange signed s v = true
  · rw [if_pos h] at hser
    cases hser
    unfold readNum
    have hlen := encodeNat_length s (resolveEndian e) (intToRaw s v)
    rw [splitN_append_of_length s _ rest hlen]
    have hlt : intToRaw s v < 256 ^ s := by
      rw [pow256_eq_pow2]
      exact intToRaw_lt s v
    simp [decodeNat_encodeNat s _ _ hlt, rawToInt_intToRaw signed s v hs h]
  · rw [if_neg h] at hser
    cases hser

/-!  Helper lemmas for the totality and round-trip proofs.  -/

theorem getFieldD_obj_cons_self (n : String) (x : JVal) (fs : List (String × JVal)) :
    getFieldD (.obj ((n, x) :: fs)) n = x := by
  simp [getFieldD, List.lookup]

theorem getFieldD_obj_cons_ne (n m : String) (x : JVal) (fs : List (String × JVal))
    (h : n ≠ m) : getFieldD (.obj ((m, x) :: fs)) n = getFieldD (.obj fs) n := by
  simp [getFieldD, List.lookup, beq_eq_false_iff_ne.mpr h]

theorem idMatches_toJVal (a b : IdVal) : idMatches a b.toJVal = true ↔ a = b := by
  cases a <;> cases b <;> simp [idMatches, IdVal.toJVal]

theorem validSwitch_unpack : ∀ (vars : VariantList) (tag : Option String) (v : JVal),
    ValidSwitch vars tag v →
    ∃ n lbl body fs, VariantMem n lbl body vars ∧
      v = .obj ((tagName tag, (variantIdVal n lbl).toJVal) :: fs) ∧ ValidItems body fs
  | .nil, tag, v, h => by simp [ValidSwitch] at h
  | .cons n2 lbl2 body2 rest, tag, v, h => by
      rw [ValidSwitch] at h
      rcases h with ⟨fs, hv, hfs⟩ | h
      · exact ⟨n2, lbl2, body2, fs, Or.inl ⟨rfl, rfl, rfl⟩, hv, hfs⟩
      · obtain ⟨n, lbl, body, fs, hmem, hv, hfs⟩ := validSwitch_unpack rest tag v h
        exact ⟨n, lbl, body, fs, Or.inr hmem, hv, hfs⟩

theorem variantMem_idVal_mem : ∀ (vars : VariantList) (n : Nat) (lbl : Option IdVal)
    (body : ItemList), VariantMem n lbl body vars →
    variantIdVal n lbl ∈ variantIdVals vars
  | .cons n2 lbl2 body2 rest, n, lbl, body, h => by
      rcases h with ⟨h1, h2, h3⟩ | h
      · subst h1; subst h2; simp [variantIdVals]
      · simp [variantIdVals]
        exact Or.inr (variantMem_idVal_mem rest n lbl body h)

theorem variantMem_num_mem : ∀ (vars : VariantList) (n : Nat) (lbl : Option IdVal)
    (body : ItemList), VariantMem n lbl body vars → n ∈ variantNums vars
  | .cons n2 lbl2 body2 rest, n, lbl, body, h => by
      rcases h with ⟨h1, h2, h3⟩ | h
      · subst h1; simp [variantNums]
      · simp [variantNums]
        exact Or.inr (variantMem_num_mem rest n lbl body h)

theorem serializeItems_congr : ∀ (items : ItemList) (v w : JVal),
    (∀ n ∈ itemNames items, getFieldD v n = getFieldD w n) →
    serializeItems items v = serializeItems items w
  | .nil, v, w, h => by rw [serializeItems, serializeItems]
  | .cons name i rest, v, w, h => by
      rw [serializeItems, serializeItems]
      have hname : getFieldD v name = getFieldD w name := by
        apply h; simp [itemNames]
      have htail := serializeItems_congr rest v w
        (fun n hn => h n (by simp [itemNames]; exact Or.inr hn))
      rw [hname, htail]

/-- Deserializing a variant list at an id number present in the list (with
distinct id numbers) decodes exactly that variant's body. -/
theorem deserializeVariants_byNum : ∀ (vars : VariantList) (n : Nat)
    (lbl : Option IdVal) (body : ItemList) (tag : Option String) (input : List Nat),
    VariantMem n lbl body vars → (variantNums vars).Nodup →
    deserializeVariants vars n tag input =
      (deserializeItems body input).bind (fun p =>
        some (JVal.obj ((tagName tag, (variantIdVal n lbl).toJVal) :: p.1), p.2))
  | .cons n2 lbl2 body2 rest, n, lbl, body, tag, input, hmem, hnod => by
      rcases hmem with ⟨h1, h2, h3⟩ | hmem
      · subst h1; subst h2; subst h3
        rw [deserializeVariants, if_pos rfl]
        rfl
      · have hne : n2 ≠ n := by
          simp [variantNums] at hnod
          have := variantMem_num_mem rest n lbl body hmem
          intro he
          subst he
          exact hnod.1 this
        rw [deserializeVariants, if_neg hne]
        have hnod2 : (variantNums rest).Nodup := by
          simp [variantNums] at hnod
          exact hnod.2
        exact deserializeVariants_byNum rest n lbl body tag input hmem hnod2

/-- Unpacking a successful switch serialization: some variant of the list
matched the tag value and produced the identifier bytes followed by the
body bytes. -/
theorem serializeVariants_unpack : ∀ (vars : VariantList) (tv v : JVal)
    (idS : Nat) (idE : Option Endian) (bs : List Nat),
    serializeVariants vars tv v idS idE = some bs →
    ∃ n lbl body p bbs, VariantMem n lbl body vars ∧
      idMatches (variantIdVal n lbl) tv = true ∧
      serNum false idS idE (n : Int) = some p ∧
      serializeItems body v = some bbs ∧ bs = p ++ bbs
  | .nil, tv, v, idS, idE, bs, h => by rw [serializeVariants] at h; cases h
  | .cons n2 lbl2 body2 rest, tv, v, idS, idE, bs, h => by
      rw [serializeVariants] at h
      by_cases hm : idMatches (variantIdVal n2 lbl2) tv = true
      · rw [if_pos hm] at h
        cases hp : serNum false idS idE (n2 : Int) with
        | none => rw [hp] at h; cases h
        | some p =>
            rw [hp] at h
            cases hb : serializeItems body2 v with
            | none => rw [hb] at h; simp at h
            | some bbs =>
                rw [hb] at h
                simp at h
                exact ⟨n2, lbl2, body2, p, bbs, Or.inl ⟨rfl, rfl, rfl⟩, hm, hp, hb, h.symm⟩
      · rw [if_neg hm] at h
        obtain ⟨n, lbl, body, p, bbs, hmem, hm2, hp, hb, hbs⟩ :=
          serializeVariants_unpack rest tv v idS idE bs h
        exact ⟨n, lbl, body, p, bbs, Or.inr hmem, hm2, hp, hb, hbs⟩

/-- With distinct identifier values, a variant is determined by its
identifier value. -/
theorem variantMem_unique_by_idVal : ∀ (vars : VariantList)
    (n1 n2 : Nat) (lbl1 lbl2 : Option IdVal) (body1 body2 : ItemList),
    (variantIdVals vars).Nodup →
    VariantMem n1 lbl1 body1 vars → VariantMem n2 lbl2 body2 vars →
    variantIdVal n1 lbl1 = variantIdVal n2 lbl2 →
    n1 = n2 ∧ lbl1 = lbl2 ∧ body1 = body2
  | .cons n0 lbl0 body0 rest, n1, n2, lbl1, lbl2, body1, body2, hnod, h1, h2, heq => by
      simp [variantIdVals] at hnod
      rcases h1 with ⟨ha1, hb1, hc1⟩ | h1
      · rcases h2 with ⟨ha2, hb2, hc2⟩ | h2
        · subst ha1; subst hb1; subst hc1; subst ha2; subst hb2; subst hc2
          exact ⟨rfl, rfl, rfl⟩
        · exfalso
          apply hnod.1
          rw [← ha1, ← hb1, heq]
          exact variantMem_idVal_mem rest n2 lbl2 body2 h2
      · rcases h2 with ⟨ha2, hb2, hc2⟩ | h2
        · exfalso
          apply hnod.1
          rw [← ha2, ← hb2, ← heq]
          exact variantMem_idVal_mem rest n1 lbl1 body1 h1
        · exact variantMem_unique_by_idVal rest n1 n2 lbl1 lbl2 body1 body2
            hnod.2 h1 h2 heq

theorem numInRange_false_of_lt (ls n : Nat) (h : n < 256 ^ ls) :
    numInRange false ls (n : Int) = true := by
  rw [numInRange_false_iff]
  refine ⟨by positivity, ?_⟩
  have h2 : (256 : Nat) ^ ls = 2 ^ (8 * ls) := pow256_eq_pow2 ls
  have : ((n : Int)) < ((2 ^ (8 * ls) : Nat) : Int) := by exact_mod_cast h2 ▸ h
  calc (n : Int) < ((2 ^ (8 * ls) : Nat) : Int) := this
  _ = (2 : Int) ^ (8 * ls) := by push_cast; ring

/-- An omitted item is valid exactly at the undefined value. -/
theorem validItem_omitted (i : Item) (h : isOmitted i = true) :
    ValidItem i JVal.undef := by
  cases i with
  | num sg sz e c =>
      cases c with
      | const k om =>
          rw [ValidItem]
          simp [isOmitted] at h
          simp [h]
      | plain => simp [isOmitted] at h
      | fixedConv frm toV => simp [isOmitted] at h
      | customConv t f => simp [isOmitted] at h
  | bytesPure len c =>
      cases c with
      | const bs om =>
          rw [ValidItem]
          simp [isOmitted] at h
          simp [h]
      | plain => simp [isOmitted] at h
      | fixedConv frm toV => simp [isOmitted] at h
      | customConv t f => simp [isOmitted] at h
  | bytesLayout len inner c => simp [isOmitted] at h
  | arr alen elem => simp [isOmitted] at h
  | switch idS idE tag vars => simp [isOmitted] at h

theorem wrapLen_total (len : BLen) (r : List Nat) (h : bLenOK len r.length) :
    ∃ bs, wrapLen len (some r) = some bs := by
  cases len with
  | auto => exact ⟨r, by simp [wrapLen]⟩
  | manual s =>
      rw [bLenOK] at h
      exact ⟨r, by simp [wrapLen, h]⟩
  | lenPrefixed ls le =>
      rw [bLenOK] at h
      have hr := numInRange_false_of_lt ls r.length h
      refine ⟨encodeNat ls (resolveEndian le) (intToRaw ls (r.length : Int)) ++ r, ?_⟩
      simp [wrapLen, serNum, hr]

/-!  Serializer totality: a well-formed layout serializes every valid value
(the spec's value errors cannot occur on valid input).  -/

mutual

theorem st_item : ∀ (i : Item) (t : Bool) (v : JVal), WFItem i t = true →
    ValidItem i v → (serializeItem i v).isSome = true
  | .num sg sz e c, t, v, hwf, hval => by
      rw [WFItem.eq_def] at hwf
      rw [ValidItem.eq_def] at hval
      cases c with
      | plain =>
          obtain ⟨k, hv, hr⟩ := hval
          subst hv
          simp [serializeItem, serNum, hr]
      | const k om =>
          simp only [] at hwf
          simp only [Bool.and_eq_true, decide_eq_true_eq] at hwf
          simp [serializeItem, serNum, hwf.2]
      | fixedConv frm toV =>
          simp only [] at hwf
          simp only [Bool.and_eq_true, decide_eq_true_eq] at hwf
          simp [serializeItem, serNum, hwf.2]
      | customConv cto cfrom =>
          obtain ⟨raw, hv, hf, hr⟩ := hval
          subst hv
          simp [serializeItem, serNum, hf, hr]
  | .bytesPure len c, t, v, hwf, hval => by
      rw [WFItem.eq_def] at hwf
      rw [ValidItem.eq_def] at hval
      cases c with
      | plain =>
          obtain ⟨bs, hv, hlen⟩ := hval
          subst hv
          obtain ⟨out, hout⟩ := wrapLen_total len bs hlen
          rw [serializeItem, hout]
          rfl
      | const bs om =>
          have hlen : bLenOK len bs.length := by
            cases len with
            | auto => exact trivial
            | manual s =>
                simp only [] at hwf
                simp only [decide_eq_true_eq] at hwf
                simpa [bLenOK] using hwf
            | lenPrefixed ls le =>
                simp only [] at hwf
                simp only [Bool.and_eq_true, decide_eq_true_eq] at hwf
                simpa [bLenOK] using hwf.2
          obtain ⟨out, hout⟩ := wrapLen_total len bs hlen
          rw [serializeItem, hout]
          rfl
      | fixedConv frm toV =>
          have hlen : bLenOK len frm.length := by
            cases len with
            | auto => exact trivial
            | manual s =>
                simp only [] at hwf
                simp only [decide_eq_true_eq] at hwf
                simpa [bLenOK] using hwf
            | lenPrefixed ls le =>
                simp only [] at hwf
                simp only [Bool.and_eq_true, decide_eq_true_eq] at hwf
                simpa [bLenOK] using hwf.2
          obtain ⟨out, hout⟩ := wrapLen_total len frm hlen
          rw [serializeItem, hout]
          rfl
      | customConv cto cfrom =>
          obtain ⟨raw, hv, hf, hlen⟩ := hval
          subst hv
          obtain ⟨out, hout⟩ := wrapLen_total len raw hlen
          rw [serializeItem, hf, hout]
          rfl
  | .bytesLayout len inner c, t, v, hwf, hval => by
      rw [WFItem.eq_def] at hwf
      simp only [Bool.and_eq_true] at hwf
      rw [ValidItem.eq_def] at hval
      cases c with
      | plain =>
          obtain ⟨hv, hslen⟩ := hval
          obtain ⟨r, hr⟩ := Option.isSome_iff_exists.mp (st_layout inner true v hwf.2 hv)
          have hlen : bLenOK len r.length := by
            cases len with
            | auto => exact trivial
            | manual s => exact hslen r hr
            | lenPrefixed ls le => exact hslen r hr
          obtain ⟨out, hout⟩ := wrapLen_total len r hlen
          rw [serializeItem, hr, hout]
          rfl
      | fixedConv frm toV =>
          obtain ⟨hv, hfrm, hslen⟩ := hval
          obtain ⟨r, hr⟩ := Option.isSome_iff_exists.mp (st_layout inner true frm hwf.2 hfrm)
          have hlen : bLenOK len r.length := by
            cases len with
            | auto => exact trivial
            | manual s => exact hslen r hr
            | lenPrefixed ls le => exact hslen r hr
          obtain ⟨out, hout⟩ := wrapLen_total len r hlen
          rw [serializeItem, hr, hout]
          rfl
      | customConv cto cfrom =>
          obtain ⟨raw, hv, hf, hraw, hslen⟩ := hval
          subst hv
          obtain ⟨r, hr⟩ := Option.isSome_iff_exists.mp (st_layout inner true raw hwf.2 hraw)
          have hlen : bLenOK len r.length := by
            cases len with
            | auto => exact trivial
            | manual s => exact hslen r hr
            | lenPrefixed ls le => exact hslen r hr
          obtain ⟨out, hout⟩ := wrapLen_total len r hlen
          rw [serializeItem, hf, hr, hout]
          rfl
  | .arr alen elem, t, v, hwf, hval => by
      rw [WFItem.eq_def] at hwf
      simp only [Bool.and_eq_true] at hwf
      rw [ValidItem.eq_def] at hval
      obtain ⟨xs, hv, hxs, hlen⟩ := hval
      subst hv
      obtain ⟨content, hcontent⟩ :=
        Option.isSome_iff_exists.mp (st_elems elem false xs hwf.2 hxs)
      cases alen with
      | fixedLen n =>
          rw [aLenOK] at hlen
          rw [serializeItem]
          simp [hlen, hcontent]
      | lenPrefixed ls le =>
          rw [aLenOK] at hlen
          have hr := numInRange_false_of_lt ls xs.length hlen
          rw [serializeItem]
          simp [hcontent, serNum, hr]
      | remainder =>
          rw [serializeItem]
          simp [hcontent]
  | .switch idS idE tag vars, t, v, hwf, hval => by
      rw [WFItem.eq_def] at hwf
      simp only [Bool.and_eq_true, decide_eq_true_eq] at hwf
      rw [ValidItem.eq_def] at hval
      rw [serializeItem]
      exact st_switch vars idS idE tag t v hwf.1.1.2 hwf.2 hval
termination_by i _ _ _ _ => (sizeOf i, 0)

theorem st_layout : ∀ (l : Layout) (t : Bool) (v : JVal), WFLayout l t = true →
    ValidLayout l v → (serializeLayout l v).isSome = true
  | .item i, t, v, hwf, hval => by
      rw [WFLayout] at hwf
      rw [ValidLayout] at hval
      rw [serializeLayout]
      exact st_item i t v hwf hval
  | .proper items, t, v, hwf, hval => by
      rw [WFLayout] at hwf
      simp only [Bool.and_eq_true, decide_eq_true_eq] at hwf
      rw [ValidLayout] at hval
      obtain ⟨fs, hv, hfs⟩ := hval
      subst hv
      rw [serializeLayout]
      exact st_items items t fs hwf.1 hwf.2 hfs
termination_by l _ _ _ _ => (sizeOf l, 0)

theorem st_items : ∀ (items : ItemList) (t : Bool) (fs : List (String × JVal)),
    WFItems items t = true → (itemNames items).Nodup → ValidItems items fs →
    (serializeItems items (JVal.obj fs)).isSome = true
  | .nil, t, fs, hwf, hnod, hval => by rw [serializeItems]; rfl
  | .cons name i .nil, t, fs, hwf, hnod, hval => by
      rw [WFItems] at hwf
      rw [ValidItems] at hval
      by_cases hom : isOmitted i = true
      · rw [if_pos hom] at hval
        obtain ⟨b, hb⟩ := Option.isSome_iff_exists.mp
          (st_item i t JVal.undef hwf (validItem_omitted i hom))
        rw [serializeItems]
        simp [hom, hb, serializeItems]
      · rw [if_neg hom] at hval
        obtain ⟨x, fs2, hfs, hx, hfs2⟩ := hval
        rw [ValidItems] at hfs2
        subst hfs; subst hfs2
        obtain ⟨b, hb⟩ := Option.isSome_iff_exists.mp (st_item i t x hwf hx)
        rw [serializeItems]
        simp only [Bool.not_eq_true] at hom
        simp [hom, getFieldD_obj_cons_self, hb, serializeItems]
  | .cons name i (.cons name2 i2 rest), t, fs, hwf, hnod, hval => by
      simp only [WFItems, Bool.and_eq_true] at hwf
      rw [ValidItems] at hval
      rw [itemNames] at hnod
      obtain ⟨hn1, hnod2⟩ := List.nodup_cons.mp hnod
      by_cases hom : isOmitted i = true
      · rw [if_pos hom] at hval
        obtain ⟨b, hb⟩ := Option.isSome_iff_exists.mp
          (st_item i false JVal.undef hwf.1 (validItem_omitted i hom))
        obtain ⟨b2, hb2⟩ := Option.isSome_iff_exists.mp
          (st_items (.cons name2 i2 rest) t fs hwf.2 hnod2 hval)
        rw [serializeItems]
        simp [hom, hb, hb2]
      · rw [if_neg hom] at hval
        obtain ⟨x, fs2, hfs, hx, hfs2⟩ := hval
        subst hfs
        obtain ⟨b, hb⟩ := Option.isSome_iff_exists.mp (st_item i false x hwf.1 hx)
        obtain ⟨b2, hb2⟩ := Option.isSome_iff_exists.mp
          (st_items (.cons name2 i2 rest) t fs2 hwf.2 hnod2 hfs2)
        have hcongr : serializeItems (.cons name2 i2 rest) (JVal.obj ((name, x) :: fs2)) =
            serializeItems (.cons name2 i2 rest) (JVal.obj fs2) := by
          apply serializeItems_congr
          intro n hn
          apply getFieldD_obj_cons_ne
          intro he
          subst he
          exact hn1 hn
        rw [serializeItems]
        simp only [Bool.not_eq_true] at hom
        simp [hom, getFieldD_obj_cons_self, hb, hcongr, hb2]
termination_by items _ _ _ _ _ => (sizeOf items, 0)

theorem st_switch : ∀ (vars : VariantList) (idS : Nat) (idE : Option Endian)
    (tag : Option String) (t : Bool) (v : JVal),
    WFVariants vars idS tag t = true → (variantIdVals vars).Nodup →
    ValidSwitch vars tag v →
    (serializeVariants vars (getFieldD v (tagName tag)) v idS idE).isSome = true
  | .nil, idS, idE, tag, t, v, hwf, hnod, hval => by
      rw [ValidSwitch] at hval
      exact hval.elim
  | .cons n2 lbl2 body2 rest, idS, idE, tag, t, v, hwf, hnod, hval => by
      rw [WFVariants] at hwf
      simp only [Bool.and_eq_true, decide_eq_true_eq] at hwf
      obtain ⟨⟨⟨⟨hid, hwfb⟩, hnodn⟩, htag⟩, hwfrest⟩ := hwf
      rw [ValidSwitch] at hval
      rw [variantIdVals] at hnod
      obtain ⟨hnod1, hnodrest⟩ := List.nodup_cons.mp hnod
      rcases hval with ⟨fs, hv, hfs⟩ | hval
      · subst hv
        have htv : getFieldD (JVal.obj ((tagName tag, (variantIdVal n2 lbl2).toJVal) :: fs))
            (tagName tag) = (variantIdVal n2 lbl2).toJVal := getFieldD_obj_cons_self _ _ _
        have hm : idMatches (variantIdVal n2 lbl2) (variantIdVal n2 lbl2).toJVal = true :=
          (idMatches_toJVal _ _).mpr rfl
        have hr := numInRange_false_of_lt idS n2 hid
        have hcongr : serializeItems body2
            (JVal.obj ((tagName tag, (variantIdVal n2 lbl2).toJVal) :: fs)) =
            serializeItems body2 (JVal.obj fs) := by
          apply serializeItems_congr
          intro n hn
          apply getFieldD_obj_cons_ne
          intro he
          subst he
          exact htag hn
        obtain ⟨bbs, hbbs⟩ := Option.isSome_iff_exists.mp (st_items body2 t fs hwfb hnodn hfs)
        rw [serializeVariants]
        rw [htv, if_pos hm]
        simp [serNum, hr, hcongr, hbbs]
      · obtain ⟨n, lbl, body, fs, hmem, hv, hfs⟩ := validSwitch_unpack rest tag v hval
        have hne : variantIdVal n2 lbl2 ≠ variantIdVal n lbl := by
          intro he
          apply hnod1
          rw [he]
          exact variantMem_idVal_mem rest n lbl body hmem
        have hnm : idMatches (variantIdVal n2 lbl2) (getFieldD v (tagName tag)) = false := by
          rw [hv, getFieldD_obj_cons_self]
          rw [← Bool.not_eq_true]
          intro hc
          exact hne ((idMatches_toJVal _ _).mp hc)
        rw [serializeVariants, hnm]
        simp only [Bool.false_eq_true, if_false]
        exact st_switch rest idS idE tag t v hwfrest hnodrest hval
termination_by vars _ _ _ _ _ _ _ _ => (sizeOf vars, 0)

theorem st_elems : ∀ (elem : Layout) (t : Bool) (xs : List JVal),
    WFLayout elem t = true → (∀ x ∈ xs, ValidLayout elem x) →
    (serializeElems elem xs).isSome = true
  | elem, t, [], hwf, hval => by rw [serializeElems]; rfl
  | elem, t, x :: xs, hwf, hval => by
      obtain ⟨b, hb⟩ := Option.isSome_iff_exists.mp (st_layout elem t x hwf (hval x (by simp)))
      obtain ⟨bs, hbs⟩ := Option.isSome_iff_exists.mp
        (st_elems elem t xs hwf (fun y hy => hval y (by simp [hy])))
      rw [serializeElems]
      simp [hb, hbs]
termination_by elem _ xs _ _ => (sizeOf elem, xs.length + 1)

end

theorem serNum_unpack (sg : Bool) (s : Nat) (e : Option Endian) (v : Int)
    (bs : List Nat) (h : serNum sg s e v = some bs) :
    numInRange sg s v = true ∧ bs = encodeNat s (resolveEndian e) (intToRaw s v) := by
  unfold serNum at h
  by_cases hr : numInRange sg s v = true
  · rw [if_pos hr] at h
    exact ⟨hr, (Option.some.injEq _ _ ▸ h).symm⟩
  · rw [if_neg hr] at h
    cases h

theorem wrapLen_unpack (len : BLen) (r bs : List Nat)
    (h : wrapLen len (some r) = some bs) :
    (len = .auto ∧ bs = r) ∨
    (∃ s, len = .manual s ∧ r.length = s ∧ bs = r) ∨
    (∃ ls le p, len = .lenPrefixed ls le ∧
      serNum false ls le (r.length : Int) = some p ∧ bs = p ++ r) := by
  cases len with
  | auto =>
      simp [wrapLen] at h
      exact Or.inl ⟨rfl, h.symm⟩
  | manual s =>
      simp [wrapLen] at h
      exact Or.inr (Or.inl ⟨s, rfl, h.1, h.2.symm⟩)
  | lenPrefixed ls le =>
      have h2 : (do
          let p ← serNum false ls le (r.length : Int)
          some (p ++ r) : Option (List Nat)) = some bs := h
      simp only [Option.bind_eq_bind, Option.bind_eq_some] at h2
      obtain ⟨p, hp, hbs⟩ := h2
      simp only [Option.some.injEq] at hbs
      exact Or.inr (Or.inr ⟨ls, le, p, rfl, hp, hbs.symm⟩)

/-!  Round trip: deserializing the serialization of a valid value over a
well-formed layout recovers the value exactly and consumes exactly the
written bytes (spec, section 4.2:
deserialize(layout, serialize(layout, v)) == v).  -/

mutual

theorem rt_item : ∀ (i : Item) (t : Bool) (v : JVal) (bs rest : List Nat),
    WFItem i t = true → ValidItem i v → serializeItem i v = some bs →
    (t = true → rest = []) → deserializeItem i (bs ++ rest) = some (v, rest)
  | .num sg sz e c, t, v, bs, rest, hwf, hval, hser, hrest => by
      rw [WFItem.eq_def] at hwf
      rw [ValidItem.eq_def] at hval
      cases c with
      | plain =>
          obtain ⟨k, hv, hr⟩ := hval
          subst hv
          rw [serializeItem] at hser
          rw [deserializeItem]
          simp only [Bool.and_eq_true, decide_eq_true_eq] at hwf
          rw [readNum_serNum sg sz e k bs rest hwf.1 hser]
          rfl
      | const k om =>
          simp only [Bool.and_eq_true, decide_eq_true_eq] at hwf
          rw [serializeItem] at hser
          rw [deserializeItem]
          rw [readNum_serNum sg sz e k bs rest hwf.1 hser]
          cases om with
          | true =>
              have hv2 : v = JVal.undef := hval
              subst hv2
              simp
          | false =>
              have hv2 : v = JVal.num k := hval
              subst hv2
              simp
      | fixedConv frm toV =>
          simp only [Bool.and_eq_true, decide_eq_true_eq] at hwf
          rw [serializeItem] at hser
          rw [deserializeItem]
          rw [readNum_serNum sg sz e frm bs rest hwf.1 hser]
          have hv2 : v = toV := hval
          subst hv2
          simp
      | customConv cto cfrom =>
          obtain ⟨raw, hv, hf, hr⟩ := hval
          subst hv
          rw [serializeItem, hf] at hser
          rw [deserializeItem]
          simp only [Bool.and_eq_true, decide_eq_true_eq] at hwf
          rw [readNum_serNum sg sz e raw bs rest hwf.1 hser]
          simp
  | .bytesPure len c, t, v, bs, rest, hwf, hval, hser, hrest => by
      rw [WFItem.eq_def] at hwf
      rw [ValidItem.eq_def] at hval
      cases c with
      | plain =>
          obtain ⟨content, hv, hlen⟩ := hval
          subst hv
          rw [serializeItem] at hser
          rw [deserializeItem]
          rcases wrapLen_unpack len content bs hser with
            ⟨hl, hbs⟩ | ⟨s, hl, hcl, hbs⟩ | ⟨ls, le, p, hl, hp, hbs⟩
          · subst hl; subst hbs
            have ht : t = true := hwf
            have hrest0 : rest = [] := hrest ht
            subst hrest0
            simp [takeSlice, bytesKnownLen]
          · subst hl; subst hbs
            simp [takeSlice, bytesKnownLen, splitN_append_of_length s bs rest hcl]
          · subst hl; subst hbs
            have hls : 1 ≤ ls := by
              have h2 : (decide (1 ≤ ls) && true) = true := hwf
              simpa using h2
            rw [List.append_assoc]
            simp only [takeSlice, bytesKnownLen]
            rw [readNum_serNum false ls le (content.length : Int) p (content ++ rest)
              hls hp]
            simp [splitN_append]
      | const cbs om =>
          rw [serializeItem] at hser
          rw [deserializeItem]
          cases om with
          | true =>
              have hv2 : v = JVal.undef := hval
              subst hv2
              rcases wrapLen_unpack len cbs bs hser with
                ⟨hl, hbs⟩ | ⟨s, hl, hcl, hbs⟩ | ⟨ls, le, p, hl, hp, hbs⟩
              · subst hl; subst hbs
                simp [takeSlice, bytesKnownLen, splitN_append]
              · subst hl; subst hbs
                simp [takeSlice, bytesKnownLen, splitN_append_of_length s bs rest hcl]
              · subst hl; subst hbs
                have hls : 1 ≤ ls := by
                  have h2 : (decide (1 ≤ ls) && decide (cbs.length < 256 ^ ls)) = true := hwf
                  simp at h2
                  exact h2.1
                rw [List.append_assoc]
                simp only [takeSlice, bytesKnownLen]
                rw [readNum_serNum false ls le (cbs.length : Int) p (cbs ++ rest) hls hp]
                simp [splitN_append]
          | false =>
              have hv2 : v = JVal.bytes cbs := hval
              subst hv2
              rcases wrapLen_unpack len cbs bs hser with
                ⟨hl, hbs⟩ | ⟨s, hl, hcl, hbs⟩ | ⟨ls, le, p, hl, hp, hbs⟩
              · subst hl; subst hbs
                simp [takeSlice, bytesKnownLen, splitN_append]
              · subst hl; subst hbs
                simp [takeSlice, bytesKnownLen, splitN_append_of_length s bs rest hcl]
              · subst hl; subst hbs
                have hls : 1 ≤ ls := by
                  have h2 : (decide (1 ≤ ls) && decide (cbs.length < 256 ^ ls)) = true := hwf
                  simp at h2
                  exact h2.1
                rw [List.append_assoc]
                simp only [takeSlice, bytesKnownLen]
                rw [readNum_serNum false ls le (cbs.length : Int) p (cbs ++ rest) hls hp]
                simp [splitN_append]
      | fixedConv frm toV =>
          have hv2 : v = toV := hval
          subst hv2
          rw [serializeItem] at hser
          rw [deserializeItem]
          rcases wrapLen_unpack len frm bs hser with
            ⟨hl, hbs⟩ | ⟨s, hl, hcl, hbs⟩ | ⟨ls, le, p, hl, hp, hbs⟩
          · subst hl; subst hbs
            simp [takeSlice, bytesKnownLen, splitN_append]
          · subst hl; subst hbs
            simp [takeSlice, bytesKnownLen, splitN_append_of_length s bs rest hcl]
          · subst hl; subst hbs
            have hls : 1 ≤ ls := by
              have h2 : (decide (1 ≤ ls) && decide (frm.length < 256 ^ ls)) = true := hwf
              simp at h2
              exact h2.1
            rw [List.append_assoc]
            simp only [takeSlice, bytesKnownLen]
            rw [readNum_serNum false ls le (frm.length : Int) p (frm ++ rest) hls hp]
            simp [splitN_append]
      | customConv cto cfrom =>
          obtain ⟨raw, hv, hf, hlen⟩ := hval
          subst hv
          rw [serializeItem, hf] at hser
          rw [deserializeItem]
          rcases wrapLen_unpack len raw bs hser with
            ⟨hl, hbs⟩ | ⟨s, hl, hcl, hbs⟩ | ⟨ls, le, p, hl, hp, hbs⟩
          · subst hl; subst hbs
            have ht : t = true := hwf
            have hrest0 : rest = [] := hrest ht
            subst hrest0
            simp [takeSlice, bytesKnownLen]
          · subst hl; subst hbs
            simp [takeSlice, bytesKnownLen, splitN_append_of_length s bs rest hcl]
          · subst hl; subst hbs
            have hls : 1 ≤ ls := by
              have h2 : (decide (1 ≤ ls) && true) = true := hwf
              simpa using h2
            rw [List.append_assoc]
            simp only [takeSlice, bytesKnownLen]
            rw [readNum_serNum false ls le (raw.length : Int) p (raw ++ rest) hls hp]
            simp [splitN_append]
  | .bytesLayout len inner c, t, v, bs, rest, hwf, hval, hser, hrest => by
      rw [WFItem.eq_def] at hwf
      simp only [Bool.and_eq_true] at hwf
      rw [ValidItem.eq_def] at hval
      cases c with
      | plain =>
          obtain ⟨hv, hslen⟩ := hval
          rw [serializeItem] at hser
          rw [deserializeItem]
          cases hc : serializeLayout inner v with
          | none => rw [hc] at hser; simp [wrapLen] at hser
          | some content =>
              rw [hc] at hser
              have hin : deserializeLayout inner content = some (v, []) := by
                have := rt_layout inner true v content [] hwf.2 hv hc (fun _ => rfl)
                simpa using this
              rcases wrapLen_unpack len content bs hser with
                ⟨hl, hbs⟩ | ⟨s, hl, hcl, hbs⟩ | ⟨ls, le, p, hl, hp, hbs⟩
              · subst hl; subst hbs
                have ht : t = true := hwf.1
                have hrest0 : rest = [] := hrest ht
                subst hrest0
                simp [takeSlice, hin]
              · subst hl; subst hbs
                simp [takeSlice, splitN_append_of_length s bs rest hcl, hin]
              · subst hl; subst hbs
                have hls : 1 ≤ ls := by
                  have h2 : decide (1 ≤ ls) = true := hwf.1
                  simpa using h2
                rw [List.append_assoc]
                simp only [takeSlice]
                rw [readNum_serNum false ls le (content.length : Int) p (content ++ rest)
                  hls hp]
                simp [splitN_append, hin]
      | fixedConv frm toV =>
          obtain ⟨hv, hfrm, hslen⟩ := hval
          subst hv
          rw [serializeItem] at hser
          rw [deserializeItem]
          cases hc : serializeLayout inner frm with
          | none => rw [hc] at hser; simp [wrapLen] at hser
          | some content =>
              rw [hc] at hser
              have hin : deserializeLayout inner content = some (frm, []) := by
                have := rt_layout inner true frm content [] hwf.2 hfrm hc (fun _ => rfl)
                simpa using this
              rcases wrapLen_unpack len content bs hser with
                ⟨hl, hbs⟩ | ⟨s, hl, hcl, hbs⟩ | ⟨ls, le, p, hl, hp, hbs⟩
              · subst hl; subst hbs
                have ht : t = true := hwf.1
                have hrest0 : rest = [] := hrest ht
                subst hrest0
                simp [takeSlice, hin]
              · subst hl; subst hbs
                simp [takeSlice, splitN_append_of_length s bs rest hcl, hin]
              · subst hl; subst hbs
                have hls : 1 ≤ ls := by
                  have h2 : decide (1 ≤ ls) = true := hwf.1
                  simpa using h2
                rw [List.append_assoc]
                simp only [takeSlice]
                rw [readNum_serNum false ls le (content.length : Int) p (content ++ rest)
                  hls hp]
                simp [splitN_append, hin]
      | customConv cto cfrom =>
          obtain ⟨raw, hv, hf, hraw, hslen⟩ := hval
          subst hv
          rw [serializeItem, hf] at hser
          rw [deserializeItem]
          cases hc : serializeLayout inner raw with
          | none => rw [hc] at hser; simp [wrapLen] at hser
          | some content =>
              rw [hc] at hser
              have hin : deserializeLayout inner content = some (raw, []) := by
                have := rt_layout inner true raw content [] hwf.2 hraw hc (fun _ => rfl)
                simpa using this
              rcases wrapLen_unpack len content bs hser with
                ⟨hl, hbs⟩ | ⟨s, hl, hcl, hbs⟩ | ⟨ls, le, p, hl, hp, hbs⟩
              · subst hl; subst hbs
                have ht : t = true := hwf.1
                have hrest0 : rest = [] := hrest ht
                subst hrest0
                simp [takeSlice, hin]
              · subst hl; subst hbs
                simp [takeSlice, splitN_append_of_length s bs rest hcl, hin]
              · subst hl; subst hbs
                have hls : 1 ≤ ls := by
                  have h2 : decide (1 ≤ ls) = true := hwf.1
                  simpa using h2
                rw [List.append_assoc]
                simp only [takeSlice]
                rw [readNum_serNum false ls le (content.length : Int) p (content ++ rest)
                  hls hp]
                simp [splitN_append, hin]
  | .arr alen elem, t, v, bs, rest, hwf, hval, hser, hrest => by
      rw [WFItem.eq_def] at hwf
      simp only [Bool.and_eq_true] at hwf
      rw [ValidItem.eq_def] at hval
      obtain ⟨xs, hv, hxs, hlen⟩ := hval
      subst hv
      cases alen with
      | fixedLen n =>
          rw [serializeItem] at hser
          rw [deserializeItem]
          rw [aLenOK] at hlen
          rw [if_pos hlen] at hser
          subst hlen
          rw [rt_elemsN elem xs bs rest hwf.2 hxs hser]
          rfl
      | lenPrefixed ls le =>
          rw [serializeItem] at hser
          rw [deserializeItem]
          rw [aLenOK] at hlen
          simp only [Option.bind_eq_bind, Option.bind_eq_some] at hser
          obtain ⟨content, hcontent, hser2⟩ := hser
          obtain ⟨p, hp, hbs⟩ := hser2
          simp only [Option.some.injEq] at hbs
          subst hbs
          have hls : 1 ≤ ls := by
            have h2 : decide (1 ≤ ls) = true := hwf.1
            simpa using h2
          rw [List.append_assoc]
          simp only [Option.bind_eq_bind]
          rw [readNum_serNum false ls le (xs.length : Int) p (content ++ rest) hls hp]
          simp only [Option.some_bind, Int.toNat_natCast]
          rw [rt_elemsN elem xs content rest hwf.2 hxs hcontent]
          rfl
      | remainder =>
          rw [serializeItem] at hser
          rw [deserializeItem]
          have ht : t = true := hwf.1
          have hrest0 : rest = [] := hrest ht
          subst hrest0
          have hne : ∀ x ∈ xs, ∀ b, serializeLayout elem x = some b → b ≠ [] := by
            rw [aLenOK] at hlen
            exact hlen
          rw [List.append_nil]
          rw [rt_elemsRem elem xs bs hwf.2 hxs hne hser]
          rfl
  | .switch idS idE tag vars, t, v, bs, rest, hwf, hval, hser, hrest => by
      rw [WFItem.eq_def] at hwf
      simp only [Bool.and_eq_true, decide_eq_true_eq] at hwf
      rw [ValidItem.eq_def] at hval
      rw [serializeItem] at hser
      rw [deserializeItem]
      exact rt_switch vars idS idE tag t v bs rest hwf.1.1.2 hwf.1.2 hwf.2 hval hser
        hrest hwf.1.1.1
termination_by i _ _ _ _ _ _ _ _ => (sizeOf i, 0)

theorem rt_layout : ∀ (l : Layout) (t : Bool) (v : JVal) (bs rest : List Nat),
    WFLayout l t = true → ValidLayout l v → serializeLayout l v = some bs →
    (t = true → rest = []) → deserializeLayout l (bs ++ rest) = some (v, rest)
  | .item i, t, v, bs, rest, hwf, hval, hser, hrest => by
      rw [WFLayout] at hwf
      rw [ValidLayout] at hval
      rw [serializeLayout] at hser
      rw [deserializeLayout]
      exact rt_item i t v bs rest hwf hval hser hrest
  | .proper items, t, v, bs, rest, hwf, hval, hser, hrest => by
      rw [WFLayout] at hwf
      simp only [Bool.and_eq_true, decide_eq_true_eq] at hwf
      rw [ValidLayout] at hval
      obtain ⟨fs, hv, hfs⟩ := hval
      subst hv
      rw [serializeLayout] at hser
      rw [deserializeLayout]
      rw [rt_items items t fs bs rest hwf.1 hwf.2 hfs hser hrest]
      rfl
termination_by l _ _ _ _ _ _ _ _ => (sizeOf l, 0)

theorem rt_items : ∀ (items : ItemList) (t : Bool) (fs : List (String × JVal))
    (bs rest : List Nat),
    WFItems items t = true → (itemNames items).Nodup → ValidItems items fs →
    serializeItems items (JVal.obj fs) = some bs → (t = true → rest = []) →
    deserializeItems items (bs ++ rest) = some (fs, rest)
  | .nil, t, fs, bs, rest, hwf, hnod, hval, hser, hrest => by
      rw [ValidItems] at hval
      subst hval
      rw [serializeItems] at hser
      simp only [Option.some.injEq] at hser
      subst hser
      rw [deserializeItems]
      rfl
  | .cons name i .nil, t, fs, bs, rest, hwf, hnod, hval, hser, hrest => by
      rw [WFItems] at hwf
      rw [ValidItems] at hval
      rw [serializeItems] at hser
      by_cases hom : isOmitted i = true
      · rw [if_pos hom] at hval
        rw [ValidItems] at hval
        subst hval
        simp only [hom, if_pos rfl, Option.bind_eq_bind, Option.bind_eq_some] at hser
        obtain ⟨b, hb, hser2⟩ := hser
        rw [serializeItems] at hser2
        simp only [Option.some_bind, Option.some.injEq] at hser2
        obtain ⟨a, ha, hbs⟩ := hser2
        subst ha
        rw [List.append_nil] at hbs
        subst hbs
        rw [deserializeItems]
        rw [rt_item i t JVal.undef b rest hwf (validItem_omitted i hom) hb hrest]
        simp only [Option.bind_eq_bind, Option.some_bind]
        simp [deserializeItems, hom]
      · rw [if_neg hom] at hval
        obtain ⟨x, fs2, hfs, hx, hfs2⟩ := hval
        rw [ValidItems] at hfs2
        subst hfs; subst hfs2
        simp only [Bool.not_eq_true] at hom
        simp only [hom, Bool.false_eq_true, if_false, getFieldD_obj_cons_self,
          Option.bind_eq_bind, Option.bind_eq_some] at hser
        obtain ⟨b, hb, hser2⟩ := hser
        rw [serializeItems] at hser2
        simp only [Option.some_bind, Option.some.injEq] at hser2
        obtain ⟨a, ha, hbs⟩ := hser2
        subst ha
        rw [List.append_nil] at hbs
        subst hbs
        rw [deserializeItems]
        rw [rt_item i t x b rest hwf hx hb hrest]
        simp only [Option.bind_eq_bind, Option.some_bind]
        simp [deserializeItems, hom]
  | .cons name i (.cons name2 i2 rest2), t, fs, bs, rest, hwf, hnod, hval, hser, hrest => by
      simp only [WFItems, Bool.and_eq_true] at hwf
      rw [ValidItems] at hval
      rw [itemNames] at hnod
      obtain ⟨hn1, hnod2⟩ := List.nodup_cons.mp hnod
      rw [serializeItems] at hser
      by_cases hom : isOmitted i = true
      · rw [if_pos hom] at hval
        simp only [hom, if_pos rfl, Option.bind_eq_bind, Option.bind_eq_some] at hser
        obtain ⟨b, hb, hser2⟩ := hser
        obtain ⟨b2, hb2, hbs⟩ := hser2
        simp only [Option.some.injEq] at hbs
        subst hbs
        rw [deserializeItems]
        rw [List.append_assoc]
        rw [rt_item i false JVal.undef b (b2 ++ rest) hwf.1 (validItem_omitted i hom) hb
          (by simp)]
        simp only [Option.bind_eq_bind, Option.some_bind]
        rw [rt_items (.cons name2 i2 rest2) t fs b2 rest hwf.2 hnod2 hval hb2 hrest]
        simp [hom]
      · rw [if_neg hom] at hval
        obtain ⟨x, fs2, hfs, hx, hfs2⟩ := hval
        subst hfs
        simp only [Bool.not_eq_true] at hom
        simp only [hom, Bool.false_eq_true, if_false, getFieldD_obj_cons_self,
          Option.bind_eq_bind, Option.bind_eq_some] at hser
        obtain ⟨b, hb, hser2⟩ := hser
        have hcongr : serializeItems (.cons name2 i2 rest2) (JVal.obj ((name, x) :: fs2)) =
            serializeItems (.cons name2 i2 rest2) (JVal.obj fs2) := by
          apply serializeItems_congr
          intro n hn
          apply getFieldD_obj_cons_ne
          intro he
          subst he
          exact hn1 hn
        rw [hcongr] at hser2
        obtain ⟨b2, hb2, hbs⟩ := hser2
        simp only [Option.some.injEq] at hbs
        subst hbs
        rw [deserializeItems]
        rw [List.append_assoc]
        rw [rt_item i false x b (b2 ++ rest) hwf.1 hx hb (by simp)]
        simp only [Option.bind_eq_bind, Option.some_bind]
        rw [rt_items (.cons name2 i2 rest2) t fs2 b2 rest hwf.2 hnod2 hfs2 hb2 hrest]
        simp [hom]
termination_by items _ _ _ _ _ _ _ _ _ => (sizeOf items, 0)

theorem rt_switch : ∀ (vars : VariantList) (idS : Nat) (idE : Option Endian)
    (tag : Option String) (t : Bool) (v : JVal) (bs rest : List Nat),
    WFVariants vars idS tag t = true → (variantNums vars).Nodup →
    (variantIdVals vars).Nodup → ValidSwitch vars tag v →
    serializeVariants vars (getFieldD v (tagName tag)) v idS idE = some bs →
    (t = true → rest = []) → 1 ≤ idS →
    ((readNum false idS idE (bs ++ rest)).bind fun p =>
      deserializeVariants vars p.1.toNat tag p.2) = some (v, rest)
  | .nil, idS, idE, tag, t, v, bs, rest, hwf, hnodn, hnodi, hval, hser, hrest, hid => by
      rw [ValidSwitch] at hval
      exact hval.elim
  | .cons n2 lbl2 body2 rest2, idS, idE, tag, t, v, bs, rest, hwf, hnodn, hnodi, hval,
      hser, hrest, hid => by
      rw [WFVariants] at hwf
      simp only [Bool.and_eq_true, decide_eq_true_eq] at hwf
      obtain ⟨⟨⟨⟨hidlt, hwfb⟩, hnodbn⟩, htag⟩, hwfrest⟩ := hwf
      rw [variantNums] at hnodn
      obtain ⟨hnodn1, hnodnrest⟩ := List.nodup_cons.mp hnodn
      rw [variantIdVals] at hnodi
      obtain ⟨hnodi1, hnodirest⟩ := List.nodup_cons.mp hnodi
      rw [ValidSwitch] at hval
      rw [serializeVariants] at hser
      rcases hval with ⟨fs, hv, hfs⟩ | hval
      · subst hv
        rw [getFieldD_obj_cons_self, if_pos ((idMatches_toJVal _ _).mpr rfl)] at hser
        simp only [Option.bind_eq_bind, Option.bind_eq_some] at hser
        obtain ⟨p, hp, hser2⟩ := hser
        obtain ⟨bbs, hbbs, hbs⟩ := hser2
        simp only [Option.some.injEq] at hbs
        subst hbs
        rw [List.append_assoc]
        rw [readNum_serNum false idS idE (n2 : Int) p (bbs ++ rest) hid hp]
        simp only [Option.some_bind, Int.toNat_natCast]
        rw [deserializeVariants, if_pos rfl]
        have hcongr : serializeItems body2
            (JVal.obj ((tagName tag, (variantIdVal n2 lbl2).toJVal) :: fs)) =
            serializeItems body2 (JVal.obj fs) := by
          apply serializeItems_congr
          intro n hn
          apply getFieldD_obj_cons_ne
          intro he
          subst he
          exact htag hn
        rw [hcongr] at hbbs
        rw [rt_items body2 t fs bbs rest hwfb hnodbn hfs hbbs hrest]
        rfl
      · obtain ⟨n, lbl, body, fs, hmem, hv, hfs⟩ := validSwitch_unpack rest2 tag v hval
        have hne : variantIdVal n2 lbl2 ≠ variantIdVal n lbl := by
          intro he
          apply hnodi1
          rw [he]
          exact variantMem_idVal_mem rest2 n lbl body hmem
        have hnm : idMatches (variantIdVal n2 lbl2) (getFieldD v (tagName tag)) = false := by
          rw [hv, getFieldD_obj_cons_self]
          rw [← Bool.not_eq_true]
          intro hc
          exact hne ((idMatches_toJVal _ _).mp hc)
        rw [hnm] at hser
        simp only [Bool.false_eq_true, if_false] at hser
        have ih := rt_switch rest2 idS idE tag t v bs rest hwfrest hnodnrest hnodirest
          hval hser hrest hid
        obtain ⟨nx, lblx, bodyx, px, bbsx, hmemx, hmx, hpx, hbx, hbsx⟩ :=
          serializeVariants_unpack rest2 (getFieldD v (tagName tag)) v idS idE bs hser
        subst hbsx
        rw [List.append_assoc] at ih ⊢
        rw [readNum_serNum false idS idE (nx : Int) px (bbsx ++ rest) hid hpx] at ih ⊢
        simp only [Option.some_bind, Int.toNat_natCast] at ih ⊢
        rw [deserializeVariants]
        have hne2 : n2 ≠ nx := by
          intro he
          apply hnodn1
          rw [he]
          exact variantMem_num_mem rest2 nx lblx bodyx hmemx
        rw [if_neg hne2]
        exact ih
termination_by vars _ _ _ _ _ _ _ _ _ _ _ _ _ => (sizeOf vars, 0)

theorem rt_elemsN : ∀ (elem : Layout) (xs : List JVal) (bs rest : List Nat),
    WFLayout elem false = true → (∀ x ∈ xs, ValidLayout elem x) →
    serializeElems elem xs = some bs →
    deserializeElemsN elem xs.length (bs ++ rest) = some (xs, rest)
  | elem, [], bs, rest, hwf, hxs, hser => by
      rw [serializeElems] at hser
      simp only [Option.some.injEq] at hser
      subst hser
      rw [List.length_nil, deserializeElemsN]
      rfl
  | elem, x :: xs, bs, rest, hwf, hxs, hser => by
      rw [serializeElems] at hser
      simp only [Option.bind_eq_bind, Option.bind_eq_some] at hser
      obtain ⟨b, hb, hser2⟩ := hser
      obtain ⟨b2, hb2, hbs⟩ := hser2
      simp only [Option.some.injEq] at hbs
      subst hbs
      rw [List.length_cons, deserializeElemsN]
      rw [List.append_assoc]
      rw [rt_layout elem false x b (b2 ++ rest) hwf (hxs x (by simp)) hb (by simp)]
      simp only [Option.bind_eq_bind, Option.some_bind]
      rw [rt_elemsN elem xs b2 rest hwf (fun y hy => hxs y (by simp [hy])) hb2]
      rfl
termination_by elem xs _ _ _ _ _ => (sizeOf elem, xs.length + 1)

theorem rt_elemsRem : ∀ (elem : Layout) (xs : List JVal) (bs : List Nat),
    WFLayout elem false = true → (∀ x ∈ xs, ValidLayout elem x) →
    (∀ x ∈ xs, ∀ b, serializeLayout elem x = some b → b ≠ []) →
    serializeElems elem xs = some bs →
    deserializeElemsRem elem bs = some (xs, [])
  | elem, [], bs, hwf, hxs, hne, hser => by
      rw [serializeElems] at hser
      simp only [Option.some.injEq] at hser
      subst hser
      rw [deserializeElemsRem]
      rfl
  | elem, x :: xs, bs, hwf, hxs, hne, hser => by
      rw [serializeElems] at hser
      simp only [Option.bind_eq_bind, Option.bind_eq_some] at hser
      obtain ⟨b, hb, hser2⟩ := hser
      obtain ⟨b2, hb2, hbs⟩ := hser2
      simp only [Option.some.injEq] at hbs
      subst hbs
      have hbne : b ≠ [] := hne x (by simp) b hb
      rw [deserializeElemsRem]
      have hemp : ((b ++ b2).isEmpty) = false := by
        cases b with
        | nil => exact absurd rfl hbne
        | cons a as => rfl
      rw [hemp]
      simp only [Bool.false_eq_true, if_false]
      rw [rt_layout elem false x b b2 hwf (hxs x (by simp)) hb (by simp)]
      simp only [Option.bind_eq_bind, Option.some_bind]
      have hlt : b2.length < (b ++ b2).length := by
        rw [List.length_append]
        cases b with
        | nil => exact absurd rfl hbne
        | cons a as => simp
      rw [dif_pos hlt]
      rw [rt_elemsRem elem xs b2 hwf (fun y hy => hxs y (by simp [hy]))
        (fun y hy b3 hb3 => hne y (by simp [hy]) b3 hb3) hb2]
      rfl
termination_by elem xs _ _ _ _ _ => (sizeOf elem, xs.length + 1)

end

/-- C1: for every Layout L and every value v valid for L,
deserialize(L, serialize(L, v)) deep-equals v.  Omitted fields never occur
in a value valid for L (ValidItems skips them), are resynthesized from
their constant conversion during serialization, and never appear in the
decoded result, which equals v exactly.  The layout is required to be
schema-well-formed (WFLayout; the spec treats malformed layouts as
construction-time schema errors, section 7). -/
theorem c1_roundtrip (l : Layout) (v : JVal) (hwf : WFLayout l true = true)
    (hval : ValidLayout l v) :
    ∃ bs, serialize l v = some bs ∧ deserialize l bs = some v := by
  obtain ⟨bs, hbs⟩ := Option.isSome_iff_exists.mp (st_layout l true v hwf hval)
  refine ⟨bs, hbs, ?_⟩
  unfold deserialize
  have h := rt_layout l true v bs [] hwf hval hbs (fun _ => rfl)
  rw [List.append_nil] at h
  rw [h]

/-- Witness for C1 at a concrete layout: a record of an omitted constant
byte followed by a plain uint8, at the value with only the plain field. -/
theorem c1_roundtrip_witness :
    ∃ bs,
      serialize
        (.proper (.cons "pad" (.num false 1 none (.const 7 true))
          (.cons "x" (.num false 1 none .plain) .nil)))
        (.obj [("x", .num 42)]) = some bs ∧
      deserialize
        (.proper (.cons "pad" (.num false 1 none (.const 7 true))
          (.cons "x" (.num false 1 none .plain) .nil)))
        bs = some (.obj [("x", .num 42)]) := by
  apply c1_roundtrip
  · simp [WFLayout, WFItems, WFItem, itemNames, numInRange]
  · rw [ValidLayout]
    refine ⟨[("x", .num 42)], rfl, ?_⟩
    rw [ValidItems]
    simp only [isOmitted, if_pos rfl]
    rw [ValidItems]
    simp only [isOmitted]
    refine ⟨.num 42, [], by simp, ?_, by rw [ValidItems]⟩
    rw [ValidItem]
    exact ⟨42, rfl, by decide⟩

/-- C2: serializing a Numeric item of positive byte width S fails exactly
when the supplied raw value lies outside [0, 2^(8S)-1] (unsigned) or
[-2^(8S-1), 2^(8S-1)-1] (signed); every in-range value, boundaries
included, serializes successfully.  serNum is the numeric writer used by
serializeItem for every Numeric item. -/
theorem c2_numeric_range (sg : Bool) (s : Nat) (e : Option Endian) (v : Int)
    (hs : 1 ≤ s) :
    (serNum sg s e v).isSome = true ↔
      (if sg then -((2 : Int) ^ (8 * s - 1)) ≤ v ∧ v ≤ 2 ^ (8 * s - 1) - 1
       else 0 ≤ v ∧ v ≤ 2 ^ (8 * s) - 1) := by
  have hiff : (serNum sg s e v).isSome = true ↔ numInRange sg s v = true := by
    unfold serNum
    by_cases h : numInRange sg s v = true
    · simp [h]
    · simp [h]
  rw [hiff]
  cases sg with
  | false =>
      rw [numInRange_false_iff]
      simp only [Bool.false_eq_true, if_false]
      omega
  | true =>
      rw [numInRange_true_iff]
      rw [if_pos rfl]
      omega

/-- Witness for C2: for a 1-byte unsigned item, 255 is accepted and 256 is
rejected, by the range characterization itself. -/
theorem c2_numeric_range_witness :
    (serNum false 1 none 255).isSome = true ∧
    (serNum false 1 none 256).isSome ≠ true := by
  constructor
  · exact (c2_numeric_range false 1 none 255 (by decide)).mpr (by norm_num)
  · intro hc
    have h := (c2_numeric_range false 1 none 256 (by decide)).mp hc
    norm_num at h

/-- C9: enumItem's custom.to(encoded) errors exactly when encoded is not
the value of any entry; otherwise it returns the name of an entry whose
value equals encoded; and custom.from of a name not present among the
entries returns undefined (none) instead of failing. -/
theorem c9_enumItem (entries : List (String × Int)) (encoded : Int) :
    (enumTo entries encoded = none ↔ ∀ p ∈ entries, p.2 ≠ encoded) ∧
    (∀ n, enumTo entries encoded = some n → (n, encoded) ∈ entries) ∧
    (∀ n : String, (∀ p ∈ entries, p.1 ≠ n) → enumFrom entries n = none) := by
  refine ⟨?_, ?_, ?_⟩
  · unfold enumTo
    rw [Option.map_eq_none']
    rw [List.find?_eq_none]
    constructor
    · intro h p hp
      have := h p (by rw [List.mem_reverse]; exact hp)
      simpa using this
    · intro h p hp
      have := h p (by rw [List.mem_reverse] at hp; exact hp)
      simpa using this
  · intro n h
    unfold enumTo at h
    rw [Option.map_eq_some'] at h
    obtain ⟨p, hp, hn⟩ := h
    have hmem := List.mem_reverse.mp (List.mem_of_find?_eq_some hp)
    have hpe := List.find?_some hp
    simp at hpe
    subst hn
    rw [show p = (p.1, encoded) from by rw [← hpe]] at hmem
    exact hmem
  · intro n h
    unfold enumFrom
    rw [Option.map_eq_none']
    rw [List.find?_eq_none]
    intro p hp
    have := h p (List.mem_reverse.mp hp)
    simpa using this

/-- Witness for C9 at entries [(a,1), (b,2)]: 2 decodes to b, 3 errors,
and an unknown name maps to undefined. -/
theorem c9_enumItem_witness :
    (enumTo [("a", 1), ("b", 2)] 2 = none ↔
      ∀ p ∈ [(("a" : String), (1 : Int)), ("b", 2)], p.2 ≠ 2) ∧
    (("b", (2 : Int)) ∈ [(("a" : String), (1 : Int)), ("b", 2)]) ∧
    enumFrom [("a", 1), ("b", 2)] "c" = none := by
  refine ⟨(c9_enumItem [("a", 1), ("b", 2)] 2).1, ?_, ?_⟩
  · exact (c9_enumItem [("a", 1), ("b", 2)] 2).2.1 "b" (by decide)
  · exact (c9_enumItem [("a", 1), ("b", 2)] 2).2.2 "c" (by decide)

/-- C10: the optionItem conversion is a bijection between the wrapped and
unwrapped representations: to(from(v)) == v for every v (undefined or a
present value), and from(to(o)) == o for both record shapes, the
{isSome: true, value} shape carrying a present (defined) value. -/
theorem c10_optionItem (v : JVal) (hv : v ≠ .undef) :
    (∀ w : JVal, optionTo (optionFrom w) = w) ∧
    optionFrom (optionTo (.obj [("isSome", .bool false)])) =
      .obj [("isSome", .bool false)] ∧
    optionFrom (optionTo (.obj [("isSome", .bool true), ("value", v)])) =
      .obj [("isSome", .bool true), ("value", v)] := by
  refine ⟨?_, by rfl, ?_⟩
  · intro w
    cases w <;> rfl
  · have h1 : optionTo (.obj [("isSome", .bool true), ("value", v)]) = v := by
      unfold optionTo getFieldD
      simp [List.lookup]
    rw [h1]
    unfold optionFrom
    cases v with
    | undef => exact absurd rfl hv
    | num n => rfl
    | str s => rfl
    | bool b => rfl
    | bytes bs => rfl
    | arr xs => rfl
    | obj fs => rfl

/-- Witness for C10 at the value 5. -/
theorem c10_optionItem_witness :
    optionFrom (optionTo (.obj [("isSome", .bool true), ("value", .num 5)])) =
      .obj [("isSome", .bool true), ("value", .num 5)] :=
  (c10_optionItem (.num 5) (by simp)).2.2

/-- A record valid for a Proper Layout without non-omitted items has no
fields. -/
theorem validItems_no_fields : ∀ (items : ItemList) (fs : List (String × JVal)),
    countNonOmit items = 0 → ValidItems items fs → fs = []
  | .nil, fs, _, hval => by rw [ValidItems] at hval; exact hval
  | .cons name i rest, fs, hcount, hval => by
      rw [countNonOmit] at hcount
      rw [ValidItems] at hval
      by_cases hom : isOmitted i = true
      · rw [if_pos hom] at hval
        rw [if_pos hom, Nat.zero_add] at hcount
        exact validItems_no_fields rest fs hcount hval
      · rw [if_neg hom] at hcount
        omega

/-- A record valid for a Proper Layout with exactly one non-omitted item,
named n, has exactly the field n. -/
theorem singleton_fields : ∀ (items : ItemList) (n : String)
    (fs : List (String × JVal)),
    countNonOmit items = 1 → findNonOmit items = some n →
    ValidItems items fs → ∃ v, fs = [(n, v)]
  | .cons name i rest, n, fs, hcount, hfind, hval => by
      rw [countNonOmit] at hcount
      rw [findNonOmit] at hfind
      rw [ValidItems] at hval
      by_cases hom : isOmitted i = true
      · rw [if_pos hom] at hval hfind
        rw [if_pos hom, Nat.zero_add] at hcount
        exact singleton_fields rest n fs hcount hfind hval
      · rw [if_neg hom] at hval hfind
        simp only [Option.some.injEq] at hfind
        subst hfind
        rw [if_neg hom] at hcount
        obtain ⟨x, fs2, hfs, hx, hfs2⟩ := hval
        subst hfs
        have hrest0 : countNonOmit rest = 0 := by omega
        have hfs20 : fs2 = [] := validItems_no_fields rest fs2 hrest0 hfs2
        subst hfs20
        exact ⟨x, rfl⟩

/-- C7: for a Proper Layout with exactly one non-omitted item named n, the
unwrapSingleton conversion exposes that item's decoded value directly and
re-wraps it on encode: to(r) = r[n] = v for every decoded record r (which
has exactly the field n), from(v) = {n: v}, and the two maps are mutually
inverse on such singleton records. -/
theorem c7_unwrapSingleton (items : ItemList) (n : String)
    (fs : List (String × JVal)) (hcount : countNonOmit items = 1)
    (hfind : findNonOmit items = some n) (hval : ValidItems items fs) :
    ∃ v, fs = [(n, v)] ∧ unwrapTo items (.obj fs) = v ∧
      unwrapFrom items (unwrapTo items (.obj fs)) = .obj fs ∧
      ∀ w, unwrapTo items (unwrapFrom items w) = w := by
  obtain ⟨v, hfs⟩ := singleton_fields items n fs hcount hfind hval
  subst hfs
  have hto : unwrapTo items (.obj [(n, v)]) = v := by
    unfold unwrapTo
    rw [hfind]
    exact getFieldD_obj_cons_self n v []
  refine ⟨v, rfl, hto, ?_, ?_⟩
  · rw [hto]
    unfold unwrapFrom
    rw [hfind]
  · intro w
    unfold unwrapFrom unwrapTo
    rw [hfind]
    exact getFieldD_obj_cons_self n w []

/-- Witness for C7: an omitted constant followed by a single plain uint8
field x, at the record with x = 5. -/
theorem c7_unwrapSingleton_witness :
    ∃ v, [("x", JVal.num 5)] = [("x", v)] ∧
      unwrapTo
        (.cons "pad" (.num false 1 none (.const 9 true))
          (.cons "x" (.num false 1 none .plain) .nil))
        (.obj [("x", JVal.num 5)]) = v ∧
      unwrapFrom
        (.cons "pad" (.num false 1 none (.const 9 true))
          (.cons "x" (.num false 1 none .plain) .nil))
        (unwrapTo
          (.cons "pad" (.num false 1 none (.const 9 true))
            (.cons "x" (.num false 1 none .plain) .nil))
          (.obj [("x", JVal.num 5)])) = .obj [("x", JVal.num 5)] ∧
      ∀ w, unwrapTo
        (.cons "pad" (.num false 1 none (.const 9 true))
          (.cons "x" (.num false 1 none .plain) .nil))
        (unwrapFrom
          (.cons "pad" (.num false 1 none (.const 9 true))
            (.cons "x" (.num false 1 none .plain) .nil)) w) = w := by
  apply c7_unwrapSingleton
  · rw [countNonOmit, countNonOmit, countNonOmit]
    simp [isOmitted]
  · rw [findNonOmit, findNonOmit]
    simp [isOmitted]
  · rw [ValidItems]
    simp only [isOmitted, if_pos rfl]
    rw [ValidItems]
    simp only [isOmitted]
    refine ⟨.num 5, [], by simp, ?_, by rw [ValidItems]⟩
    rw [ValidItem]
    exact ⟨5, rfl, by decide⟩

/-- C6 counterexample: for bit names [a] (default size 1 byte), the
encoded value 2 is representable in the item's byte width, but
from(to(2)) = 0 ≠ 2 — the bit at the unnamed position 1 is dropped by to
and never restored by from, so the claimed round-trip law fails. -/
theorem c6_bitsetItem_counterexample :
    bitsetFrom ["a"] (bitsetTo ["a"] 2) = 0 ∧ (2 : Nat) < 2 ^ (8 * 1) ∧
    bitsetFrom ["a"] (bitsetTo ["a"] 2) ≠ 2 := by
  refine ⟨by decide, by norm_num, by decide⟩

theorem objSet_append (ret : List (String × Bool)) (n : String) (b : Bool)
    (h : ret.lookup n = none) : objSet ret n b = ret ++ [(n, b)] := by
  induction ret with
  | nil => rfl
  | cons p rest ih =>
      obtain ⟨k, v⟩ := p
      simp only [List.lookup] at h
      by_cases hk : n = k
      · simp [hk, beq_self_eq_true] at h
      · rw [beq_eq_false_iff_ne.mpr hk] at h
        simp only [objSet]
        rw [if_neg (fun he => hk he.symm), ih h]
        simp

theorem lookup_append_of_none (ret l : List (String × Bool)) (m : String)
    (h : ret.lookup m = none) : (ret ++ l).lookup m = l.lookup m := by
  induction ret with
  | nil => rfl
  | cons p rest ih =>
      obtain ⟨k, v⟩ := p
      simp only [List.lookup] at h ⊢
      cases hk : (m == k) with
      | true => rw [hk] at h; exact absurd h (by simp)
      | false => rw [hk] at h; exact ih h

theorem mkBitsetObj_congr (names : List String) (g g2 : Nat → Bool)
    (h : ∀ j, g j = g2 j) : mkBitsetObj names g = mkBitsetObj names g2 := by
  induction names generalizing g g2 with
  | nil => rfl
  | cons n rest ih =>
      simp only [mkBitsetObj]
      rw [h 0, ih (fun j => g (j + 1)) (fun j => g2 (j + 1)) (fun j => h (j + 1))]

theorem bitsetToAux_eq_mk (names : List String) (i e : Nat)
    (ret : List (String × Bool)) (hnd : (names.filter (· ≠ "")).Nodup)
    (hdis : ∀ n ∈ names, n ≠ "" → ret.lookup n = none) :
    bitsetToAux names i e ret = ret ++ mkBitsetObj names (fun j => e.testBit (i + j)) := by
  induction names generalizing i ret with
  | nil => simp [bitsetToAux, mkBitsetObj]
  | cons n rest ih =>
      simp only [bitsetToAux, mkBitsetObj]
      by_cases hn : n = ""
      · rw [if_pos hn, if_pos hn]
        rw [List.filter_cons_of_neg (by simp [hn])] at hnd
        rw [ih (i + 1) ret hnd (fun m hm hme => hdis m (List.mem_cons_of_mem n hm) hme)]
        rw [mkBitsetObj_congr rest (fun j => e.testBit (i + 1 + j))
          (fun j => e.testBit (i + (j + 1)))
          (fun j => by show e.testBit (i + 1 + j) = e.testBit (i + (j + 1)); congr 1; omega)]
      · rw [if_neg hn, if_neg hn]
        rw [objSet_append ret n (e.testBit i) (hdis n (List.mem_cons_self n rest) hn)]
        rw [List.filter_cons_of_pos (by simp [hn])] at hnd
        have hnd2 := (List.nodup_cons.mp hnd).2
        have hnmem := (List.nodup_cons.mp hnd).1
        rw [ih (i + 1) (ret ++ [(n, e.testBit i)]) hnd2 ?_]
        · rw [List.append_assoc]
          rw [mkBitsetObj_congr rest (fun j => e.testBit (i + 1 + j))
            (fun j => e.testBit (i + (j + 1)))
            (fun j => by show e.testBit (i + 1 + j) = e.testBit (i + (j + 1)); congr 1; omega)]
          rfl
        · intro m hm hme
          have hmn : m ≠ n := by
            intro hh
            exact hnmem (hh ▸ List.mem_filter.mpr ⟨hm, by simp [hme]⟩)
          rw [lookup_append_of_none ret _ m (hdis m (List.mem_cons_of_mem n hm) hme)]
          simp [List.lookup, beq_eq_false_iff_ne.mpr hmn]

theorem bitsetFromAux_shift (names : List String) (i : Nat)
    (obj : List (String × Bool)) :
    bitsetFromAux names (i + 1) obj = 2 * bitsetFromAux names i obj := by
  induction names generalizing i with
  | nil => rfl
  | cons n rest ih =>
      simp only [bitsetFromAux]
      rw [ih (i + 1)]
      by_cases hc : n ≠ "" ∧ (obj.lookup n).getD false = true
      · rw [if_pos hc, if_pos hc, pow_succ]; ring
      · rw [if_neg hc, if_neg hc]; ring

theorem bitsetFromAux_congr (names : List String) (i : Nat)
    (obj obj2 : List (String × Bool))
    (h : ∀ n ∈ names, n ≠ "" → obj.lookup n = obj2.lookup n) :
    bitsetFromAux names i obj = bitsetFromAux names i obj2 := by
  induction names generalizing i with
  | nil => rfl
  | cons n rest ih =>
      simp only [bitsetFromAux]
      rw [ih (i + 1) (fun m hm hme => h m (List.mem_cons_of_mem n hm) hme)]
      by_cases hn : n = ""
      · rw [if_neg (by simp [hn]), if_neg (by simp [hn])]
      · rw [h n (List.mem_cons_self n rest) hn]

theorem bitsetFrom_mk (names : List String) (g : Nat → Bool)
    (hnd : (names.filter (· ≠ "")).Nodup) :
    bitsetFrom names (mkBitsetObj names g) = bitsW names g := by
  induction names generalizing g with
  | nil => rfl
  | cons n rest ih =>
      by_cases hn : n = ""
      · have hobj : mkBitsetObj (n :: rest) g = mkBitsetObj rest (fun j => g (j + 1)) := by
          simp only [mkBitsetObj]
          rw [if_pos hn]
        rw [bitsetFrom, hobj]
        simp only [bitsetFromAux, bitsW]
        rw [if_neg (by simp [hn]), if_neg (by simp [hn])]
        rw [bitsetFromAux_shift rest 0 _]
        rw [List.filter_cons_of_neg (by simp [hn])] at hnd
        have hih := ih (fun j => g (j + 1)) hnd
        rw [bitsetFrom] at hih
        rw [hih]
      · have hobj : mkBitsetObj (n :: rest) g =
            (n, g 0) :: mkBitsetObj rest (fun j => g (j + 1)) := by
          simp only [mkBitsetObj]
          rw [if_neg hn]
        rw [bitsetFrom, hobj]
        simp only [bitsetFromAux, bitsW]
        rw [List.filter_cons_of_pos (by simp [hn])] at hnd
        have hnd2 := (List.nodup_cons.mp hnd).2
        have hnmem := (List.nodup_cons.mp hnd).1
        have hlk : (((n, g 0) :: mkBitsetObj rest (fun j => g (j + 1))).lookup n) = some (g 0) := by
          simp [List.lookup]
        simp only [hlk, Option.getD_some]
        have hcg : bitsetFromAux rest 1 ((n, g 0) :: mkBitsetObj rest (fun j => g (j + 1)))
            = bitsetFromAux rest 1 (mkBitsetObj rest (fun j => g (j + 1))) := by
          refine bitsetFromAux_congr rest 1 _ _ ?_
          intro m hm hme
          have hmn : m ≠ n := by
            intro hh
            exact hnmem (hh ▸ List.mem_filter.mpr ⟨hm, by simp [hme]⟩)
          simp [List.lookup, beq_eq_false_iff_ne.mpr hmn]
        rw [hcg, bitsetFromAux_shift rest 0 _]
        have hih := ih (fun j => g (j + 1)) hnd2
        rw [bitsetFrom] at hih
        rw [hih, pow_zero]

theorem testBit_bitsW (names : List String) (g : Nat → Bool) (j : Nat) :
    (bitsW names g).testBit j = (decide (names.getD j "" ≠ "") && g j) := by
  induction names generalizing g j with
  | nil =>
      simp [bitsW, Nat.zero_testBit, List.getD]
  | cons n rest ih =>
      have hcle : (if n ≠ "" ∧ g 0 = true then 1 else 0) ≤ 1 := by
        split <;> omega
      cases j with
      | zero =>
          simp only [bitsW, Nat.testBit_zero, List.getD_cons_zero]
          by_cases hn : n = ""
          · rw [if_neg (by simp [hn])]
            simp [hn]
          · by_cases hg : g 0 = true
            · rw [if_pos ⟨hn, hg⟩]
              simp [hn, hg]
            · rw [if_neg (fun hc => hg hc.2)]
              simp [hn, hg]
      | succ k =>
          simp only [bitsW, List.getD_cons_succ]
          rw [Nat.testBit_add_one]
          have hdiv : ((if n ≠ "" ∧ g 0 = true then 1 else 0) +
              2 * bitsW rest (fun j => g (j + 1))) / 2 = bitsW rest (fun j => g (j + 1)) := by
            omega
          rw [hdiv, ih (fun j => g (j + 1)) k]

theorem mkBitsetObj_congr_named (names : List String) (g g2 : Nat → Bool)
    (h : ∀ j, (hj : j < names.length) → names[j] ≠ "" → g j = g2 j) :
    mkBitsetObj names g = mkBitsetObj names g2 := by
  induction names generalizing g g2 with
  | nil => rfl
  | cons n rest ih =>
      have htail : mkBitsetObj rest (fun j => g (j + 1)) =
          mkBitsetObj rest (fun j => g2 (j + 1)) := by
        refine ih (fun j => g (j + 1)) (fun j => g2 (j + 1)) ?_
        intro j hj hne
        exact h (j + 1) (by simpa using Nat.succ_lt_succ hj)
          (by rwa [List.getElem_cons_succ])
      simp only [mkBitsetObj]
      by_cases hn : n = ""
      · rw [if_pos hn, if_pos hn, htail]
      · rw [if_neg hn, if_neg hn, htail,
          h 0 (by simp) (by rwa [List.getElem_cons_zero])]

/-- C6 amended: the bitsetItem conversion round-trips both ways once the
encoded value is restricted to the named bit positions.  With the
non-empty bit names pairwise distinct: from(to(encoded)) = encoded for
every encoded value whose set bits all lie at named positions (encoded
masked by the named-position mask is itself), and to(from(obj)) = obj for
every Bitset object obj over the named entries (one boolean field per
non-empty name, in declaration order). -/
theorem c6_bitsetItem_amended (bitnames : List String) (encoded : Nat) (g : Nat → Bool)
    (hnd : (bitnames.filter (· ≠ "")).Nodup)
    (hmask : encoded &&& namedMask bitnames = encoded) :
    bitsetFrom bitnames (bitsetTo bitnames encoded) = encoded ∧
    bitsetTo bitnames (bitsetFrom bitnames (mkBitsetObj bitnames g)) = mkBitsetObj bitnames g := by
  have hnamed : ∀ j, encoded.testBit j = true → bitnames.getD j "" ≠ "" := by
    intro j hj
    have h1 : (encoded &&& namedMask bitnames).testBit j = true := by
      rw [hmask]; exact hj
    rw [Nat.testBit_and] at h1
    have h2 := (Bool.and_eq_true _ _).mp h1
    have h3 := h2.2
    rw [namedMask, testBit_bitsW] at h3
    have h4 := (Bool.and_eq_true _ _).mp h3
    exact of_decide_eq_true h4.1
  have hto : ∀ e : Nat, bitsetTo bitnames e = mkBitsetObj bitnames (fun j => e.testBit j) := by
    intro e
    rw [bitsetTo, bitsetToAux_eq_mk bitnames 0 e [] hnd (by intro n _ _; rfl)]
    rw [List.nil_append]
    exact mkBitsetObj_congr bitnames _ _ (fun j => by rw [Nat.zero_add])
  constructor
  · rw [hto encoded, bitsetFrom_mk bitnames _ hnd]
    refine Nat.eq_of_testBit_eq ?_
    intro j
    rw [testBit_bitsW]
    cases he : encoded.testBit j with
    | true => simp only [decide_eq_true (hnamed j he), Bool.true_and, he]
    | false => simp only [he, Bool.and_false]
  · rw [bitsetFrom_mk bitnames g hnd, hto (bitsW bitnames g)]
    refine mkBitsetObj_congr_named bitnames _ g ?_
    intro j hj hne
    rw [testBit_bitsW]
    have hgd : bitnames.getD j "" ≠ "" := by
      rw [List.getD_eq_getElem bitnames "" hj]
      exact hne
    rw [decide_eq_true hgd, Bool.true_and]

/-- Witness for the amended C6 theorem at bit names [a, b] with encoded
value 3 and the decoded object with a set and b clear. -/
theorem c6_bitsetItem_amended_witness :
    bitsetFrom ["a", "b"] (bitsetTo ["a", "b"] 3) = 3 ∧
    bitsetTo ["a", "b"] (bitsetFrom ["a", "b"] [("a", true), ("b", false)]) =
      [("a", true), ("b", false)] := by
  have h := c6_bitsetItem_amended ["a", "b"] 3 (fun j => j == 0)
    (by decide) (by decide)
  have hmk : mkBitsetObj ["a", "b"] (fun j => j == 0) = [("a", true), ("b", false)] := by
    decide
  exact ⟨h.1, by rw [← hmk]; exact h.2⟩

/-- C4 counterexample: a Switch item whose only variant filters to an
empty body.  fixedItemsOf keeps the Switch as an empty node (a switch
whose variant list has become empty) instead of pruning the branch: the
claimed pruning of content-free subtrees does not happen for Switch
items. -/
theorem c4_filter_counterexample :
    filterItem
      (.switch 1 none none
        (.cons 0 none (.cons "x" (.num false 1 none .plain) .nil) .nil)) true
      = some (.switch 1 none none .nil) ∧
    filterItem
      (.switch 1 none none
        (.cons 0 none (.cons "x" (.num false 1 none .plain) .nil) .nil)) true
      ≠ none := by
  have h1 : filterItem (.num false 1 none .plain) true = none := by
    rw [filterItem]
    simp [numCustomIsFixed]
  have h2 : internalFilterItemsOfProperLayout
      (.cons "x" (.num false 1 none .plain) .nil) true = .nil := by
    rw [internalFilterItemsOfProperLayout.eq_def]
    simp only [h1]
    rw [internalFilterItemsOfProperLayout]
  have h3 : filterVariants
      (.cons 0 none (.cons "x" (.num false 1 none .plain) .nil) .nil) true
      = .nil := by
    rw [filterVariants.eq_def]
    simp only [h2]
    rw [filterVariants]
  constructor
  · rw [filterItem, h3]
  · rw [filterItem]
    simp

theorem variantMem_filterVariants : ∀ (vars : VariantList) (fixed : Bool) (n : Nat)
    (lbl : Option IdVal) (body2 : ItemList),
    VariantMem n lbl body2 (filterVariants vars fixed) ↔
      ∃ body, VariantMem n lbl body vars ∧
        internalFilterItemsOfProperLayout body fixed = body2 ∧ body2 ≠ .nil
  | .nil, fixed, n, lbl, body2 => by
      rw [filterVariants]
      simp [VariantMem]
  | .cons n0 lbl0 body0 rest, fixed, n, lbl, body2 => by
      have ih := variantMem_filterVariants rest fixed n lbl body2
      cases hf : internalFilterItemsOfProperLayout body0 fixed with
      | nil =>
          rw [show filterVariants (.cons n0 lbl0 body0 rest) fixed
              = filterVariants rest fixed from by
            rw [filterVariants.eq_def]
            simp only [hf]]
          rw [ih]
          constructor
          · rintro ⟨body, hmem, hfb, hne⟩
            exact ⟨body, Or.inr hmem, hfb, hne⟩
          · rintro ⟨body, hmem, hfb, hne⟩
            rcases hmem with ⟨h1, h2, h3⟩ | hmem
            · subst h1; subst h2; subst h3
              rw [hf] at hfb
              exact absurd hfb.symm hne
            · exact ⟨body, hmem, hfb, hne⟩
      | cons n2 i2 r2 =>
          rw [show filterVariants (.cons n0 lbl0 body0 rest) fixed
              = .cons n0 lbl0 (.cons n2 i2 r2) (filterVariants rest fixed) from by
            rw [filterVariants.eq_def]
            simp only [hf]]
          constructor
          · intro hmem
            rcases hmem with ⟨h1, h2, h3⟩ | hmem
            · subst h1; subst h2; subst h3
              exact ⟨body0, Or.inl ⟨rfl, rfl, rfl⟩, hf, by simp⟩
            · obtain ⟨body, hm, hfb, hne⟩ := ih.mp hmem
              exact ⟨body, Or.inr hm, hfb, hne⟩
          · rintro ⟨body, hmem, hfb, hne⟩
            rcases hmem with ⟨h1, h2, h3⟩ | hmem
            · subst h1; subst h2; subst h3
              rw [hf] at hfb
              exact Or.inl ⟨rfl, rfl, hfb.symm⟩
            · exact Or.inr (ih.mpr ⟨body, hmem, hfb, hne⟩)

/-- C4 amended: the two filter directions keep a Switch variant exactly
when matching content remains in its filtered body (first conjunct, the
part of the claim that holds), but content-free branches are not always
pruned: a Switch item itself always survives filtering, with whatever
variants remain (second conjunct), and an Array item over a proper element
layout always survives, keeping a possibly empty element layout (third
conjunct). -/
theorem c4_filter_amended :
    (∀ (vars : VariantList) (fixed : Bool) (n : Nat) (lbl : Option IdVal)
        (body2 : ItemList),
      VariantMem n lbl body2 (filterVariants vars fixed) ↔
        ∃ body, VariantMem n lbl body vars ∧
          internalFilterItemsOfProperLayout body fixed = body2 ∧ body2 ≠ .nil) ∧
    (∀ (idS : Nat) (idE : Option Endian) (tag : Option String)
        (vars : VariantList) (fixed : Bool),
      filterItem (.switch idS idE tag vars) fixed
        = some (.switch idS idE tag (filterVariants vars fixed))) ∧
    (∀ (alen : ALen) (items : ItemList) (fixed : Bool),
      filterItem (.arr alen (.proper items)) fixed
        = some (.arr alen (.proper (internalFilterItemsOfProperLayout items fixed)))) := by
  refine ⟨fun vars fixed n lbl body2 => variantMem_filterVariants vars fixed n lbl body2,
    ?_, ?_⟩
  · intro idS idE tag vars fixed
    rw [filterItem]
  · intro alen items fixed
    rw [filterItem]

theorem noUndef_ne_undef (v : JVal) (h : noUndef v = true) : v ≠ .undef := by
  intro he
  subst he
  rw [noUndef] at h
  cases h

theorem undefToEmpty_of_ne (v : JVal) (h : v ≠ .undef) : undefToEmpty v = v := by
  cases v <;> first | exact absurd rfl h | rfl

theorem undefToEmpty_idem (v : JVal) :
    undefToEmpty (undefToEmpty v) = undefToEmpty v := by
  cases v <;> rfl

theorem objSetJ_append (ret : List (String × JVal)) (n : String) (x : JVal)
    (h : ret.lookup n = none) : objSetJ ret n x = ret ++ [(n, x)] := by
  induction ret with
  | nil => rfl
  | cons p rest ih =>
      obtain ⟨k, v⟩ := p
      simp only [List.lookup] at h
      by_cases hk : n = k
      · simp [hk, beq_self_eq_true] at h
      · rw [beq_eq_false_iff_ne.mpr hk] at h
        simp only [objSetJ]
        rw [if_neg (fun he => hk he.symm), ih h]
        simp

theorem lookupJ_append_of_none (ret l : List (String × JVal)) (m : String)
    (h : ret.lookup m = none) : (ret ++ l).lookup m = l.lookup m := by
  induction ret with
  | nil => rfl
  | cons p rest ih =>
      obtain ⟨k, v⟩ := p
      simp only [List.lookup] at h ⊢
      cases hk : (m == k) with
      | true => rw [hk] at h; exact absurd h (by simp)
      | false => rw [hk] at h; exact ih h

theorem objSpread_eq_append (fs : List (String × JVal)) :
    ∀ init : List (String × JVal), (∀ p ∈ fs, init.lookup p.1 = none) →
    (fs.map Prod.fst).Nodup → objSpread init fs = init ++ fs := by
  induction fs with
  | nil => intro init _ _; simp [objSpread]
  | cons p fs2 ih =>
      intro init hlk hnod
      obtain ⟨n, x⟩ := p
      rw [List.map_cons] at hnod
      obtain ⟨hn1, hnod2⟩ := List.nodup_cons.mp hnod
      have hstep : objSetJ init n x = init ++ [(n, x)] :=
        objSetJ_append init n x (hlk (n, x) (by simp))
      rw [show objSpread init ((n, x) :: fs2)
          = objSpread (objSetJ init n x) fs2 from rfl, hstep]
      rw [ih (init ++ [(n, x)]) ?_ hnod2]
      · simp
      · intro p hp
        rw [lookupJ_append_of_none init _ p.1 (hlk p (by simp [hp]))]
        have hne : p.1 ≠ n := by
          intro he
          exact hn1 (List.mem_map.mpr ⟨p, hp, he⟩)
        simp [List.lookup, beq_eq_false_iff_ne.mpr hne]

theorem getFieldD_obj_not_mem (fs : List (String × JVal)) (name : String)
    (h : name ∉ fs.map Prod.fst) : getFieldD (.obj fs) name = .undef := by
  induction fs with
  | nil => rfl
  | cons p rest ih =>
      obtain ⟨k, v⟩ := p
      simp only [List.map_cons, List.mem_cons] at h
      push_neg at h
      rw [show getFieldD (JVal.obj ((k, v) :: rest)) name
          = getFieldD (JVal.obj rest) name from
        getFieldD_obj_cons_ne name k v rest h.1]
      exact ih h.2

theorem validItems_names_sublist : ∀ (items : ItemList) (fs : List (String × JVal)),
    ValidItems items fs → (fs.map Prod.fst).Sublist (itemNames items)
  | .nil, fs, h => by
      rw [ValidItems] at h
      subst h
      simp
  | .cons name i rest, fs, h => by
      rw [ValidItems] at h
      by_cases hom : isOmitted i = true
      · rw [if_pos hom] at h
        rw [itemNames]
        exact (validItems_names_sublist rest fs h).cons name
      · rw [if_neg hom] at h
        obtain ⟨x, fs2, hfs, _, hfs2⟩ := h
        subst hfs
        rw [itemNames]
        simpa using (validItems_names_sublist rest fs2 hfs2).cons₂ name

theorem validItem_omitted_undef (i : Item) (v : JVal) (hom : isOmitted i = true)
    (hval : ValidItem i v) : v = .undef := by
  cases i with
  | num sg sz e c =>
      cases c with
      | const k om =>
          rw [ValidItem] at hval
          simp [isOmitted] at hom
          rwa [if_pos hom] at hval
      | plain => simp [isOmitted] at hom
      | fixedConv frm toV => simp [isOmitted] at hom
      | customConv t f => simp [isOmitted] at hom
  | bytesPure len c =>
      cases c with
      | const bs om =>
          rw [ValidItem] at hval
          simp [isOmitted] at hom
          rwa [if_pos hom] at hval
      | plain => simp [isOmitted] at hom
      | fixedConv frm toV => simp [isOmitted] at hom
      | customConv t f => simp [isOmitted] at hom
  | bytesLayout len inner c => simp [isOmitted] at hom
  | arr alen elem => simp [isOmitted] at hom
  | switch idS idE tag vars => simp [isOmitted] at hom

theorem afv_item_omitted (i : Item) (dv : JVal) (hom : isOmitted i = true) :
    internalAddFixedValuesItem i dv = some .undef := by
  cases i with
  | num sg sz e c =>
      cases c with
      | const k om =>
          rw [internalAddFixedValuesItem]
          simp [isOmitted] at hom
          rw [if_pos hom]
      | plain => simp [isOmitted] at hom
      | fixedConv frm toV => simp [isOmitted] at hom
      | customConv t f => simp [isOmitted] at hom
  | bytesPure len c =>
      cases c with
      | const bs om =>
          rw [internalAddFixedValuesItem]
          simp [isOmitted] at hom
          rw [if_pos hom]
      | plain => simp [isOmitted] at hom
      | fixedConv frm toV => simp [isOmitted] at hom
      | customConv t f => simp [isOmitted] at hom
  | bytesLayout len inner c => simp [isOmitted] at hom
  | arr alen elem => simp [isOmitted] at hom
  | switch idS idE tag vars => simp [isOmitted] at hom

theorem filterItem_omitted (i : Item) (hom : isOmitted i = true) :
    filterItem i false = none := by
  cases i with
  | num sg sz e c =>
      cases c with
      | const k om =>
          rw [filterItem]
          simp [numCustomIsFixed]
      | plain => simp [isOmitted] at hom
      | fixedConv frm toV => simp [isOmitted] at hom
      | customConv t f => simp [isOmitted] at hom
  | bytesPure len c =>
      cases c with
      | const bs om =>
          rw [filterItem]
          simp [bytesCustomIsFixed]
      | plain => simp [isOmitted] at hom
      | fixedConv frm toV => simp [isOmitted] at hom
      | customConv t f => simp [isOmitted] at hom
  | bytesLayout len inner c => simp [isOmitted] at hom
  | arr alen elem => simp [isOmitted] at hom
  | switch idS idE tag vars => simp [isOmitted] at hom

theorem projItems_congr : ∀ (items : ItemList) (v w : JVal),
    (∀ m ∈ itemNames items, getFieldD v m = getFieldD w m) →
    projItems items v = projItems items w
  | .nil, v, w, h => by rw [projItems, projItems]
  | .cons name i rest, v, w, h => by
      have hname : getFieldD v name = getFieldD w name := h name (by simp [itemNames])
      have htail := projItems_congr rest v w
        (fun m hm => h m (by simp [itemNames]; exact Or.inr hm))
      cases hfi : filterItem i false with
      | none =>
          rw [show projItems (.cons name i rest) v = projItems rest v from by
            rw [projItems.eq_def]; simp only [hfi]]
          rw [show projItems (.cons name i rest) w = projItems rest w from by
            rw [projItems.eq_def]; simp only [hfi]]
          exact htail
      | some fi =>
          rw [show projItems (.cons name i rest) v
              = (name, projItem i (getFieldD v name)) :: projItems rest v from by
            rw [projItems.eq_def]; simp only [hfi]]
          rw [show projItems (.cons name i rest) w
              = (name, projItem i (getFieldD w name)) :: projItems rest w from by
            rw [projItems.eq_def]; simp only [hfi]]
          rw [hname, htail]

theorem projItems_names_sub : ∀ (items : ItemList) (v : JVal) (p : String × JVal),
    p ∈ projItems items v → p.1 ∈ itemNames items
  | .nil, v, p, h => by rw [projItems] at h; cases h
  | .cons name i rest, v, p, h => by
      cases hfi : filterItem i false with
      | none =>
          rw [show projItems (.cons name i rest) v = projItems rest v from by
            rw [projItems.eq_def]; simp only [hfi]] at h
          rw [itemNames]
          exact List.mem_cons_of_mem name (projItems_names_sub rest v p h)
      | some fi =>
          rw [show projItems (.cons name i rest) v
              = (name, projItem i (getFieldD v name)) :: projItems rest v from by
            rw [projItems.eq_def]; simp only [hfi]] at h
          rw [itemNames]
          rcases List.mem_cons.mp h with he | h2
          · subst he; simp
          · exact List.mem_cons_of_mem name (projItems_names_sub rest v p h2)

theorem projItems_nil_of_filter : ∀ (items : ItemList) (v : JVal),
    internalFilterItemsOfProperLayout items false = .nil → projItems items v = []
  | .nil, v, h => by rw [projItems]
  | .cons name i rest, v, h => by
      cases hfi : filterItem i false with
      | none =>
          rw [show projItems (.cons name i rest) v = projItems rest v from by
            rw [projItems.eq_def]; simp only [hfi]]
          refine projItems_nil_of_filter rest v ?_
          rw [internalFilterItemsOfProperLayout.eq_def] at h
          simp only [hfi] at h
          exact h
      | some fi =>
          exfalso
          rw [internalFilterItemsOfProperLayout.eq_def] at h
          simp only [hfi] at h
          cases h

theorem projItem_ne_undef : ∀ (i : Item) (v : JVal) (fi : Item),
    ValidItem i v → noUndef v = true → filterItem i false = some fi →
    projItem i v ≠ .undef
  | .num sg sz e c, v, fi, hval, hnu, hfi => by
      rw [projItem]
      exact noUndef_ne_undef v hnu
  | .bytesPure len c, v, fi, hval, hnu, hfi => by
      rw [projItem]
      exact noUndef_ne_undef v hnu
  | .bytesLayout len inner c, v, fi, hval, hnu, hfi => by
      cases c with
      | plain =>
          rw [show projItem (.bytesLayout len inner .plain) v
              = projLayoutVal inner v from by rw [projItem]]
          cases inner with
          | item ii =>
              have hfi2 : filterItem ii false = some fi := by
                rw [filterItem] at hfi
                exact hfi
              rw [show projLayoutVal (.item ii) v = projItem ii v from by
                rw [projLayoutVal.eq_def]; simp only [hfi2]]
              rw [ValidItem] at hval
              have hv2 : ValidItem ii v := by
                have := hval.1
                rwa [ValidLayout] at this
              exact projItem_ne_undef ii v fi hv2 hnu hfi2
          | proper items =>
              rw [projLayoutVal]
              simp
      | fixedConv frm toV =>
          rw [filterItem] at hfi
          simp at hfi
      | customConv t f =>
          rw [show projItem (.bytesLayout len inner (.customConv t f)) v
              = v from by rw [projItem.eq_def]]
          exact noUndef_ne_undef v hnu
  | .arr alen elem, v, fi, hval, hnu, hfi => by
      rw [ValidItem] at hval
      obtain ⟨xs, hv, _, _⟩ := hval
      subst hv
      rw [projItem]
      simp
  | .switch idS idE tag vars, v, fi, hval, hnu, hfi => by
      rw [projItem]
      simp

theorem wfItems_destruct : ∀ (name : String) (i : Item) (rest : ItemList) (t : Bool),
    WFItems (.cons name i rest) t = true →
    (WFItem i t = true ∨ WFItem i false = true) ∧ WFItems rest t = true := by
  intro name i rest t h
  cases rest with
  | nil =>
      rw [WFItems] at h
      exact ⟨Or.inl h, by rw [WFItems]⟩
  | cons name2 i2 rest2 =>
      rw [WFItems.eq_def] at h
      have h2 : (WFItem i false && WFItems (.cons name2 i2 rest2) t) = true := h
      simp only [Bool.and_eq_true] at h2
      exact ⟨Or.inr h2.1, h2.2⟩

theorem wfItem_bytesLayout_inner (len : BLen) (inner : Layout) (c : LoCustom)
    (t : Bool) (h : WFItem (.bytesLayout len inner c) t = true) :
    WFLayout inner true = true := by
  cases len <;>
    (rw [WFItem] at h
     simp only [Bool.and_eq_true] at h
     exact h.2)

theorem wfItem_arr_elem (alen : ALen) (elem : Layout) (t : Bool)
    (h : WFItem (.arr alen elem) t = true) : WFLayout elem false = true := by
  cases alen <;>
    (rw [WFItem] at h
     simp only [Bool.and_eq_true] at h
     exact h.2)

theorem wfItem_switch_parts (idS : Nat) (idE : Option Endian) (tag : Option String)
    (vars : VariantList) (t : Bool) (h : WFItem (.switch idS idE tag vars) t = true) :
    WFVariants vars idS tag t = true ∧ (variantNums vars).Nodup ∧
      (variantIdVals vars).Nodup := by
  rw [WFItem] at h
  simp only [Bool.and_eq_true, decide_eq_true_eq] at h
  exact ⟨h.1.1.2, h.1.2, h.2⟩

mutual

theorem afv_item_kept : ∀ (i : Item) (t : Bool) (v : JVal) (fi : Item),
    WFItem i t = true → ValidItem i v → afvOKItem i = true → noUndef v = true →
    filterItem i false = some fi →
    internalAddFixedValuesItem i (undefToEmpty (projItem i v)) = some v
  | .num sg sz e c, t, v, fi, hwf, hval, hok, hnu, hfi => by
      cases c with
      | plain =>
          rw [ValidItem] at hval
          obtain ⟨k, hv, _⟩ := hval
          subst hv
          rw [show projItem (.num sg sz e .plain) (JVal.num k) = JVal.num k from by
            rw [projItem]]
          rw [show undefToEmpty (JVal.num k) = JVal.num k from rfl]
          rw [internalAddFixedValuesItem]
      | const k om =>
          rw [filterItem] at hfi
          simp [numCustomIsFixed] at hfi
      | fixedConv frm toV =>
          rw [filterItem] at hfi
          simp [numCustomIsFixed] at hfi
      | customConv cf cg =>
          rw [show projItem (.num sg sz e (.customConv cf cg)) v = v from by
            rw [projItem]]
          rw [undefToEmpty_of_ne v (noUndef_ne_undef v hnu)]
          rw [internalAddFixedValuesItem]
  | .bytesPure len c, t, v, fi, hwf, hval, hok, hnu, hfi => by
      cases c with
      | plain =>
          rw [ValidItem] at hval
          obtain ⟨bs, hv, _⟩ := hval
          subst hv
          rw [show projItem (.bytesPure len .plain) (JVal.bytes bs) = JVal.bytes bs from by
            rw [projItem]]
          rw [show undefToEmpty (JVal.bytes bs) = JVal.bytes bs from rfl]
          rw [internalAddFixedValuesItem]
      | const bs om =>
          rw [filterItem] at hfi
          simp [bytesCustomIsFixed] at hfi
      | fixedConv frm toV =>
          rw [filterItem] at hfi
          simp [bytesCustomIsFixed] at hfi
      | customConv cf cg =>
          rw [show projItem (.bytesPure len (.customConv cf cg)) v = v from by
            rw [projItem]]
          rw [undefToEmpty_of_ne v (noUndef_ne_undef v hnu)]
          rw [internalAddFixedValuesItem]
  | .bytesLayout len inner c, t, v, fi, hwf, hval, hok, hnu, hfi => by
      have hin := wfItem_bytesLayout_inner len inner c t hwf
      cases c with
      | plain =>
          rw [ValidItem] at hval
          rw [show afvOKItem (.bytesLayout len inner .plain) = afvOKLayout inner from by
            rw [afvOKItem]] at hok
          rw [show projItem (.bytesLayout len inner .plain) v
              = projLayoutVal inner v from by rw [projItem]]
          cases inner with
          | item ii =>
              have hfi2 : filterItem ii false = some fi := by
                rw [filterItem] at hfi
                exact hfi
              rw [show projLayoutVal (.item ii) v = projItem ii v from by
                rw [projLayoutVal.eq_def]; simp only [hfi2]]
              rw [internalAddFixedValuesItem, internalAddFixedValues, undefToEmpty_idem]
              have hv2 : ValidItem ii v := by
                have := hval.1
                rwa [ValidLayout] at this
              have hw2 : WFItem ii true = true := by rwa [WFLayout] at hin
              have ho2 : afvOKItem ii = true := by rwa [afvOKLayout] at hok
              exact afv_item_kept ii true v fi hw2 hv2 ho2 hnu hfi2
          | proper items =>
              have hv' : ∃ fs, v = .obj fs ∧ ValidItems items fs := by
                have := hval.1
                rwa [ValidLayout] at this
              obtain ⟨fs, hv, hfs⟩ := hv'
              subst hv
              rw [show projLayoutVal (.proper items) (JVal.obj fs)
                  = .obj (projItems items (.obj fs)) from by rw [projLayoutVal]]
              rw [show undefToEmpty (JVal.obj (projItems items (.obj fs)))
                  = JVal.obj (projItems items (.obj fs)) from rfl]
              rw [internalAddFixedValuesItem, internalAddFixedValues]
              rw [show undefToEmpty (JVal.obj (projItems items (.obj fs)))
                  = JVal.obj (projItems items (.obj fs)) from rfl]
              have hw2 : (WFItems items true && decide (itemNames items).Nodup) = true := by
                rwa [WFLayout] at hin
              simp only [Bool.and_eq_true, decide_eq_true_eq] at hw2
              have ho2 : afvOKItems items = true := by rwa [afvOKLayout] at hok
              have hnf : noUndefFields fs = true := by rwa [noUndef] at hnu
              rw [afv_items_go items true fs (.obj (projItems items (.obj fs))) []
                hw2.1 hw2.2 hfs ho2 hnf (fun m hm => rfl) (fun m hm => rfl)]
              simp
      | fixedConv frm toV =>
          rw [filterItem] at hfi
          simp at hfi
      | customConv cf cg =>
          rw [show projItem (.bytesLayout len inner (.customConv cf cg)) v = v from by
            rw [projItem.eq_def]]
          rw [undefToEmpty_of_ne v (noUndef_ne_undef v hnu)]
          rw [internalAddFixedValuesItem]
  | .arr alen elem, t, v, fi, hwf, hval, hok, hnu, hfi => by
      rw [ValidItem] at hval
      obtain ⟨xs, hv, hvx, _⟩ := hval
      subst hv
      rw [show projItem (.arr alen elem) (JVal.arr xs)
          = .arr (projElems elem xs) from by rw [projItem.eq_def]]
      rw [show undefToEmpty (JVal.arr (projElems elem xs))
          = JVal.arr (projElems elem xs) from rfl]
      rw [show internalAddFixedValuesItem (.arr alen elem) (JVal.arr (projElems elem xs))
          = (addFixedValuesElems elem (projElems elem xs)).map .arr from by
        rw [internalAddFixedValuesItem.eq_def]]
      have hw2 := wfItem_arr_elem alen elem t hwf
      rw [afvOKItem] at hok
      simp only [Bool.and_eq_true] at hok
      have hnu2 : noUndefList xs = true := by rwa [noUndef] at hnu
      rw [afv_elems elem xs hw2 hvx hok.2 hnu2]
      rfl
  | .switch idS idE tag vars, t, v, fi, hwf, hval, hok, hnu, hfi => by
      obtain ⟨hwfv, hnodn, hnodi⟩ := wfItem_switch_parts idS idE tag vars t hwf
      rw [ValidItem] at hval
      rw [afvOKItem] at hok
      rw [show projItem (.switch idS idE tag vars) v
          = .obj ((tagName tag, getFieldD v (tagName tag)) ::
              projVariants vars (getFieldD v (tagName tag)) v) from by rw [projItem]]
      rw [show undefToEmpty (JVal.obj ((tagName tag, getFieldD v (tagName tag)) ::
          projVariants vars (getFieldD v (tagName tag)) v))
          = JVal.obj ((tagName tag, getFieldD v (tagName tag)) ::
              projVariants vars (getFieldD v (tagName tag)) v) from rfl]
      rw [internalAddFixedValuesItem]
      rw [getFieldD_obj_cons_self]
      exact afv_switch vars idS tag t v hwfv hnodi hok hval hnu
termination_by i _ _ _ _ _ _ _ _ => (sizeOf i, 0)

theorem afv_item_dropped : ∀ (i : Item) (t : Bool) (v : JVal),
    WFItem i t = true → ValidItem i v → afvOKItem i = true → noUndef v = true →
    filterItem i false = none →
    internalAddFixedValuesItem i (.obj []) = some v
  | .num sg sz e c, t, v, hwf, hval, hok, hnu, hfi => by
      cases c with
      | plain =>
          rw [filterItem] at hfi
          simp [numCustomIsFixed] at hfi
      | const k om =>
          rw [ValidItem] at hval
          by_cases hom : om = true
          · rw [if_pos hom] at hval
            subst hval
            rw [noUndef] at hnu
            cases hnu
          · simp only [Bool.not_eq_true] at hom
            rw [hom] at hval
            rw [if_neg (by simp)] at hval
            subst hval
            rw [internalAddFixedValuesItem, hom]
            simp
      | fixedConv frm toV =>
          rw [ValidItem] at hval
          subst hval
          rw [internalAddFixedValuesItem]
      | customConv cf cg =>
          rw [filterItem] at hfi
          simp [numCustomIsFixed] at hfi
  | .bytesPure len c, t, v, hwf, hval, hok, hnu, hfi => by
      cases c with
      | plain =>
          rw [filterItem] at hfi
          simp [bytesCustomIsFixed] at hfi
      | const bs om =>
          rw [ValidItem] at hval
          by_cases hom : om = true
          · rw [if_pos hom] at hval
            subst hval
            rw [noUndef] at hnu
            cases hnu
          · simp only [Bool.not_eq_true] at hom
            rw [hom] at hval
            rw [if_neg (by simp)] at hval
            subst hval
            rw [internalAddFixedValuesItem, hom]
            simp
      | fixedConv frm toV =>
          rw [ValidItem] at hval
          subst hval
          rw [internalAddFixedValuesItem]
      | customConv cf cg =>
          rw [filterItem] at hfi
          simp [bytesCustomIsFixed] at hfi
  | .bytesLayout len inner c, t, v, hwf, hval, hok, hnu, hfi => by
      have hin := wfItem_bytesLayout_inner len inner c t hwf
      cases c with
      | plain =>
          rw [ValidItem] at hval
          rw [show afvOKItem (.bytesLayout len inner .plain) = afvOKLayout inner from by
            rw [afvOKItem]] at hok
          cases inner with
          | item ii =>
              have hfi2 : filterItem ii false = none := by
                rw [filterItem] at hfi
                exact hfi
              rw [internalAddFixedValuesItem, internalAddFixedValues]
              rw [show undefToEmpty (JVal.obj []) = JVal.obj [] from rfl]
              have hv2 : ValidItem ii v := by
                have := hval.1
                rwa [ValidLayout] at this
              have hw2 : WFItem ii true = true := by rwa [WFLayout] at hin
              have ho2 : afvOKItem ii = true := by rwa [afvOKLayout] at hok
              exact afv_item_dropped ii true v hw2 hv2 ho2 hnu hfi2
          | proper items =>
              have hnil : internalFilterItemsOfProperLayout items false = .nil := by
                cases hifp : internalFilterItemsOfProperLayout items false with
                | nil => rfl
                | cons a b c2 =>
                    rw [filterItem.eq_def] at hfi
                    simp only [hifp] at hfi
                    cases hfi
              have hv' : ∃ fs, v = .obj fs ∧ ValidItems items fs := by
                have := hval.1
                rwa [ValidLayout] at this
              obtain ⟨fs, hv, hfs⟩ := hv'
              subst hv
              rw [internalAddFixedValuesItem, internalAddFixedValues]
              rw [show undefToEmpty (JVal.obj []) = JVal.obj [] from rfl]
              have hw2 : (WFItems items true && decide (itemNames items).Nodup) = true := by
                rwa [WFLayout] at hin
              simp only [Bool.and_eq_true, decide_eq_true_eq] at hw2
              have ho2 : afvOKItems items = true := by rwa [afvOKLayout] at hok
              have hnf : noUndefFields fs = true := by rwa [noUndef] at hnu
              have hdv : ∀ m ∈ itemNames items, getFieldD (JVal.obj []) m
                  = getFieldD (.obj (projItems items (.obj fs))) m := by
                intro m hm
                rw [projItems_nil_of_filter items (.obj fs) hnil]
              rw [afv_items_go items true fs (JVal.obj []) []
                hw2.1 hw2.2 hfs ho2 hnf hdv (fun m hm => rfl)]
              simp
      | fixedConv frm toV =>
          rw [afvOKItem] at hok
          cases hok
      | customConv cf cg =>
          rw [filterItem] at hfi
          simp at hfi
  | .arr alen elem, t, v, hwf, hval, hok, hnu, hfi => by
      rw [afvOKItem] at hok
      simp only [Bool.and_eq_true] at hok
      cases elem with
      | item ii =>
          cases hfii : filterItem ii false with
          | some fi2 =>
              rw [filterItem.eq_def] at hfi
              simp only [hfii] at hfi
              cases hfi
          | none =>
              rw [internalFilterItemsOf] at hok
              rw [hfii] at hok
              cases hok.1
      | proper items =>
          rw [filterItem] at hfi
          cases hfi
  | .switch idS idE tag vars, t, v, hwf, hval, hok, hnu, hfi => by
      rw [filterItem] at hfi
      cases hfi
termination_by i _ _ _ _ _ _ _ => (sizeOf i, 0)

theorem afv_layout : ∀ (l : Layout) (t : Bool) (v : JVal),
    WFLayout l t = true → ValidLayout l v → afvOKLayout l = true → noUndef v = true →
    internalAddFixedValues l (projLayoutVal l v) = some v
  | .item i, t, v, hwf, hval, hok, hnu => by
      rw [WFLayout] at hwf
      rw [ValidLayout] at hval
      rw [afvOKLayout] at hok
      cases hfi : filterItem i false with
      | some fi =>
          rw [show projLayoutVal (.item i) v = projItem i v from by
            rw [projLayoutVal.eq_def]; simp only [hfi]]
          rw [internalAddFixedValues]
          exact afv_item_kept i t v fi hwf hval hok hnu hfi
      | none =>
          rw [show projLayoutVal (.item i) v = .undef from by
            rw [projLayoutVal.eq_def]; simp only [hfi]]
          rw [internalAddFixedValues]
          rw [show undefToEmpty JVal.undef = JVal.obj [] from rfl]
          exact afv_item_dropped i t v hwf hval hok hnu hfi
  | .proper items, t, v, hwf, hval, hok, hnu => by
      rw [WFLayout] at hwf
      simp only [Bool.and_eq_true, decide_eq_true_eq] at hwf
      rw [ValidLayout] at hval
      obtain ⟨fs, hv, hfs⟩ := hval
      subst hv
      rw [afvOKLayout] at hok
      rw [show projLayoutVal (.proper items) (JVal.obj fs)
          = .obj (projItems items (.obj fs)) from by rw [projLayoutVal]]
      rw [internalAddFixedValues]
      rw [show undefToEmpty (JVal.obj (projItems items (.obj fs)))
          = JVal.obj (projItems items (.obj fs)) from rfl]
      have hnf : noUndefFields fs = true := by rwa [noUndef] at hnu
      rw [afv_items_go items t fs (.obj (projItems items (.obj fs))) []
        hwf.1 hwf.2 hfs hok hnf (fun m hm => rfl) (fun m hm => rfl)]
      simp
termination_by l _ _ _ _ _ _ => (sizeOf l, 1)

theorem afv_items_go : ∀ (items : ItemList) (t : Bool) (fs : List (String × JVal))
    (dv : JVal) (acc : List (String × JVal)),
    WFItems items t = true → (itemNames items).Nodup → ValidItems items fs →
    afvOKItems items = true → noUndefFields fs = true →
    (∀ m ∈ itemNames items,
      getFieldD dv m = getFieldD (.obj (projItems items (.obj fs))) m) →
    (∀ m ∈ itemNames items, acc.lookup m = none) →
    addFixedValuesItems items dv acc = some (acc ++ fs)
  | .nil, t, fs, dv, acc, hwf, hnod, hval, hok, hnu, hdv, hacc => by
      rw [ValidItems] at hval
      subst hval
      rw [addFixedValuesItems]
      simp
  | .cons name i rest, t, fs, dv, acc, hwf, hnod, hval, hok, hnu, hdv, hacc => by
      obtain ⟨hwfi, hwfrest⟩ := wfItems_destruct name i rest t hwf
      obtain ⟨t2, hwfi2⟩ : ∃ t2, WFItem i t2 = true := by
        rcases hwfi with h | h
        · exact ⟨t, h⟩
        · exact ⟨false, h⟩
      rw [itemNames] at hnod
      obtain ⟨hnmem, hnod2⟩ := List.nodup_cons.mp hnod
      rw [afvOKItems] at hok
      simp only [Bool.and_eq_true] at hok
      rw [ValidItems] at hval
      rw [addFixedValuesItems]
      have hdvname := hdv name (by rw [itemNames]; simp)
      cases hfi : filterItem i false with
      | none =>
          have hproj : projItems (.cons name i rest) (.obj fs)
              = projItems rest (.obj fs) := by
            rw [projItems.eq_def]; simp only [hfi]
          rw [hproj] at hdvname
          have hnone : getFieldD (.obj (projItems rest (.obj fs))) name = .undef := by
            apply getFieldD_obj_not_mem
            intro hmm
            obtain ⟨p, hp, hpe⟩ := List.mem_map.mp hmm
            exact hnmem (hpe ▸ projItems_names_sub rest (.obj fs) p hp)
          rw [hnone] at hdvname
          rw [hdvname]
          rw [show undefToEmpty JVal.undef = JVal.obj [] from rfl]
          by_cases hom : isOmitted i = true
          · rw [if_pos hom] at hval
            rw [afv_item_omitted i (.obj []) hom]
            simp only [Option.bind_eq_bind, Option.some_bind]
            rw [show isUndef JVal.undef = true from rfl]
            rw [if_pos rfl]
            have hdv2 : ∀ m ∈ itemNames rest,
                getFieldD dv m = getFieldD (.obj (projItems rest (.obj fs))) m := by
              intro m hm
              have := hdv m (by rw [itemNames]; simp [hm])
              rwa [hproj] at this
            exact afv_items_go rest t fs dv acc hwfrest hnod2 hval hok.2 hnu hdv2
              (fun m hm => hacc m (by rw [itemNames]; simp [hm]))
          · simp only [Bool.not_eq_true] at hom
            rw [if_neg (by simp [hom])] at hval
            obtain ⟨x, fs2, hfs, hx, hfs2⟩ := hval
            subst hfs
            rw [noUndefFields] at hnu
            simp only [Bool.and_eq_true] at hnu
            rw [afv_item_dropped i t2 x hwfi2 hx hok.1 hnu.1 hfi]
            simp only [Option.bind_eq_bind, Option.some_bind]
            have hxne : isUndef x = false := by
              cases x <;> first | exact absurd rfl (noUndef_ne_undef _ hnu.1) | rfl
            rw [hxne]
            rw [if_neg (by simp)]
            rw [objSetJ_append acc name x (hacc name (by rw [itemNames]; simp))]
            have hcongr : projItems rest (.obj ((name, x) :: fs2))
                = projItems rest (.obj fs2) := by
              refine projItems_congr rest _ _ ?_
              intro m hm
              exact getFieldD_obj_cons_ne m name x fs2 (fun he => hnmem (he ▸ hm))
            have hdv2 : ∀ m ∈ itemNames rest,
                getFieldD dv m = getFieldD (.obj (projItems rest (.obj fs2))) m := by
              intro m hm
              have := hdv m (by rw [itemNames]; simp [hm])
              rw [hproj, hcongr] at this
              exact this
            have hacc2 : ∀ m ∈ itemNames rest,
                (acc ++ [(name, x)]).lookup m = none := by
              intro m hm
              rw [lookupJ_append_of_none acc _ m
                (hacc m (by rw [itemNames]; simp [hm]))]
              have hne : m ≠ name := fun he => hnmem (he ▸ hm)
              simp [List.lookup, beq_eq_false_iff_ne.mpr hne]
            rw [afv_items_go rest t fs2 dv (acc ++ [(name, x)]) hwfrest hnod2 hfs2
              hok.2 hnu.2 hdv2 hacc2]
            simp
      | some fi =>
          have hom : isOmitted i = false := by
            cases hom2 : isOmitted i
            · rfl
            · rw [filterItem_omitted i hom2] at hfi
              cases hfi
          rw [if_neg (by simp [hom])] at hval
          obtain ⟨x, fs2, hfs, hx, hfs2⟩ := hval
          subst hfs
          rw [noUndefFields] at hnu
          simp only [Bool.and_eq_true] at hnu
          have hproj : projItems (.cons name i rest) (.obj ((name, x) :: fs2))
              = (name, projItem i (getFieldD (.obj ((name, x) :: fs2)) name))
                  :: projItems rest (.obj ((name, x) :: fs2)) := by
            rw [projItems.eq_def]; simp only [hfi]
          rw [hproj, getFieldD_obj_cons_self] at hdvname
          rw [getFieldD_obj_cons_self] at hdvname
          rw [hdvname]
          rw [afv_item_kept i t2 x fi hwfi2 hx hok.1 hnu.1 hfi]
          simp only [Option.bind_eq_bind, Option.some_bind]
          have hxne : isUndef x = false := by
            cases x <;> first | exact absurd rfl (noUndef_ne_undef _ hnu.1) | rfl
          rw [hxne]
          rw [if_neg (by simp)]
          rw [objSetJ_append acc name x (hacc name (by rw [itemNames]; simp))]
          have hcongr : projItems rest (.obj ((name, x) :: fs2))
              = projItems rest (.obj fs2) := by
            refine projItems_congr rest _ _ ?_
            intro m hm
            exact getFieldD_obj_cons_ne m name x fs2 (fun he => hnmem (he ▸ hm))
          have hdv2 : ∀ m ∈ itemNames rest,
              getFieldD dv m = getFieldD (.obj (projItems rest (.obj fs2))) m := by
            intro m hm
            have := hdv m (by rw [itemNames]; simp [hm])
            rw [hproj] at this
            rw [show getFieldD (.obj ((name,
                projItem i (getFieldD (.obj ((name, x) :: fs2)) name))
                :: projItems rest (.obj ((name, x) :: fs2)))) m
                = getFieldD (.obj (projItems rest (.obj ((name, x) :: fs2)))) m from
              getFieldD_obj_cons_ne m name _ _ (fun he => hnmem (he ▸ hm))] at this
            rw [hcongr] at this
            exact this
          have hacc2 : ∀ m ∈ itemNames rest,
              (acc ++ [(name, x)]).lookup m = none := by
            intro m hm
            rw [lookupJ_append_of_none acc _ m
              (hacc m (by rw [itemNames]; simp [hm]))]
            have hne : m ≠ name := fun he => hnmem (he ▸ hm)
            simp [List.lookup, beq_eq_false_iff_ne.mpr hne]
          rw [afv_items_go rest t fs2 dv (acc ++ [(name, x)]) hwfrest hnod2 hfs2
            hok.2 hnu.2 hdv2 hacc2]
          simp
termination_by il _ _ _ _ _ _ _ _ _ _ _ => (sizeOf il, 0)

theorem afv_switch : ∀ (vars : VariantList) (idS : Nat) (tag : Option String)
    (t : Bool) (v : JVal),
    WFVariants vars idS tag t = true → (variantIdVals vars).Nodup →
    afvOKVariants vars = true → ValidSwitch vars tag v → noUndef v = true →
    addFixedValuesVariants vars (tagName tag) (getFieldD v (tagName tag))
      (.obj ((tagName tag, getFieldD v (tagName tag)) ::
        projVariants vars (getFieldD v (tagName tag)) v)) = some v
  | .nil, idS, tag, t, v, hwf, hnodi, hok, hval, hnu => by
      rw [ValidSwitch] at hval
      exact hval.elim
  | .cons n2 lbl2 body2 rest2, idS, tag, t, v, hwf, hnodi, hok, hval, hnu => by
      rw [WFVariants] at hwf
      simp only [Bool.and_eq_true, decide_eq_true_eq] at hwf
      obtain ⟨⟨⟨⟨hidlt, hwfb⟩, hnodbn⟩, htag⟩, hwfrest⟩ := hwf
      rw [variantIdVals] at hnodi
      obtain ⟨hnodi1, hnodirest⟩ := List.nodup_cons.mp hnodi
      rw [afvOKVariants] at hok
      simp only [Bool.and_eq_true] at hok
      rw [ValidSwitch] at hval
      rcases hval with ⟨fs, hv, hfs⟩ | hval
      · subst hv
        rw [getFieldD_obj_cons_self]
        rw [show projVariants (.cons n2 lbl2 body2 rest2) ((variantIdVal n2 lbl2).toJVal)
            (JVal.obj ((tagName tag, (variantIdVal n2 lbl2).toJVal) :: fs))
            = projItems body2
                (JVal.obj ((tagName tag, (variantIdVal n2 lbl2).toJVal) :: fs)) from by
          rw [projVariants, if_pos ((idMatches_toJVal _ _).mpr rfl)]]
        rw [addFixedValuesVariants, if_pos ((idMatches_toJVal _ _).mpr rfl)]
        rw [noUndef, noUndefFields] at hnu
        simp only [Bool.and_eq_true] at hnu
        have hcongr : projItems body2
            (JVal.obj ((tagName tag, (variantIdVal n2 lbl2).toJVal) :: fs))
            = projItems body2 (.obj fs) := by
          refine projItems_congr body2 _ _ ?_
          intro m hm
          exact getFieldD_obj_cons_ne m (tagName tag) _ fs (fun he => htag (he ▸ hm))
        have hdv : ∀ m ∈ itemNames body2,
            getFieldD (JVal.obj ((tagName tag, (variantIdVal n2 lbl2).toJVal) ::
              projItems body2
                (JVal.obj ((tagName tag, (variantIdVal n2 lbl2).toJVal) :: fs)))) m
            = getFieldD (.obj (projItems body2 (.obj fs))) m := by
          intro m hm
          have hne : m ≠ tagName tag := fun he => htag (he ▸ hm)
          rw [getFieldD_obj_cons_ne m (tagName tag) _ _ hne, hcongr]
        rw [afv_items_go body2 t fs _ [] hwfb hnodbn hfs hok.1 hnu.2 hdv
          (fun m hm => rfl)]
        simp only [Option.bind_eq_bind, Option.some_bind, List.nil_append,
          Option.some.injEq]
        have hsub := validItems_names_sublist body2 fs hfs
        rw [objSpread_eq_append fs [(tagName tag, (variantIdVal n2 lbl2).toJVal)] ?_
          (hsub.nodup hnodbn)]
        · rfl
        · intro p hp
          have hmem : p.1 ∈ itemNames body2 := hsub.subset (List.mem_map_of_mem _ hp)
          have hne : p.1 ≠ tagName tag := fun he => htag (he ▸ hmem)
          simp [List.lookup, beq_eq_false_iff_ne.mpr hne]
      · obtain ⟨n, lbl, body, fs, hmem, hv, hfs⟩ := validSwitch_unpack rest2 tag v hval
        have hne : variantIdVal n2 lbl2 ≠ variantIdVal n lbl := by
          intro he
          apply hnodi1
          rw [he]
          exact variantMem_idVal_mem rest2 n lbl body hmem
        have hnm : idMatches (variantIdVal n2 lbl2) (getFieldD v (tagName tag))
            = false := by
          rw [hv, getFieldD_obj_cons_self]
          rw [← Bool.not_eq_true]
          intro hc
          exact hne ((idMatches_toJVal _ _).mp hc)
        rw [show projVariants (.cons n2 lbl2 body2 rest2) (getFieldD v (tagName tag)) v
            = projVariants rest2 (getFieldD v (tagName tag)) v from by
          rw [projVariants, if_neg (by simp [hnm])]]
        rw [addFixedValuesVariants, if_neg (by simp [hnm])]
        exact afv_switch rest2 idS tag t v hwfrest hnodirest hok.2 hval hnu
termination_by vars _ _ _ _ _ _ _ _ _ => (sizeOf vars, 0)

theorem afv_elems : ∀ (elem : Layout) (xs : List JVal),
    WFLayout elem false = true → (∀ x ∈ xs, ValidLayout elem x) →
    afvOKLayout elem = true → noUndefList xs = true →
    addFixedValuesElems elem (projElems elem xs) = some xs
  | elem, [], hwf, hval, hok, hnu => by
      rw [projElems, addFixedValuesElems]
  | elem, x :: xs, hwf, hval, hok, hnu => by
      rw [projElems, addFixedValuesElems]
      rw [noUndefList] at hnu
      simp only [Bool.and_eq_true] at hnu
      rw [afv_layout elem false x hwf (hval x (by simp)) hok hnu.1]
      simp only [Option.bind_eq_bind, Option.some_bind]
      rw [afv_elems elem xs hwf (fun y hy => hval y (by simp [hy])) hok hnu.2]
      rfl
termination_by elem xs _ _ _ _ => (sizeOf elem, xs.length + 2)

end

/-- C3 counterexample: a well-formed layout with one Array item whose
element layout is a single constant (fixed) item, and a value valid for
it.  dynamicItemsOf prunes the Array entirely, so the dynamic projection
is the empty record and addFixedValues cannot recover the element count:
it returns the empty record instead of the full value, refuting the
claimed reconstruction identity. -/
theorem c3_addFixedValues_counterexample :
    WFLayout
      (.proper (.cons "xs"
        (.arr (.fixedLen 1) (.item (.num false 1 none (.const 7 false)))) .nil))
      true = true ∧
    ValidLayout
      (.proper (.cons "xs"
        (.arr (.fixedLen 1) (.item (.num false 1 none (.const 7 false)))) .nil))
      (.obj [("xs", .arr [.num 7])]) ∧
    addFixedValues
      (.proper (.cons "xs"
        (.arr (.fixedLen 1) (.item (.num false 1 none (.const 7 false)))) .nil))
      (projLayoutVal
        (.proper (.cons "xs"
          (.arr (.fixedLen 1) (.item (.num false 1 none (.const 7 false)))) .nil))
        (.obj [("xs", .arr [.num 7])]))
      = some (.obj []) ∧
    JVal.obj [] ≠ JVal.obj [("xs", .arr [.num 7])] := by
  have h1 : filterItem (.num false 1 none (.const 7 false)) false = none := by
    rw [filterItem]
    simp [numCustomIsFixed]
  have h2 : filterItem
      (.arr (.fixedLen 1) (.item (.num false 1 none (.const 7 false)))) false
      = none := by
    rw [filterItem.eq_def]
    simp only [h1]
  have h3 : projItems
      (.cons "xs" (.arr (.fixedLen 1) (.item (.num false 1 none (.const 7 false)))) .nil)
      (.obj [("xs", .arr [.num 7])]) = [] := by
    rw [projItems.eq_def]
    simp only [h2]
    rw [projItems]
  have h4 : projLayoutVal
      (.proper (.cons "xs"
        (.arr (.fixedLen 1) (.item (.num false 1 none (.const 7 false)))) .nil))
      (.obj [("xs", .arr [.num 7])]) = .obj [] := by
    rw [projLayoutVal, h3]
  refine ⟨?_, ?_, ?_, by simp⟩
  · simp [WFLayout, WFItems, WFItem, itemNames, numInRange]
  · rw [ValidLayout]
    refine ⟨[("xs", .arr [.num 7])], rfl, ?_⟩
    rw [ValidItems]
    simp only [isOmitted]
    refine ⟨.arr [.num 7], [], by simp, ?_, by rw [ValidItems]⟩
    rw [ValidItem]
    refine ⟨[.num 7], rfl, ?_, by rw [aLenOK]; rfl⟩
    intro x hx
    simp only [List.mem_singleton] at hx
    subst hx
    rw [ValidLayout, ValidItem]
    simp
  · rw [h4, addFixedValues, internalAddFixedValues]
    rw [show undefToEmpty (JVal.obj []) = JVal.obj [] from rfl]
    have h5 : internalAddFixedValuesItem
        (.arr (.fixedLen 1) (.item (.num false 1 none (.const 7 false))))
        (.obj []) = some .undef := by
      rw [internalAddFixedValuesItem.eq_def]
    rw [addFixedValuesItems]
    rw [show getFieldD (JVal.obj []) "xs" = JVal.undef from rfl]
    rw [show undefToEmpty JVal.undef = JVal.obj [] from rfl]
    rw [h5]
    simp only [Option.bind_eq_bind, Option.some_bind]
    rw [show isUndef JVal.undef = true from rfl, if_pos rfl]
    rw [addFixedValuesItems]
    rfl

/-- C3 amended: addFixedValues applied to the dynamic projection of a
valid value reconstructs the value exactly, provided the layout is
well-formed, the value contains no undefined anywhere, and the layout
avoids the two information-losing shapes: a layout-wrapping Bytes item
with a FixedConversion (rebuilt from the conversion's raw side, not its
decoded side) and an Array item whose element layout is pruned by
dynamicItemsOf (its element count is lost). -/
theorem c3_addFixedValues_amended (l : Layout) (v : JVal)
    (hwf : WFLayout l true = true) (hval : ValidLayout l v)
    (hok : afvOKLayout l = true) (hnu : noUndef v = true) :
    addFixedValues l (projLayoutVal l v) = some v := by
  rw [addFixedValues]
  exact afv_layout l true v hwf hval hok hnu

/-- Witness for the amended C3 theorem on a two-item layout with one
omitted constant and one plain numeric item. -/
theorem c3_addFixedValues_amended_witness :
    addFixedValues
      (.proper (.cons "pad" (.num false 1 none (.const 9 true))
        (.cons "x" (.num false 1 none .plain) .nil)))
      (projLayoutVal
        (.proper (.cons "pad" (.num false 1 none (.const 9 true))
          (.cons "x" (.num false 1 none .plain) .nil)))
        (.obj [("x", .num 5)]))
      = some (.obj [("x", .num 5)]) := by
  apply c3_addFixedValues_amended
  · simp [WFLayout, WFItems, WFItem, itemNames, numInRange]
  · rw [ValidLayout]
    refine ⟨[("x", .num 5)], rfl, ?_⟩
    rw [ValidItems]
    simp only [isOmitted, if_pos rfl]
    rw [ValidItems]
    simp only [isOmitted]
    refine ⟨.num 5, [], by simp, ?_, by rw [ValidItems]⟩
    rw [ValidItem]
    exact ⟨5, rfl, by decide⟩
  · simp [afvOKLayout, afvOKItems, afvOKItem]
  · simp [noUndef, noUndefFields]

theorem setEndBLen_slots (len : BLen) (E : Endian) :
    bLenSlots (setEndBLen len E)
      = (bLenSlots len).map (fun p => if 1 < p.1 then (p.1, some E) else p) ∧
    eraseBLen (setEndBLen len E) = eraseBLen len := by
  cases len with
  | auto => exact ⟨rfl, rfl⟩
  | manual s => exact ⟨rfl, rfl⟩
  | lenPrefixed ls le =>
      constructor
      · by_cases h : 1 < ls
        · simp [setEndBLen, bLenSlots, h]
        · simp [setEndBLen, bLenSlots, h]
      · by_cases h : 1 < ls
        · simp [setEndBLen, eraseBLen, h]
        · simp [setEndBLen, eraseBLen, h]

theorem setEndALen_slots (alen : ALen) (E : Endian) :
    aLenSlots (setEndALen alen E)
      = (aLenSlots alen).map (fun p => if 1 < p.1 then (p.1, some E) else p) ∧
    eraseALen (setEndALen alen E) = eraseALen alen := by
  cases alen with
  | fixedLen n => exact ⟨rfl, rfl⟩
  | remainder => exact ⟨rfl, rfl⟩
  | lenPrefixed ls le =>
      constructor
      · by_cases h : 1 < ls
        · simp [setEndALen, aLenSlots, h]
        · simp [setEndALen, aLenSlots, h]
      · by_cases h : 1 < ls
        · simp [setEndALen, eraseALen, h]
        · simp [setEndALen, eraseALen, h]

mutual

theorem setEnd_char_item : ∀ (i : Item) (E : Endian),
    numSlotsItem (setEndItem i E)
      = (numSlotsItem i).map (fun p => if 1 < p.1 then (p.1, some E) else p) ∧
    eraseEndItem (setEndItem i E) = eraseEndItem i
  | .num sg sz e c, E => by
      rw [setEndItem, numSlotsItem, numSlotsItem, eraseEndItem, eraseEndItem]
      constructor
      · by_cases h : 1 < sz
        · simp [h]
        · simp [h]
      · rfl
  | .bytesPure len c, E => by
      rw [setEndItem, numSlotsItem, numSlotsItem, eraseEndItem, eraseEndItem]
      exact ⟨(setEndBLen_slots len E).1, by rw [(setEndBLen_slots len E).2]⟩
  | .bytesLayout len inner c, E => by
      rw [setEndItem, numSlotsItem, numSlotsItem, eraseEndItem, eraseEndItem]
      obtain ⟨hs, he⟩ := setEnd_char_layout inner E
      exact ⟨by rw [List.map_append, (setEndBLen_slots len E).1, hs],
        by rw [(setEndBLen_slots len E).2, he]⟩
  | .arr alen elem, E => by
      rw [setEndItem, numSlotsItem, numSlotsItem, eraseEndItem, eraseEndItem]
      obtain ⟨hs, he⟩ := setEnd_char_layout elem E
      exact ⟨by rw [List.map_append, (setEndALen_slots alen E).1, hs],
        by rw [(setEndALen_slots alen E).2, he]⟩
  | .switch idS idE tag vars, E => by
      rw [setEndItem, numSlotsItem, numSlotsItem, eraseEndItem, eraseEndItem]
      obtain ⟨hs, he⟩ := setEnd_char_variants vars E
      constructor
      · rw [List.map_cons, hs]
        by_cases h : 1 < idS
        · simp [h]
        · simp [h]
      · rw [he]
termination_by i _ => (sizeOf i, 0)

theorem setEnd_char_layout : ∀ (l : Layout) (E : Endian),
    numSlotsLayout (setEndLayout l E)
      = (numSlotsLayout l).map (fun p => if 1 < p.1 then (p.1, some E) else p) ∧
    eraseEndLayout (setEndLayout l E) = eraseEndLayout l
  | .item i, E => by
      rw [setEndLayout, numSlotsLayout, numSlotsLayout, eraseEndLayout, eraseEndLayout]
      obtain ⟨hs, he⟩ := setEnd_char_item i E
      exact ⟨hs, by rw [he]⟩
  | .proper items, E => by
      rw [setEndLayout, numSlotsLayout, numSlotsLayout, eraseEndLayout, eraseEndLayout]
      obtain ⟨hs, he⟩ := setEnd_char_items items E
      exact ⟨hs, by rw [he]⟩
termination_by l _ => (sizeOf l, 0)

theorem setEnd_char_items : ∀ (items : ItemList) (E : Endian),
    numSlotsItems (setEndItems items E)
      = (numSlotsItems items).map (fun p => if 1 < p.1 then (p.1, some E) else p) ∧
    eraseEndItems (setEndItems items E) = eraseEndItems items
  | .nil, E => by
      rw [setEndItems, numSlotsItems]
      exact ⟨by simp, rfl⟩
  | .cons name i rest, E => by
      rw [setEndItems, numSlotsItems, numSlotsItems, eraseEndItems, eraseEndItems]
      obtain ⟨hs1, he1⟩ := setEnd_char_item i E
      obtain ⟨hs2, he2⟩ := setEnd_char_items rest E
      exact ⟨by rw [List.map_append, hs1, hs2], by rw [he1, he2]⟩
termination_by il _ => (sizeOf il, 0)

theorem setEnd_char_variants : ∀ (vars : VariantList) (E : Endian),
    numSlotsVariants (setEndVariants vars E)
      = (numSlotsVariants vars).map (fun p => if 1 < p.1 then (p.1, some E) else p) ∧
    eraseEndVariants (setEndVariants vars E) = eraseEndVariants vars
  | .nil, E => by
      rw [setEndVariants, numSlotsVariants]
      exact ⟨by simp, rfl⟩
  | .cons n lbl body rest, E => by
      rw [setEndVariants, numSlotsVariants, numSlotsVariants,
        eraseEndVariants, eraseEndVariants]
      obtain ⟨hs1, he1⟩ := setEnd_char_items body E
      obtain ⟨hs2, he2⟩ := setEnd_char_variants rest E
      exact ⟨by rw [List.map_append, hs1, hs2], by rw [he1, he2]⟩
termination_by vars _ => (sizeOf vars, 0)

end

/-- C5 counterexample: a Numeric item of width 2 that already carries an
explicit big byte order.  setEndianness(layout, little) replaces the
explicit order with little instead of leaving the item untouched, as the
test suite pins for enumItem (which carries an explicit big order). -/
theorem c5_setEndianness_counterexample :
    setEndianness (.item (.num false 2 (some .big) .plain)) .little
      = .item (.num false 2 (some .little) .plain) ∧
    setEndianness (.item (.num false 2 (some .big) .plain)) .little
      ≠ .item (.num false 2 (some .big) .plain) := by
  have h : setEndianness (.item (.num false 2 (some .big) .plain)) .little
      = .item (.num false 2 (some .little) .plain) := by
    rw [setEndianness, setEndLayout, setEndItem]
    norm_num
  exact ⟨h, by rw [h]; simp⟩

/-- C5 amended: setEndianness(layout, E) rewrites exactly the numeric
slots of the schema — in slot order, every multi-byte slot's byte order
becomes E whether or not it was explicit, and every one-byte slot is left
untouched — and modifies nothing else (the layouts agree after erasing
all byte-order annotations). -/
theorem c5_setEndianness_amended (l : Layout) (E : Endian) :
    numSlotsLayout (setEndianness l E)
      = (numSlotsLayout l).map (fun p => if 1 < p.1 then (p.1, some E) else p) ∧
    eraseEndLayout (setEndianness l E) = eraseEndLayout l := by
  rw [setEndianness]
  exact setEnd_char_layout l E

mutual

theorem calc_static_item : ∀ i : Item,
    (calcStaticSizeItem i).isSome = true ↔ hasValueDepSizeItem i = false
  | .num sg sz e c => by
      simp [calcStaticSizeItem, hasValueDepSizeItem]
  | .bytesPure len c => by
      cases len <;> cases c <;>
        simp [calcStaticSizeItem, hasValueDepSizeItem, bytesKnownLen]
  | .bytesLayout len inner c => by
      cases len with
      | manual s =>
          have h := calc_static_layout inner
          simp only [calcStaticSizeItem, hasValueDepSizeItem]
          rw [← h]
          cases calcStaticSizeLayout inner <;> simp
      | lenPrefixed ls le =>
          simp [calcStaticSizeItem, hasValueDepSizeItem]
      | auto =>
          have h := calc_static_layout inner
          simp only [calcStaticSizeItem, hasValueDepSizeItem]
          exact h
  | .arr alen elem => by
      cases alen with
      | fixedLen n =>
          have h := calc_static_layout elem
          simp only [calcStaticSizeItem, hasValueDepSizeItem]
          rw [← h]
          cases calcStaticSizeLayout elem <;> simp
      | lenPrefixed ls le =>
          simp [calcStaticSizeItem, hasValueDepSizeItem]
      | remainder =>
          simp [calcStaticSizeItem, hasValueDepSizeItem]
  | .switch idS idE tag vars => by
      simp [calcStaticSizeItem, hasValueDepSizeItem]
termination_by i => (sizeOf i, 0)

theorem calc_static_layout : ∀ l : Layout,
    (calcStaticSizeLayout l).isSome = true ↔ hasValueDepSizeLayout l = false
  | .item i => by
      rw [calcStaticSizeLayout, hasValueDepSizeLayout]
      exact calc_static_item i
  | .proper items => by
      rw [calcStaticSizeLayout, hasValueDepSizeLayout]
      exact calc_static_items items
termination_by l => (sizeOf l, 0)

theorem calc_static_items : ∀ items : ItemList,
    (calcStaticSizeItems items).isSome = true ↔ hasValueDepSizeItems items = false
  | .nil => by
      rw [calcStaticSizeItems, hasValueDepSizeItems]
      simp
  | .cons name i rest => by
      rw [calcStaticSizeItems, hasValueDepSizeItems]
      have h1 := calc_static_item i
      have h2 := calc_static_items rest
      simp only [Bool.or_eq_false_iff]
      cases hc1 : calcStaticSizeItem i with
      | none =>
          rw [hc1] at h1
          simp at h1 ⊢
          intro hitem
          exact absurd hitem (by simp [← h1])
      | some a =>
          rw [hc1] at h1
          simp at h1
          cases hc2 : calcStaticSizeItems rest with
          | none =>
              rw [hc2] at h2
              simp at h2 ⊢
              simp [h1, ← h2]
          | some b =>
              rw [hc2] at h2
              simp at h2
              simp [h1, h2]
termination_by il => (sizeOf il, 0)

end

/-- C8: calcStaticSize returns a definite total exactly when every item of
the layout has a value-independent size — no length-prefixed or remainder
Bytes or Array item and no Switch item anywhere — and is absent whenever
any part of the layout is value-dependent. -/
theorem c8_calcStaticSize (l : Layout) :
    (calcStaticSize l).isSome = true ↔ hasValueDepSizeLayout l = false := by
  rw [calcStaticSize]
  exact calc_static_layout l

end BinaryLayout